import Mathlib

/-!
# xv6 per-CPU process tables (`proc.c`): a shallow embedding

The kernel keeps one process table per CPU (`ptables[NCPU]`), each with a
slot array `proc[NPROC]` and an intrusive singly linked run queue (`runq`
head, `next` links stored in the slots).  A pointer to a slot is modelled as
the pair (table index, slot index); the null pointer is `none`.

Conventions of the embedding:

* `ptable` (the per-CPU pointer to the running CPU's own table) is
  `ptables[me]`, where `me = cpunum()` is a parameter of every operation;
  `proc` (the running process) is the parameter `cur`.
* `NCPU` and `NPROC` (from `param.h`) are parameters.
* Spinlocks carry no state: every operation is executed sequentially,
  starting with all locks free, so an `acquire`/`release` pair on a lock of
  `ptables` has no effect on the modelled state.  The one pair whose lock
  address can lie outside `ptables`, `ptable[c].lock` in `exit`, is checked
  against the array bound.  Console output (`cprintf`) is dropped as well.
* Loops that walk a run queue take `fuel`; the result `none` stands for a
  walk that does not end (a cyclic queue), for a `panic`, or for an access
  past the end of `ptables` (undefined behaviour).
* Where operations of two CPUs overlap, the steps are the parts of an
  operation between lock operations (`sleep_mark`, `exit_unlink`, one pass
  of `wakeup`), composed explicitly.
-/

namespace Xv6

/-- The values of `enum procstate`. -/
inductive procstate where
  | UNUSED
  | EMBRYO
  | SLEEPING
  | RUNNABLE
  | RUNNING
  | ZOMBIE
  deriving DecidableEq, Repr

open procstate

/-- A non-null `struct proc *`: `&ptables[c].proc[i]` is `(c, i)`. -/
abbrev Ptr := Nat × Nat

/-- A `void *` used as a sleep channel: null, the address of a process slot,
or any other kernel address. -/
inductive Chan where
  | null
  | procp (p : Ptr)
  | other (a : Nat)
  deriving DecidableEq, Repr

/-- The cast of a `struct proc *` to `void *`. -/
def chanOf : Option Ptr → Chan
  | none => Chan.null
  | some p => Chan.procp p

/-- The fields of `struct trapframe` that `proc.c` touches. -/
structure trapframe where
  eax : Nat
  cs : Nat
  ds : Nat
  es : Nat
  ss : Nat
  eflags : Nat
  esp : Nat
  eip : Nat
  deriving DecidableEq, Repr

/-- The fields of `struct proc` that `proc.c` touches. -/
structure proc where
  sz : Nat
  pgdir : Nat
  kstack : Nat
  state : procstate
  pid : Int
  parent : Option Ptr
  tf : trapframe
  ctxeip : Nat
  chan : Chan
  killed : Int
  ofile : List Nat
  cwd : Nat
  name : List Nat
  next : Option Ptr
  deriving DecidableEq, Repr

/-- One entry of `ptables`: the slot array and the head of the run queue. -/
structure ptable where
  proc : Nat → proc
  runq : Option Ptr

/-- The global variables of `proc.c`. -/
structure Kernel where
  ptables : Nat → ptable
  nextpid : Int
  initproc : Option Ptr

/-- Read `*p`. -/
def Kernel.get (s : Kernel) (p : Ptr) : proc :=
  (s.ptables p.1).proc p.2

/-- Write `*p = v`. -/
def Kernel.set (s : Kernel) (p : Ptr) (v : proc) : Kernel :=
  let t := s.ptables p.1
  { s with ptables := Function.update s.ptables p.1 ({ t with proc := Function.update t.proc p.2 v }) }

/-- Read `ptables[c].runq`. -/
def Kernel.runq (s : Kernel) (c : Nat) : Option Ptr :=
  (s.ptables c).runq

/-- Write `ptables[c].runq = h`. -/
def Kernel.setRunq (s : Kernel) (c : Nat) (h : Option Ptr) : Kernel :=
  let t := s.ptables c
  { s with ptables := Function.update s.ptables c ({ t with runq := h }) }

/-- The C string held in a `char name[]` array: the bytes before the first NUL. -/
def cstr (name : List Nat) : List Nat :=
  name.takeWhile (fun b => b ≠ 0)

/-- The loop of `addrun1` together with the lines after it: `q` walks the
queue of table `pt`; when it meets `p` only the state is set, when it falls
off the end `p` is pushed at the front. -/
def addrun1_loop : Nat → Kernel → Nat → Ptr → Option Ptr → Option Kernel
  | 0, _, _, _, _ => none
  | _ + 1, s, pt, p, none =>
      some ((s.set p { s.get p with state := RUNNABLE, next := s.runq pt }).setRunq pt (some p))
  | fuel + 1, s, pt, p, some q =>
      if q = p then some (s.set p { s.get p with state := RUNNABLE })
      else addrun1_loop fuel s pt p (s.get q).next

/-- The function `addrun1(pt, p)`. -/
def addrun1 (fuel : Nat) (s : Kernel) (pt : Nat) (p : Ptr) : Option Kernel :=
  addrun1_loop fuel s pt p (s.runq pt)

/-- The function `addrun(p)`: `addrun1` on the caller's own table. -/
def addrun (fuel : Nat) (me : Nat) (s : Kernel) (p : Ptr) : Option Kernel :=
  addrun1 fuel s me p

/-- The `while` loop of `delrun1`: `prev` is the C variable `p`, `n` the
C variable `n`, `target` the argument `proc`. -/
def delrun1_loop : Nat → Kernel → Nat → Option Ptr → Option Ptr → Ptr → Option Kernel
  | 0, _, _, _, _, _ => none
  | _ + 1, s, _, _, none, _ => some s
  | fuel + 1, s, pt, prev, some n, target =>
      if n = target then
        let s1 :=
          match prev with
          | none => s.setRunq pt (s.get n).next
          | some p => s.set p { s.get p with next := (s.get n).next }
        some (s1.set n { s1.get n with next := none })
      else delrun1_loop fuel s pt (some n) (s.get n).next target

/-- The function `delrun1(pt, proc)`. -/
def delrun1 (fuel : Nat) (s : Kernel) (pt : Nat) (target : Ptr) : Option Kernel :=
  delrun1_loop fuel s pt none (s.runq pt) target

/-- The function `delrun(proc)`: `delrun1` on the caller's own table. -/
def delrun (fuel : Nat) (me : Nat) (s : Kernel) (target : Ptr) : Option Kernel :=
  delrun1 fuel s me target

/-- The loop of `wakeup1`: slots `i, i+1, ..., i+n-1` of table `pt`. -/
def wakeup1_loop (fuel : Nat) : Nat → Nat → Kernel → Nat → Chan → Option Kernel
  | 0, _, s, _, _ => some s
  | n + 1, i, s, pt, chan =>
      if (s.get (pt, i)).state = SLEEPING ∧ (s.get (pt, i)).chan = chan then
        match addrun1 fuel s pt (pt, i) with
        | none => none
        | some s1 => wakeup1_loop fuel n (i + 1) s1 pt chan
      else wakeup1_loop fuel n (i + 1) s pt chan

/-- The function `wakeup1(pt, chan)`. -/
def wakeup1 (fuel NPROC : Nat) (s : Kernel) (pt : Nat) (chan : Chan) : Option Kernel :=
  wakeup1_loop fuel NPROC 0 s pt chan

/-- The loop of `wakeup`: `n` iterations remain; every iteration calls
`wakeup1(ptable, chan)`, on the caller's own table. -/
def wakeup_loop (fuel NPROC me : Nat) : Nat → Kernel → Chan → Option Kernel
  | 0, s, _ => some s
  | n + 1, s, chan =>
      match wakeup1 fuel NPROC s me chan with
      | none => none
      | some s1 => wakeup_loop fuel NPROC me n s1 chan

/-- The function `wakeup(chan)`. -/
def wakeup (fuel NCPU NPROC me : Nat) (s : Kernel) (chan : Chan) : Option Kernel :=
  wakeup_loop fuel NPROC me NCPU s chan

/-- The inner loop of `kill` during outer iteration `c`: it scans
`ptable->proc`, the slots of the caller's own table, and wakes a sleeping
match with `addrun1(&ptables[c], p)`.  The flag tells whether `kill`
returned 0 from inside the loop. -/
def kill_inner (fuel : Nat) : Nat → Nat → Nat → Nat → Kernel → Int → Option (Bool × Kernel)
  | 0, _, _, _, s, _ => some (false, s)
  | n + 1, i, c, me, s, pid =>
      if (s.get (me, i)).pid = pid then
        let s1 := s.set (me, i) { s.get (me, i) with killed := 1 }
        if (s1.get (me, i)).state = SLEEPING then
          match addrun1 fuel s1 c (me, i) with
          | none => none
          | some s2 => some (true, s2)
        else some (true, s1)
      else kill_inner fuel n (i + 1) c me s pid

/-- The outer loop of `kill` over the tables `c, c+1, ..., c+n-1`. -/
def kill_outer (fuel NPROC me : Nat) : Nat → Nat → Kernel → Int → Option (Int × Kernel)
  | 0, _, s, _ => some (-1, s)
  | n + 1, c, s, pid =>
      match kill_inner fuel NPROC 0 c me s pid with
      | none => none
      | some (true, s1) => some (0, s1)
      | some (false, s1) => kill_outer fuel NPROC me n (c + 1) s1 pid

/-- The function `kill(pid)`: the return value and the state afterwards. -/
def kill (fuel NCPU NPROC me : Nat) (s : Kernel) (pid : Int) : Option (Int × Kernel) :=
  kill_outer fuel NPROC me NCPU 0 s pid

/-- The part of `sleep(chan, lk)` before `sched()` hands the CPU to the
scheduler.  `lk` is the address of the guard lock, 0 for a null pointer. -/
def sleep (fuel me : Nat) (cur : Ptr) (s : Kernel) (chan : Chan) (lk : Nat) : Option Kernel :=
  if lk = 0 then none
  else
    let s1 := s.set cur { s.get cur with chan := chan }
    let s2 := s1.set cur { s1.get cur with state := SLEEPING }
    delrun1 fuel s2 me cur

/-- The "Found one" block of `wait`: the zombie's stack and address space
are released (outside the model) and its slot is reset. -/
def wait_reap (s : Kernel) (p : Ptr) : Kernel :=
  s.set p { s.get p with
    kstack := 0, state := UNUSED, pid := 0, parent := none,
    name := (s.get p).name.set 0 0, killed := 0 }

/-- The inner loop of `wait` over the slots `i, ..., i+n-1` of table `c`.
The first component is `some (pid, s)` when a zombie child was reaped (the
function returns there); the second is `havekids`. -/
def wait_inner : Nat → Nat → Nat → Ptr → Kernel → Bool → Option (Int × Kernel) × Bool
  | 0, _, _, _, _, havekids => (none, havekids)
  | n + 1, i, c, cur, s, havekids =>
      if (s.get (c, i)).parent ≠ some cur then wait_inner n (i + 1) c cur s havekids
      else if (s.get (c, i)).state = ZOMBIE then
        (some ((s.get (c, i)).pid, wait_reap s (c, i)), true)
      else wait_inner n (i + 1) c cur s true

/-- The outer loop of `wait` over the tables `c, ..., c+n-1`. -/
def wait_outer (NPROC : Nat) : Nat → Nat → Ptr → Kernel → Bool → Option (Int × Kernel) × Bool
  | 0, _, _, _, havekids => (none, havekids)
  | n + 1, c, cur, s, havekids =>
      match wait_inner NPROC 0 c cur s havekids with
      | (some r, hk) => (some r, hk)
      | (none, hk) => wait_outer NPROC n (c + 1) cur s hk

/-- One round of the `for(;;)` loop of `wait`.  The result `some v` is the
value returned by `wait`; `none` means the caller went to sleep on itself
(the state is the one at `sched()`), to scan again when woken. -/
def wait (fuel NCPU NPROC me : Nat) (cur : Ptr) (s : Kernel) : Option (Option Int × Kernel) :=
  match wait_outer NPROC NCPU 0 cur s false with
  | (some (pid, s1), _) => some (some pid, s1)
  | (none, havekids) =>
      if havekids = false ∨ (s.get cur).killed ≠ 0 then some (some (-1), s)
      else
        match sleep fuel me cur s (Chan.procp cur) 1 with
        | none => none
        | some s1 => some (none, s1)

/-- The inner loop of the reparenting pass of `exit` (slots `i, ..., i+n-1`
of table `c`). -/
def exit_reparent_inner (fuel NPROC : Nat) : Nat → Nat → Nat → Ptr → Kernel → Option Kernel
  | 0, _, _, _, s => some s
  | n + 1, i, c, cur, s =>
      if (s.get (c, i)).parent = some cur then
        let s1 := s.set (c, i) { s.get (c, i) with parent := s.initproc }
        if (s1.get (c, i)).state = ZOMBIE then
          match wakeup1 fuel NPROC s1 c (chanOf s1.initproc) with
          | none => none
          | some s2 => exit_reparent_inner fuel NPROC n (i + 1) c cur s2
        else exit_reparent_inner fuel NPROC n (i + 1) c cur s1
      else exit_reparent_inner fuel NPROC n (i + 1) c cur s

/-- The outer loop of the reparenting pass (tables `c, ..., c+n-1`), run on
CPU `me`.  For table `c` the loop takes and releases `ptable[c].lock`; with
`ptable` pointing at `ptables[me]` this is `ptables[me + c].lock`, an access
past the end of `ptables[NCPU]` when `NCPU ≤ me + c`.  The behaviour is then
undefined, and the result is `none`; spinlocks have no other effect here. -/
def exit_reparent_outer (fuel NCPU NPROC me : Nat) :
    Nat → Nat → Ptr → Kernel → Option Kernel
  | 0, _, _, s => some s
  | n + 1, c, cur, s =>
      if NCPU ≤ me + c then none
      else
        match exit_reparent_inner fuel NPROC NPROC 0 c cur s with
        | none => none
        | some s1 => exit_reparent_outer fuel NCPU NPROC me n (c + 1) cur s1

/-- The reparenting pass of `exit` ("Pass abandoned children to init"), run
on CPU `me`. -/
def exit_reparent (fuel NCPU NPROC me : Nat) (cur : Ptr) (s : Kernel) : Option Kernel :=
  exit_reparent_outer fuel NCPU NPROC me NCPU 0 cur s

/-- The function `exit()` up to the final `sched()`.  The result is `none` when init
itself exits (`panic`), and when the reparenting pass reaches past the end
of `ptables`. -/
def exit (fuel NCPU NPROC me : Nat) (cur : Ptr) (s : Kernel) : Option Kernel :=
  if s.initproc = some cur then none
  else
    let s1 := s.set cur { s.get cur with ofile := (s.get cur).ofile.map (fun _ => 0), cwd := 0 }
    match delrun1 fuel s1 me cur with
    | none => none
    | some s2 =>
      match wakeup fuel NCPU NPROC me s2 (chanOf (s2.get cur).parent) with
      | none => none
      | some s3 =>
        match exit_reparent fuel NCPU NPROC me cur s3 with
        | none => none
        | some s4 => some (s4.set cur { s4.get cur with state := ZOMBIE })

/-- The scan of `steal` over the run queue starting at `q`: the first
process whose state is RUNNABLE, if any. -/
def steal_scan : Nat → Kernel → Option Ptr → Option (Option Ptr)
  | 0, _, _ => none
  | _ + 1, _, none => some none
  | fuel + 1, s, some p =>
      if (s.get p).state = RUNNABLE then some (some p)
      else steal_scan fuel s (s.get p).next

/-- The loop of `steal` over the tables `c, ..., c+n-1`. -/
def steal_loop (fuel me : Nat) : Nat → Nat → Kernel → Option Kernel
  | 0, _, s => some s
  | n + 1, c, s =>
      if c = me then steal_loop fuel me n (c + 1) s
      else
        match steal_scan fuel s (s.runq c) with
        | none => none
        | some none => steal_loop fuel me n (c + 1) s
        | some (some p) =>
            match delrun1 fuel s c p with
            | none => none
            | some s1 => addrun fuel me s1 p

/-- The function `steal()`. -/
def steal (fuel NCPU me : Nat) (s : Kernel) : Option Kernel :=
  steal_loop fuel me NCPU 0 s

/-- A zero-filled slot, as in the zero-initialised global `ptables`. -/
def proc0 : proc :=
  { sz := 0, pgdir := 0, kstack := 0, state := UNUSED, pid := 0, parent := none,
    tf := { eax := 0, cs := 0, ds := 0, es := 0, ss := 0, eflags := 0, esp := 0, eip := 0 },
    ctxeip := 0, chan := Chan.null, killed := 0, ofile := [], cwd := 0, name := [], next := none }

/-- The globals before any process exists: zero-filled tables, `nextpid = 1`,
`initproc` null. -/
def boot : Kernel :=
  { ptables := fun _ => { proc := fun _ => proc0, runq := none }, nextpid := 1, initproc := none }

/-- Two CPUs: process 1 runs on CPU 0 (slot (0,0)); process 2, in CPU 1's
table (slot (1,0)), sleeps on channel 7. -/
def remoteSleeper : Kernel :=
  (boot.set (0, 0) { proc0 with state := RUNNING, pid := 1 }).set (1, 0)
    { proc0 with state := SLEEPING, pid := 2, parent := some (0, 0), chan := Chan.other 7 }

/-- Two CPUs: process 1 runs on CPU 0 (slot (0,0)); process 2 is RUNNABLE in
CPU 1's table (slot (1,0)) and is the only entry of CPU 1's run queue. -/
def remoteRunnable : Kernel :=
  ((boot.set (0, 0) { proc0 with state := RUNNING, pid := 1 }).set (1, 0)
    { proc0 with state := RUNNABLE, pid := 2, parent := some (0, 0) }).setRunq 1 (some (1, 0))

/-- One process, with id 1, runs on CPU 0 (slot (0,0)); every other slot is
UNUSED and zero-filled. -/
def loneProcess : Kernel :=
  boot.set (0, 0) { proc0 with state := RUNNING, pid := 1 }

/-- Two CPUs: init (slot (0,0), id 1) is asleep in its `wait`; process 2
runs on CPU 1 (slot (1,0)); process 3, in the same table (slot (1,1)),
sleeps on channel 7.  Both run queues are empty. -/
def localSleeper : Kernel :=
  { (((boot.set (0, 0)
      { proc0 with state := SLEEPING, pid := 1, chan := Chan.procp (0, 0) }).set (1, 0)
      { proc0 with state := RUNNING, pid := 2, parent := some (0, 0) }).set (1, 1)
      { proc0 with state := SLEEPING, pid := 3, parent := some (1, 0), chan := Chan.other 7 }) with
    nextpid := 4, initproc := some (0, 0) }

/-- Two CPUs.  Table 0 holds init (slot (0,0), id 1), asleep in its own
`wait`, and a shell (slot (0,1), id 2) running on CPU 0.  Table 1 holds the
exiting process (slot (1,0), id 3, child of the shell) running on CPU 1, and
its child (slot (1,1), id 4), already a ZOMBIE. -/
def orphanZombie : Kernel :=
  { ((((boot.set (0, 0)
      { proc0 with state := SLEEPING, pid := 1, chan := Chan.procp (0, 0) }).set (0, 1)
      { proc0 with state := RUNNING, pid := 2, parent := some (0, 0) }).set (1, 0)
      { proc0 with state := RUNNING, pid := 3, parent := some (0, 1) }).set (1, 1)
      { proc0 with state := ZOMBIE, pid := 4, parent := some (1, 0) }) with
    nextpid := 5, initproc := some (0, 0) }

/-- Two CPUs, every running process linked in the run queue of its CPU.
Table 0 holds init (slot (0,0), id 1), asleep in its own `wait`, and a
process (slot (0,1), id 3, child of the shell) running on CPU 0.  Table 1
holds the shell (slot (1,0), id 2, child of init) running on CPU 1, and a
child of process 3 (slot (1,1), id 4), already a ZOMBIE. -/
def crossTableFamily : Kernel :=
  { ((((((boot.set (0, 0)
      { proc0 with state := SLEEPING, pid := 1, chan := Chan.procp (0, 0) }).set (0, 1)
      { proc0 with state := RUNNING, pid := 3, parent := some (1, 0) }).set (1, 0)
      { proc0 with state := RUNNING, pid := 2, parent := some (0, 0) }).set (1, 1)
      { proc0 with state := ZOMBIE, pid := 4, parent := some (0, 1) }).setRunq
      0 (some (0, 1))).setRunq 1 (some (1, 0))) with
    nextpid := 5, initproc := some (0, 0) }

/-- The predicate `Path s a l`: following the `next` links from the pointer `a` visits
exactly the slots of `l`, in this order, and then reaches the null pointer. -/
def Path (s : Kernel) : Option Ptr → List Ptr → Prop
  | a, [] => a = none
  | a, x :: t => a = some x ∧ Path s (s.get x).next t

/-- The predicate `Path` can be checked by walking the list. -/
instance decPath (s : Kernel) : ∀ (a : Option Ptr) (l : List Ptr), Decidable (Path s a l)
  | a, [] => inferInstanceAs (Decidable (a = none))
  | _, x :: t => @instDecidableAnd _ _ inferInstance (decPath s (s.get x).next t)

/-- The run queue of table `c` is a finite, null-terminated list. -/
def Acyclic (s : Kernel) (c : Nat) : Prop :=
  ∃ l, Path s (s.runq c) l

/-- The pointer cell that `delrun1` would overwrite to unlink the node after
`prev`: the queue head when `prev` is null, `prev->next` otherwise. -/
def linkOf (s : Kernel) (pt : Nat) : Option Ptr → Option Ptr
  | none => s.runq pt
  | some pv => (s.get pv).next

/-- The number of slots, over all tables, whose state is not UNUSED. -/
def liveCount (NCPU NPROC : Nat) (s : Kernel) : Nat :=
  ((List.range NCPU).map (fun c =>
    ((List.range NPROC).filter (fun i => decide ((s.get (c, i)).state ≠ UNUSED))).length)).sum

/-- Two CPUs: process 1 (slot (1,0)) runs on CPU 1; processes 2 and 3 (slots
(1,1) and (1,2)) are RUNNABLE and form CPU 1's run queue, 3 first.  CPU 0
has nothing to run. -/
def idleCpu0 : Kernel :=
  (((boot.set (1, 0) { proc0 with state := RUNNING, pid := 1 }).set (1, 1)
      { proc0 with state := RUNNABLE, pid := 2, parent := some (1, 0) }).set (1, 2)
      { proc0 with state := RUNNABLE, pid := 3, parent := some (1, 0), next := some (1, 1) }).setRunq 1
    (some (1, 2))

/-- The run queues of `idleCpu0` as lists: empty on CPU 0, processes 3 and 2
on CPU 1. -/
def idleCpu0Queues : Nat → List Ptr :=
  fun c => if c = 1 then [(1, 2), (1, 1)] else []

/-- The parent pointer after the reparenting pass of `exit` has visited a
slot whose parent pointer was `par`. -/
def reparented (cur : Ptr) (init par : Option Ptr) : Option Ptr :=
  if par = some cur then init else par

/-- Two's-complement wrap of a 32-bit `int`, for `nextpid++`. -/
def wrap32 (x : Int) : Int :=
  (x + 2147483648) % 4294967296 - 2147483648

/-- Write `nextpid = n`. -/
def Kernel.setNextpid (s : Kernel) (n : Int) : Kernel :=
  { s with nextpid := n }

/-- Write `initproc = p`. -/
def Kernel.setInitproc (s : Kernel) (p : Option Ptr) : Kernel :=
  { s with initproc := p }

/-- What the code outside `proc.c` hands to one call of `allocproc`, `fork`
or `userinit`: the results of `kalloc()` and of `copyuvm()`/`setupkvm()` (0
on failure), the address of `forkret`, and for the new process the handle
table after the `filedup` loop, the result of `idup`/`namei`, and the name
array after `safestrcpy`. -/
structure Extern where
  kalloc : Nat
  copyuvm : Nat
  forkret : Nat
  ofile : List Nat
  cwd : Nat
  name : List Nat

/-- The constants that `userinit` stores in the first trap frame: `PGSIZE`,
the user code and data selectors, and `FL_IF`. -/
structure InitImage where
  PGSIZE : Nat
  ucode : Nat
  udata : Nat
  FL_IF : Nat

/-- The scan of `allocproc` over the slots `i, ..., i+n-1` of the caller's
table: the index of the first UNUSED slot. -/
def allocproc_scan : Nat → Nat → Nat → Kernel → Option Nat
  | 0, _, _, _ => none
  | n + 1, i, me, s =>
      if (s.get (me, i)).state = UNUSED then some i else allocproc_scan n (i + 1) me s

/-- The part of `allocproc` after `found:`, for the slot `p`.  The trap frame
and the context live in the fresh kernel stack; of the context only
`eip = forkret` is recorded, and the trap frame keeps unspecified contents. -/
def allocproc_found (s : Kernel) (p : Ptr) (ext : Extern) : Option Ptr × Kernel :=
  let s1 := s.set p { s.get p with state := EMBRYO }
  let s2 := (s1.set p { s1.get p with pid := s1.nextpid }).setNextpid (wrap32 (s1.nextpid + 1))
  let s3 := s2.set p { s2.get p with kstack := ext.kalloc }
  if ext.kalloc = 0 then (none, s3.set p { s3.get p with state := UNUSED })
  else (some p, s3.set p { s3.get p with ctxeip := ext.forkret })

/-- The function `allocproc()`: the returned pointer (null is `none`) and the
state afterwards. -/
def allocproc (NPROC me : Nat) (s : Kernel) (ext : Extern) : Option Ptr × Kernel :=
  match allocproc_scan NPROC 0 me s with
  | none => (none, s)
  | some i => allocproc_found s (me, i) ext

/-- The part of `fork` after a successful `allocproc` that returned `np`. -/
def fork_child (fuel me : Nat) (cur np : Ptr) (s1 : Kernel) (ext : Extern) :
    Option (Int × Kernel) :=
  let s2 := s1.set np { s1.get np with pgdir := ext.copyuvm }
  if ext.copyuvm = 0 then
    let s3 := s2.set np { s2.get np with kstack := 0 }
    some (-1, s3.set np { s3.get np with state := UNUSED })
  else
    let s3 := s2.set np { s2.get np with sz := (s2.get cur).sz }
    let s4 := s3.set np { s3.get np with parent := some cur }
    let s5 := s4.set np { s4.get np with tf := (s4.get cur).tf }
    let s6 := s5.set np { s5.get np with tf := { (s5.get np).tf with eax := 0 } }
    let s7 := s6.set np { s6.get np with ofile := ext.ofile }
    let s8 := s7.set np { s7.get np with cwd := ext.cwd }
    let pid := (s8.get np).pid
    match addrun fuel me s8 np with
    | none => none
    | some s9 => some (pid, s9.set np { s9.get np with name := ext.name })

/-- The function `fork()`: the return value and the state afterwards. -/
def fork (fuel NPROC me : Nat) (cur : Ptr) (s : Kernel) (ext : Extern) :
    Option (Int × Kernel) :=
  match allocproc NPROC me s ext with
  | (none, s1) => some (-1, s1)
  | (some np, s1) => fork_child fuel me cur np s1 ext

/-- The function `userinit()`.  The result is `none` when `allocproc` returns
null (the code then dereferences it) or `setupkvm` fails (`panic`). -/
def userinit (fuel NPROC me : Nat) (s : Kernel) (ext : Extern) (img : InitImage) :
    Option Kernel :=
  match allocproc NPROC me s ext with
  | (none, _) => none
  | (some p, s1) =>
    let s2 := s1.setInitproc (some p)
    let s3 := s2.set p { s2.get p with pgdir := ext.copyuvm }
    if ext.copyuvm = 0 then none
    else
      let s4 := s3.set p { s3.get p with sz := img.PGSIZE }
      let s5 := s4.set p { s4.get p with
        tf := { eax := 0, cs := img.ucode, ds := img.udata, es := img.udata, ss := img.udata,
                eflags := img.FL_IF, esp := img.PGSIZE, eip := 0 } }
      let s6 := s5.set p { s5.get p with name := ext.name }
      let s7 := s6.set p { s6.get p with cwd := ext.cwd }
      addrun fuel me s7 p

/-- The part of `yield()` before `sched()`. -/
def yield (cur : Ptr) (s : Kernel) : Kernel :=
  s.set cur { s.get cur with state := RUNNABLE }

/-- The body of the `scheduler` loop for the chosen entry `p`, up to `swtch`:
`proc = p` is recorded by the caller, the state becomes RUNNING. -/
def scheduler_run (s : Kernel) (p : Ptr) : Kernel :=
  s.set p { s.get p with state := RUNNING }

/-- The tail of `sleep` after the process is resumed: "Tidy up". -/
def sleep_resume (cur : Ptr) (s : Kernel) : Kernel :=
  s.set cur { s.get cur with chan := Chan.null }

/-- One CPU's worth of processes: init (slot (0,0), id 1) runs on CPU 0 and,
like every running process, is still linked in CPU 0's run queue; three ids
have been handed out so far. -/
def initRunning : Kernel :=
  { ((boot.set (0, 0)
      { proc0 with state := RUNNING, pid := 1, kstack := 4096, pgdir := 8192, sz := 4096 }).setRunq
      0 (some (0, 0))) with
    nextpid := 4, initproc := some (0, 0) }

/-- The state `initRunning` after init has reaped a child from slot (0,1):
`wait` reset the slot (state UNUSED, id 0, no stack, no parent) but left its
size, its page directory pointer and its context behind. -/
def initAfterReap : Kernel :=
  initRunning.set (0, 1) { proc0 with sz := 4096, pgdir := 12288, ctxeip := 1024 }

/-- A call of `fork` during which `kalloc` fails. -/
def noStack : Extern :=
  { kalloc := 0, copyuvm := 12288, forkret := 1024, ofile := [], cwd := 0, name := [] }

/-- A call of `fork` during which `copyuvm` fails. -/
def noMemory : Extern :=
  { kalloc := 16384, copyuvm := 0, forkret := 1024, ofile := [], cwd := 0, name := [] }

/-- A call of `fork` during which every allocation succeeds. -/
def allFine : Extern :=
  { kalloc := 16384, copyuvm := 12288, forkret := 1024, ofile := [], cwd := 0,
    name := [105, 110, 105, 116, 0] }

/-- The state of a successful `fork` just before `addrun(np)`, written as one
assignment to the child's slot `np` (`s1` is the state after `allocproc`). -/
def fork_filled (cur np : Ptr) (s1 : Kernel) (ext : Extern) : Kernel :=
  s1.set np
    { s1.get np with pgdir := ext.copyuvm, sz := (s1.get cur).sz, parent := some cur,
                     tf := { (s1.get cur).tf with eax := 0 }, ofile := ext.ofile, cwd := ext.cwd }

/-- The state after a successful `allocproc` that chose the slot `p`. -/
def allocated (s : Kernel) (p : Ptr) (ext : Extern) : Kernel :=
  (s.set p
    { s.get p with state := EMBRYO, pid := s.nextpid, kstack := ext.kalloc,
                   ctxeip := ext.forkret }).setNextpid (wrap32 (s.nextpid + 1))

/-- The state after a successful `fork` whose child is the slot `np`, pushed
at the front of the run queue of table `me`. -/
def forked (me : Nat) (cur np : Ptr) (s : Kernel) (ext : Extern) : Kernel :=
  let s8 := fork_filled cur np (allocated s np ext) ext
  let s9 := (s8.set np { s8.get np with state := RUNNABLE, next := s8.runq me }).setRunq me (some np)
  s9.set np { s9.get np with name := ext.name }

/-- Two CPUs.  Init (slot (0,0), id 1) is asleep in its `wait`; the waiter
(slot (0,1), id 2) runs on CPU 0 and the signaler (slot (1,0), id 3) runs on
CPU 1; each running process is linked in the run queue of its CPU. -/
def waiterAndSignaler : Kernel :=
  { (((((boot.set (0, 0)
      { proc0 with state := SLEEPING, pid := 1, chan := Chan.procp (0, 0) }).set (0, 1)
      { proc0 with state := RUNNING, pid := 2, parent := some (0, 0) }).set (1, 0)
      { proc0 with state := RUNNING, pid := 3, parent := some (0, 1) }).setRunq 0
      (some (0, 1))).setRunq 1 (some (1, 0))) with
    nextpid := 4, initproc := some (0, 0) }

/-- The operations named by the pid-uniqueness property, each run to
completion: `allocproc`, `userinit`, `fork` (whatever its outcome), `kill`,
`exit` and one round of `wait`.  The caller of `fork`, `exit` and `wait` is
any slot that holds a process (its state is not UNUSED). -/
inductive PidStep (NCPU NPROC : Nat) : Kernel → Kernel → Prop where
  | allocproc (s : Kernel) (me : Nat) (ext : Extern) :
      PidStep NCPU NPROC s (allocproc NPROC me s ext).2
  | userinit (s s' : Kernel) (fuel me : Nat) (ext : Extern) (img : InitImage) :
      userinit fuel NPROC me s ext img = some s' → PidStep NCPU NPROC s s'
  | fork (s : Kernel) (fuel me : Nat) (cur : Ptr) (ext : Extern) (r : Int × Kernel) :
      (s.get cur).state ≠ UNUSED → fork fuel NPROC me cur s ext = some r →
      PidStep NCPU NPROC s r.2
  | kill (s : Kernel) (fuel me : Nat) (pid : Int) (r : Int × Kernel) :
      kill fuel NCPU NPROC me s pid = some r → PidStep NCPU NPROC s r.2
  | exit (s s' : Kernel) (fuel me : Nat) (cur : Ptr) :
      (s.get cur).state ≠ UNUSED → exit fuel NCPU NPROC me cur s = some s' →
      PidStep NCPU NPROC s s'
  | wait (s : Kernel) (fuel me : Nat) (cur : Ptr) (r : Option Int × Kernel) :
      (s.get cur).state ≠ UNUSED → wait fuel NCPU NPROC me cur s = some r →
      PidStep NCPU NPROC s r.2

/-- The states reached from `boot` by `PidStep`s during which the pid counter
does not wrap around: no step lowers `nextpid`. -/
inductive PidReach (NCPU NPROC : Nat) : Kernel → Prop where
  | boot : PidReach NCPU NPROC boot
  | step (s s' : Kernel) :
      PidReach NCPU NPROC s → PidStep NCPU NPROC s s' → s.nextpid ≤ s'.nextpid →
      PidReach NCPU NPROC s'

/-- The state `s'` has the ids, the pid counter and the free slots of `s`. -/
def SamePids (s s' : Kernel) : Prop :=
  s'.nextpid = s.nextpid ∧
  ∀ q, (s'.get q).pid = (s.get q).pid ∧ ((s'.get q).state = UNUSED ↔ (s.get q).state = UNUSED)

/-- The state `s'` comes from `s` by handing the value of `nextpid` to a slot
that was UNUSED (which may or may not be UNUSED again) and stepping the
counter. -/
def Allocated (s s' : Kernel) : Prop :=
  s'.nextpid = wrap32 (s.nextpid + 1) ∧
  ∃ p, (s.get p).state = UNUSED ∧ (s'.get p).pid = s.nextpid ∧
    ∀ q, q ≠ p →
      ((s'.get q).pid = (s.get q).pid ∧ ((s'.get q).state = UNUSED ↔ (s.get q).state = UNUSED))

/-- The state `s'` comes from `s` by freeing slots: `nextpid` is the same and
every slot that holds a process in `s'` held it, with the same id, in `s`. -/
def FewerPids (s s' : Kernel) : Prop :=
  s'.nextpid = s.nextpid ∧
  ∀ q, (s'.get q).state ≠ UNUSED →
    ((s.get q).state ≠ UNUSED ∧ (s'.get q).pid = (s.get q).pid)

/-- The pid invariant: the counter is a positive `int`, every slot that
holds a process has an id below the counter, and no two such slots share an
id. -/
def PidInv (s : Kernel) : Prop :=
  (1 ≤ s.nextpid ∧ s.nextpid ≤ 2147483647) ∧
  (∀ p, (s.get p).state ≠ UNUSED → (s.get p).pid < s.nextpid) ∧
  (∀ p q, p ≠ q → (s.get p).state ≠ UNUSED → (s.get q).state ≠ UNUSED →
    (s.get p).pid ≠ (s.get q).pid)

/-- Sample constants for `userinit`. -/
def sampleImage : InitImage :=
  { PGSIZE := 4096, ucode := 35, udata := 43, FL_IF := 512 }

/-- The state after `userinit` on CPU 0 of the freshly booted kernel. -/
def afterUserinit : Kernel :=
  (userinit 8 2 0 boot allFine sampleImage).getD boot

/-- The state of `userinit` just before `addrun(p)`, written as one
assignment to the slot `p` (`s1` is the state after `allocproc`). -/
def userinit_filled (p : Ptr) (s1 : Kernel) (ext : Extern) (img : InitImage) : Kernel :=
  (s1.setInitproc (some p)).set p
    { s1.get p with pgdir := ext.copyuvm, sz := img.PGSIZE,
                    tf := { eax := 0, cs := img.ucode, ds := img.udata, es := img.udata,
                            ss := img.udata, eflags := img.FL_IF, esp := img.PGSIZE, eip := 0 },
                    name := ext.name, cwd := ext.cwd }

/-- The kernel state together with the per-CPU variable `proc`: the process
that CPU `c` is running, if any. -/
structure Sys where
  k : Kernel
  cpuproc : Nat → Option Ptr

/-- The slot `p` is linked in the run queue of table `c`. -/
def OnQueue (s : Kernel) (c : Nat) (p : Ptr) : Prop :=
  ∃ l, Path s (s.runq c) l ∧ p ∈ l

/-- The operations of the scheduler under sequential execution: one
operation at a time, each run to completion on CPU `me` (up to its `sched()`)
before the next one starts, on whichever CPU.  States inside an operation,
and states that only overlapping operations of two CPUs produce, are not
related by `Step`; an `exit` whose reparenting pass is undefined is no step.
`fork`, `yield`, `sleep`, `exit` and `wait` are called by the process the
CPU is running; `scheduler` and `steal` run when the CPU has no process.
The scheduler loop resumes its walk behind the entry that ran last, so it
may choose any RUNNABLE entry of its own queue.  Operations that end in
`sched()` (`yield`, `sleep`, `exit`, a `wait` that sleeps) clear `proc`. -/
inductive Step (NCPU NPROC : Nat) : Sys → Sys → Prop where
  | userinit (sys : Sys) (fuel me : Nat) (ext : Extern) (img : InitImage) (k' : Kernel) :
      me < NCPU → userinit fuel NPROC me sys.k ext img = some k' →
      Step NCPU NPROC sys { k := k', cpuproc := sys.cpuproc }
  | fork (sys : Sys) (fuel me : Nat) (cur : Ptr) (ext : Extern) (r : Int × Kernel) :
      me < NCPU → sys.cpuproc me = some cur → fork fuel NPROC me cur sys.k ext = some r →
      Step NCPU NPROC sys { k := r.2, cpuproc := sys.cpuproc }
  | scheduler (sys : Sys) (me : Nat) (p : Ptr) :
      me < NCPU → sys.cpuproc me = none → OnQueue sys.k me p →
      (sys.k.get p).state = RUNNABLE →
      Step NCPU NPROC sys
        { k := scheduler_run sys.k p, cpuproc := Function.update sys.cpuproc me (some p) }
  | yield (sys : Sys) (me : Nat) (cur : Ptr) :
      me < NCPU → sys.cpuproc me = some cur →
      Step NCPU NPROC sys
        { k := yield cur sys.k, cpuproc := Function.update sys.cpuproc me none }
  | sleep (sys : Sys) (fuel me : Nat) (cur : Ptr) (chan : Chan) (lk : Nat) (k' : Kernel) :
      me < NCPU → sys.cpuproc me = some cur → sleep fuel me cur sys.k chan lk = some k' →
      Step NCPU NPROC sys { k := k', cpuproc := Function.update sys.cpuproc me none }
  | sleep_resume (sys : Sys) (me : Nat) (cur : Ptr) :
      me < NCPU → sys.cpuproc me = some cur →
      Step NCPU NPROC sys { k := sleep_resume cur sys.k, cpuproc := sys.cpuproc }
  | wakeup (sys : Sys) (fuel me : Nat) (chan : Chan) (k' : Kernel) :
      me < NCPU → wakeup fuel NCPU NPROC me sys.k chan = some k' →
      Step NCPU NPROC sys { k := k', cpuproc := sys.cpuproc }
  | kill (sys : Sys) (fuel me : Nat) (pid : Int) (r : Int × Kernel) :
      me < NCPU → kill fuel NCPU NPROC me sys.k pid = some r →
      Step NCPU NPROC sys { k := r.2, cpuproc := sys.cpuproc }
  | exit (sys : Sys) (fuel me : Nat) (cur : Ptr) (k' : Kernel) :
      me < NCPU → sys.cpuproc me = some cur → exit fuel NCPU NPROC me cur sys.k = some k' →
      Step NCPU NPROC sys { k := k', cpuproc := Function.update sys.cpuproc me none }
  | wait_return (sys : Sys) (fuel me : Nat) (cur : Ptr) (v : Int) (k' : Kernel) :
      me < NCPU → sys.cpuproc me = some cur →
      wait fuel NCPU NPROC me cur sys.k = some (some v, k') →
      Step NCPU NPROC sys { k := k', cpuproc := sys.cpuproc }
  | wait_sleep (sys : Sys) (fuel me : Nat) (cur : Ptr) (k' : Kernel) :
      me < NCPU → sys.cpuproc me = some cur →
      wait fuel NCPU NPROC me cur sys.k = some (none, k') →
      Step NCPU NPROC sys { k := k', cpuproc := Function.update sys.cpuproc me none }
  | steal (sys : Sys) (fuel me : Nat) (k' : Kernel) :
      me < NCPU → sys.cpuproc me = none → steal fuel NCPU me sys.k = some k' →
      Step NCPU NPROC sys { k := k', cpuproc := sys.cpuproc }

/-- The system before any process exists: `boot`, and no CPU runs a process. -/
def Sys.boot : Sys :=
  { k := Xv6.boot, cpuproc := fun _ => none }

/-- The states reached from `Sys.boot` by the scheduler's operations. -/
inductive Reach (NCPU NPROC : Nat) : Sys → Prop where
  | boot : Reach NCPU NPROC Sys.boot
  | step (sys sys' : Sys) :
      Reach NCPU NPROC sys → Step NCPU NPROC sys sys' → Reach NCPU NPROC sys'

/-- The run queues of `s` are the lists `l c`: finite, duplicate-free and
pairwise disjoint. -/
def QInv (s : Kernel) (l : Nat → List Ptr) : Prop :=
  (∀ c, Path s (s.runq c) (l c)) ∧ (∀ c, (l c).Nodup) ∧
  (∀ c d, c ≠ d → ∀ q ∈ l c, q ∉ l d)

/-- The run queues are the lists `l c` and hold no SLEEPING slot. -/
def JInv (s : Kernel) (l : Nat → List Ptr) : Prop :=
  QInv s l ∧ ∀ q, (s.get q).state = SLEEPING → ∀ c, q ∉ l c

/-- From `(s, l)` to `(s', l')` every slot either keeps its state and its
place on or off each queue, or was SLEEPING off every queue and is now
RUNNABLE on some queue. -/
def WakeRel (s : Kernel) (l : Nat → List Ptr) (s' : Kernel) (l' : Nat → List Ptr) : Prop :=
  ∀ q, ((s'.get q).state = (s.get q).state ∧ ∀ c, (q ∈ l' c ↔ q ∈ l c)) ∨
    ((s.get q).state = SLEEPING ∧ (s'.get q).state = RUNNABLE ∧ ∃ c, q ∈ l' c)

/-- The scheduler invariant: the run queues are disjoint duplicate-free
lists; a slot is on one of them exactly when it is RUNNABLE or RUNNING; and
the process a CPU runs is RUNNING and on that CPU's queue. -/
def SchedInv (sys : Sys) : Prop :=
  ∃ l, QInv sys.k l ∧
    (∀ p, (∃ c, p ∈ l c) ↔
      ((sys.k.get p).state = RUNNABLE ∨ (sys.k.get p).state = RUNNING)) ∧
    (∀ me p, sys.cpuproc me = some p → (sys.k.get p).state = RUNNING ∧ p ∈ l me)

/-- The system after `userinit` on CPU 0 and the first choice of CPU 0's
scheduler loop: init is marked RUNNING and is the process of CPU 0. -/
def afterFirstSchedule : Sys :=
  { k := scheduler_run afterUserinit (0, 0),
    cpuproc := Function.update Sys.boot.cpuproc 0 (some (0, 0)) }

/-- The state `initRunning` when `nextpid` holds the largest `int`: the next
`nextpid++` wraps around. -/
def initAtPidLimit : Kernel :=
  { initRunning with nextpid := 2147483647 }

/-- The state `initRunning` when the pid counter, having wrapped around,
has come back to the id of init. -/
def initPidComeRound : Kernel :=
  { initRunning with nextpid := 1 }

/-- The state after `userinit` and a successful `fork` by init on CPU 0: init
(slot (0,0), id 1) and its child (slot (0,1), id 2). -/
def afterFirstFork : Kernel :=
  ((fork 8 2 0 (0, 0) afterUserinit allFine).map Prod.snd).getD boot

/-- The assignments of `sleep` that follow `acquire(&ptable->lock)`:
`proc->chan = chan; proc->state = SLEEPING;`.  The caller holds the lock of
its own CPU's table only, and is still linked in the run queue. -/
def sleep_mark (cur : Ptr) (s : Kernel) (chan : Chan) : Kernel :=
  let s1 := s.set cur { s.get cur with chan := chan }
  s1.set cur { s1.get cur with state := SLEEPING }

/-- The part of `exit()` up to the first `release(&ptable->lock)`: the files
are closed and the caller is unlinked from the run queue of its CPU; its
state is still RUNNING and no lock is held. -/
def exit_unlink (fuel me : Nat) (cur : Ptr) (s : Kernel) : Option Kernel :=
  if s.initproc = some cur then none
  else
    let s1 := s.set cur { s.get cur with ofile := (s.get cur).ofile.map (fun _ => 0), cwd := 0 }
    delrun1 fuel s1 me cur

/-- The state after `userinit` on CPU 1 of the freshly booted kernel: init is
slot (1,0). -/
def cpu1Userinit : Kernel :=
  (userinit 8 2 1 boot allFine sampleImage).getD boot

/-- The state after init, running on CPU 1, has forked a child into slot
(1,1). -/
def cpu1Forked : Kernel :=
  ((fork 8 2 1 (1, 0) (scheduler_run cpu1Userinit (1, 0)) allFine).map Prod.snd).getD boot

/-- The state after CPU 0 has stolen the child from CPU 1's run queue. -/
def cpu0Stole : Kernel :=
  (steal 8 2 0 cpu1Forked).getD boot

/-- The system in which init (slot (1,0)) runs on CPU 1 and its child (slot
(1,1) of table 1), stolen by CPU 0, runs on CPU 0. -/
def stolenChildRunning : Sys :=
  { k := scheduler_run cpu0Stole (1, 1),
    cpuproc := Function.update (Function.update Sys.boot.cpuproc 1 (some (1, 0))) 0
      (some (1, 1)) }

/-! ## Reading and writing slots -/

@[simp] theorem get_set_same (s : Kernel) (p : Ptr) (v : proc) : (s.set p v).get p = v := by
  simp [Kernel.get, Kernel.set]

theorem get_set_ne (s : Kernel) (p q : Ptr) (v : proc) (h : q ≠ p) :
    (s.set p v).get q = s.get q := by
  obtain ⟨c, i⟩ := p
  obtain ⟨d, j⟩ := q
  simp only [Kernel.get, Kernel.set]
  by_cases hd : d = c
  · subst hd
    have hj : j ≠ i := fun e => h (by rw [e])
    simp [Function.update, hj]
  · simp [Function.update, hd]

theorem get_set (s : Kernel) (p q : Ptr) (v : proc) :
    (s.set p v).get q = if q = p then v else s.get q := by
  by_cases h : q = p
  · subst h; simp
  · simp [h, get_set_ne]

@[simp] theorem runq_set (s : Kernel) (p : Ptr) (v : proc) (c : Nat) :
    (s.set p v).runq c = s.runq c := by
  simp only [Kernel.runq, Kernel.set]
  by_cases hc : c = p.1
  · subst hc; simp [Function.update]
  · simp [Function.update, hc]

@[simp] theorem get_setRunq (s : Kernel) (c : Nat) (h : Option Ptr) (q : Ptr) :
    (s.setRunq c h).get q = s.get q := by
  simp only [Kernel.get, Kernel.setRunq]
  by_cases hc : q.1 = c
  · subst hc; simp [Function.update]
  · simp [Function.update, hc]

@[simp] theorem runq_setRunq_same (s : Kernel) (c : Nat) (h : Option Ptr) :
    (s.setRunq c h).runq c = h := by
  simp [Kernel.runq, Kernel.setRunq]

theorem runq_setRunq_ne (s : Kernel) (c d : Nat) (h : Option Ptr) (hd : d ≠ c) :
    (s.setRunq c h).runq d = s.runq d := by
  simp [Kernel.runq, Kernel.setRunq, Function.update, hd]

@[simp] theorem initproc_set (s : Kernel) (p : Ptr) (v : proc) :
    (s.set p v).initproc = s.initproc := rfl

@[simp] theorem initproc_setRunq (s : Kernel) (c : Nat) (h : Option Ptr) :
    (s.setRunq c h).initproc = s.initproc := rfl

/-! ## `wakeup` and `kill` look only at the caller's table -/

/-- C1, evaluated at the failing input: on `remoteSleeper`, process 2 (slot
(1,0), in CPU 1's table) is SLEEPING on channel 7; `wakeup` of channel 7
called on CPU 0 returns and leaves it SLEEPING, with CPU 1's run queue
still empty. -/
theorem wakeup_leaves_remote_sleeper :
    (remoteSleeper.get (1, 0)).state = SLEEPING ∧
    (remoteSleeper.get (1, 0)).chan = Chan.other 7 ∧
    (wakeup 8 2 2 0 remoteSleeper (Chan.other 7)).map
        (fun s => ((s.get (1, 0)).state, s.runq 0, s.runq 1))
      = some (SLEEPING, none, none) := by
  decide

/-- C2, evaluated at the failing input: on `remoteRunnable`, process 2 is
RUNNABLE in CPU 1's table; `kill(2)` called on CPU 0 returns -1 and the
killed flag of process 2 stays 0. -/
theorem kill_misses_remote_process :
    (remoteRunnable.get (1, 0)).state = RUNNABLE ∧
    (remoteRunnable.get (1, 0)).pid = 2 ∧
    (kill 8 2 2 0 remoteRunnable 2).map (fun r => (r.1, (r.2.get (1, 0)).killed))
      = some (-1, 0) := by
  decide

/-- C3, counterexample: on `loneProcess` the only slot that is not UNUSED
holds id 1, so 0 is the id of no live process; yet `kill(0)` called on CPU 0
returns 0 and sets the killed flag of the UNUSED slot (0,1). -/
theorem kill_zero_hits_unused_slot :
    (∀ c < 2, ∀ i < 2, (loneProcess.get (c, i)).state ≠ UNUSED →
        (loneProcess.get (c, i)).pid ≠ 0) ∧
    (loneProcess.get (0, 1)).state = UNUSED ∧
    (loneProcess.get (0, 1)).killed = 0 ∧
    (kill 8 2 2 0 loneProcess 0).map (fun r => (r.1, (r.2.get (0, 1)).killed))
      = some (0, 1) := by
  decide

/-- C4, evaluated at the failing input: on `localSleeper`, process 3 sleeps
in slot (1,1) of CPU 1's table; `kill(3)` called on CPU 1 returns 0, sets
the flag and the state RUNNABLE, but links the process into the run queue of
table 0, and the run queue of table 1, which holds its slot, stays empty. -/
theorem kill_enqueues_on_table_zero :
    (localSleeper.get (1, 1)).state = SLEEPING ∧
    (localSleeper.get (1, 1)).pid = 3 ∧
    (kill 8 2 2 1 localSleeper 3).map
        (fun r => (r.1, (r.2.get (1, 1)).killed, (r.2.get (1, 1)).state, r.2.runq 0, r.2.runq 1))
      = some (0, 1, RUNNABLE, some (1, 1), none) := by
  refine ⟨by decide, by decide, ?_⟩
  rfl

/-- C3, amended: when `pid` is the recorded id of no slot at all (UNUSED
slots included) in any table, `kill(pid)` returns -1 and the whole state,
every slot and every run queue, is what it was. -/
theorem kill_unknown_pid (fuel NCPU NPROC me : Nat) (s : Kernel) (pid : Int)
    (hme : me < NCPU)
    (h : ∀ c < NCPU, ∀ i < NPROC, (s.get (c, i)).pid ≠ pid) :
    kill fuel NCPU NPROC me s pid = some (-1, s) := by
  have inner : ∀ (n i c : Nat), i + n ≤ NPROC →
      kill_inner fuel n i c me s pid = some (false, s) := by
    intro n
    induction n with
    | zero => intro i c _; rfl
    | succ n ih =>
      intro i c hin
      have hne : (s.get (me, i)).pid ≠ pid := h me hme i (by omega)
      simp only [kill_inner, hne, if_false]
      exact ih (i + 1) c (by omega)
  have outer : ∀ (n c : Nat), kill_outer fuel NPROC me n c s pid = some (-1, s) := by
    intro n
    induction n with
    | zero => intro c; rfl
    | succ n ih =>
      intro c
      simp only [kill_outer, inner NPROC 0 c (by omega)]
      exact ih (c + 1)
  exact outer NCPU 0

/-- Witness for `kill_unknown_pid`: on `loneProcess` no slot holds id 7. -/
theorem kill_unknown_pid_witness :
    kill 8 2 2 0 loneProcess 7 = some (-1, loneProcess) :=
  kill_unknown_pid 8 2 2 0 loneProcess 7 (by decide) (by decide)

/-- The scan of `kill` skips the slots whose id differs from `pid`. -/
theorem kill_inner_skip (fuel me c : Nat) (s : Kernel) (pid : Int) :
    ∀ (k n i : Nat), (∀ j, i ≤ j → j < i + k → (s.get (me, j)).pid ≠ pid) →
      kill_inner fuel (k + n) i c me s pid = kill_inner fuel n (i + k) c me s pid := by
  intro k
  induction k with
  | zero => intro n i _; simp
  | succ k ih =>
    intro n i h
    have hne : (s.get (me, i)).pid ≠ pid := h i (le_refl i) (by omega)
    have hstep : k + 1 + n = (k + n) + 1 := by omega
    rw [hstep]
    simp only [kill_inner, hne, if_false]
    rw [ih n (i + 1) (fun j h1 h2 => h j (by omega) (by omega))]
    congr 1
    omega

/-- C5: let slot `i` of the caller's table be the process found by
`kill(pid)` (the first slot of that table whose id is `pid`).  If its state
is not SLEEPING (ZOMBIE, for one), `kill` returns 0 and the state afterwards
differs from the one before in the killed flag of that slot only: the
slot's other fields (its state and queue link among them), every other slot
and every run-queue head are as before. -/
theorem kill_not_sleeping_sets_flag_only (fuel NCPU NPROC me i : Nat) (s : Kernel) (pid : Int)
    (hN : 0 < NCPU) (hi : i < NPROC)
    (hpid : (s.get (me, i)).pid = pid)
    (hfirst : ∀ j < i, (s.get (me, j)).pid ≠ pid)
    (hst : (s.get (me, i)).state ≠ SLEEPING) :
    ∃ s', kill fuel NCPU NPROC me s pid = some (0, s') ∧
      s'.get (me, i) = { s.get (me, i) with killed := 1 } ∧
      (s'.get (me, i)).state = (s.get (me, i)).state ∧
      (∀ q, q ≠ (me, i) → s'.get q = s.get q) ∧
      (∀ c, s'.runq c = s.runq c) := by
  refine ⟨s.set (me, i) { s.get (me, i) with killed := 1 }, ?_, ?_, ?_, ?_, ?_⟩
  · obtain ⟨m, hm⟩ : ∃ m, NCPU = m + 1 := ⟨NCPU - 1, by omega⟩
    obtain ⟨r, hr⟩ : ∃ r, NPROC = i + (r + 1) := ⟨NPROC - i - 1, by omega⟩
    have hin : kill_inner fuel NPROC 0 0 me s pid
        = some (true, s.set (me, i) { s.get (me, i) with killed := 1 }) := by
      rw [hr, kill_inner_skip fuel me 0 s pid i (r + 1) 0
        (fun j _ h2 => hfirst j (by omega))]
      simp only [Nat.zero_add, kill_inner, hpid, if_true, get_set_same]
      rw [if_neg hst]
    simp only [kill, hm, kill_outer, hin]
  · simp
  · simp
  · intro q hq
    exact get_set_ne s (me, i) q _ hq
  · intro c
    simp

/-- Witness for `kill_not_sleeping_sets_flag_only`: on `orphanZombie`, CPU 1
kills process 4, the ZOMBIE in slot (1,1). -/
theorem kill_not_sleeping_sets_flag_only_witness :
    ∃ s', kill 8 2 2 1 orphanZombie 4 = some (0, s') ∧
      s'.get (1, 1) = { orphanZombie.get (1, 1) with killed := 1 } ∧
      (s'.get (1, 1)).state = (orphanZombie.get (1, 1)).state ∧
      (∀ q, q ≠ (1, 1) → s'.get q = orphanZombie.get q) ∧
      (∀ c, s'.runq c = orphanZombie.runq c) :=
  kill_not_sleeping_sets_flag_only 8 2 2 1 1 orphanZombie 4 (by decide) (by decide)
    (by decide) (by decide) (by decide)

/-! ## `wait` -/

/-- Writing NUL into `name[0]` leaves the empty C string. -/
theorem cstr_set_zero (name : List Nat) : cstr (name.set 0 0) = [] := by
  cases name with
  | nil => rfl
  | cons a l => simp [cstr, List.takeWhile]

/-- When table `c` has a zombie child of `cur` among the slots `i, ..., i+n-1`,
the inner loop of `wait` reaps one. -/
theorem wait_inner_found (c : Nat) (cur : Ptr) (s : Kernel) :
    ∀ (n i : Nat) (hk : Bool),
      (∃ j, i ≤ j ∧ j < i + n ∧ (s.get (c, j)).parent = some cur ∧
        (s.get (c, j)).state = ZOMBIE) →
      ∃ j, i ≤ j ∧ j < i + n ∧ (s.get (c, j)).parent = some cur ∧
        (s.get (c, j)).state = ZOMBIE ∧
        wait_inner n i c cur s hk = (some ((s.get (c, j)).pid, wait_reap s (c, j)), true) := by
  intro n
  induction n with
  | zero =>
    intro i hk h
    obtain ⟨j, h1, h2, _⟩ := h
    omega
  | succ n ih =>
    intro i hk h
    obtain ⟨j, h1, h2, h3, h4⟩ := h
    by_cases hp : (s.get (c, i)).parent = some cur
    · by_cases hz : (s.get (c, i)).state = ZOMBIE
      · exact ⟨i, le_refl i, by omega, hp, hz, by simp [wait_inner, hp, hz]⟩
      · have hji : j ≠ i := fun e => hz (e ▸ h4)
        obtain ⟨k, k1, k2, k3, k4, k5⟩ :=
          ih (i + 1) true ⟨j, by omega, by omega, h3, h4⟩
        exact ⟨k, by omega, by omega, k3, k4, by simp [wait_inner, hp, hz, k5]⟩
    · have hji : j ≠ i := fun e => hp (e ▸ h3)
      obtain ⟨k, k1, k2, k3, k4, k5⟩ :=
        ih (i + 1) hk ⟨j, by omega, by omega, h3, h4⟩
      exact ⟨k, by omega, by omega, k3, k4, by simp [wait_inner, hp, k5]⟩

/-- When table `c` has no zombie child of `cur` among the slots
`i, ..., i+n-1`, the inner loop of `wait` finds nothing, and `havekids` is
set exactly when it was set before or one of these slots is a child. -/
theorem wait_inner_none (c : Nat) (cur : Ptr) (s : Kernel) :
    ∀ (n i : Nat) (hk : Bool),
      (∀ j, i ≤ j → j < i + n →
        ¬ ((s.get (c, j)).parent = some cur ∧ (s.get (c, j)).state = ZOMBIE)) →
      ∃ hk', wait_inner n i c cur s hk = (none, hk') ∧
        (hk' = true ↔ (hk = true ∨ ∃ j, i ≤ j ∧ j < i + n ∧ (s.get (c, j)).parent = some cur)) := by
  intro n
  induction n with
  | zero =>
    intro i hk _
    refine ⟨hk, rfl, ?_⟩
    constructor
    · intro h; exact Or.inl h
    · rintro (h | ⟨j, h1, h2, _⟩)
      · exact h
      · omega
  | succ n ih =>
    intro i hk h
    by_cases hp : (s.get (c, i)).parent = some cur
    · have hz : (s.get (c, i)).state ≠ ZOMBIE := fun e => h i (le_refl i) (by omega) ⟨hp, e⟩
      obtain ⟨hk', e1, e2⟩ := ih (i + 1) true (fun j h1 h2 => h j (by omega) (by omega))
      refine ⟨hk', by simp [wait_inner, hp, hz, e1], ?_⟩
      constructor
      · intro _; exact Or.inr ⟨i, le_refl i, by omega, hp⟩
      · intro _; exact e2.mpr (Or.inl rfl)
    · obtain ⟨hk', e1, e2⟩ := ih (i + 1) hk (fun j h1 h2 => h j (by omega) (by omega))
      refine ⟨hk', by simp [wait_inner, hp, e1], ?_⟩
      constructor
      · intro h'
        rcases e2.mp h' with h'' | ⟨j, h1, h2, h3⟩
        · exact Or.inl h''
        · exact Or.inr ⟨j, by omega, by omega, h3⟩
      · rintro (h' | ⟨j, h1, h2, h3⟩)
        · exact e2.mpr (Or.inl h')
        · have hji : j ≠ i := fun e => hp (e ▸ h3)
          exact e2.mpr (Or.inr ⟨j, by omega, by omega, h3⟩)

/-- When some table among `c, ..., c+n-1` has a zombie child of `cur`, the
scan of `wait` reaps one. -/
theorem wait_outer_found (NPROC : Nat) (cur : Ptr) (s : Kernel) :
    ∀ (n c : Nat) (hk : Bool),
      (∃ d j, c ≤ d ∧ d < c + n ∧ j < NPROC ∧ (s.get (d, j)).parent = some cur ∧
        (s.get (d, j)).state = ZOMBIE) →
      ∃ d j, c ≤ d ∧ d < c + n ∧ j < NPROC ∧ (s.get (d, j)).parent = some cur ∧
        (s.get (d, j)).state = ZOMBIE ∧
        ∃ hk', wait_outer NPROC n c cur s hk
          = (some ((s.get (d, j)).pid, wait_reap s (d, j)), hk') := by
  intro n
  induction n with
  | zero =>
    intro c hk h
    obtain ⟨d, j, h1, h2, _⟩ := h
    omega
  | succ n ih =>
    intro c hk h
    obtain ⟨d, j, h1, h2, h3, h4, h5⟩ := h
    by_cases hc : ∃ k, k < NPROC ∧ (s.get (c, k)).parent = some cur ∧
        (s.get (c, k)).state = ZOMBIE
    · obtain ⟨k, k1, k2, k3⟩ := hc
      obtain ⟨m, m1, m2, m3, m4, m5⟩ :=
        wait_inner_found c cur s NPROC 0 hk ⟨k, by omega, by omega, k2, k3⟩
      exact ⟨c, m, le_refl c, by omega, by omega, m3, m4, true, by simp [wait_outer, m5]⟩
    · have hnone : ∀ k, 0 ≤ k → k < 0 + NPROC →
          ¬ ((s.get (c, k)).parent = some cur ∧ (s.get (c, k)).state = ZOMBIE) :=
        fun k _ k2 hk' => hc ⟨k, by omega, hk'.1, hk'.2⟩
      obtain ⟨hk1, e1, _⟩ := wait_inner_none c cur s NPROC 0 hk hnone
      have hdc : d ≠ c := fun e => hc ⟨j, h3, e ▸ h4, e ▸ h5⟩
      obtain ⟨d', j', g1, g2, g3, g4, g5, hk2, g6⟩ :=
        ih (c + 1) hk1 ⟨d, j, by omega, by omega, h3, h4, h5⟩
      exact ⟨d', j', by omega, by omega, g3, g4, g5, hk2, by simp [wait_outer, e1, g6]⟩

/-- When no table among `c, ..., c+n-1` has a zombie child of `cur`, the scan
of `wait` finds nothing, and `havekids` is set exactly when it was set
before or one of the scanned slots is a child. -/
theorem wait_outer_none (NPROC : Nat) (cur : Ptr) (s : Kernel) :
    ∀ (n c : Nat) (hk : Bool),
      (∀ d j, c ≤ d → d < c + n → j < NPROC →
        ¬ ((s.get (d, j)).parent = some cur ∧ (s.get (d, j)).state = ZOMBIE)) →
      ∃ hk', wait_outer NPROC n c cur s hk = (none, hk') ∧
        (hk' = true ↔ (hk = true ∨
          ∃ d j, c ≤ d ∧ d < c + n ∧ j < NPROC ∧ (s.get (d, j)).parent = some cur)) := by
  intro n
  induction n with
  | zero =>
    intro c hk _
    refine ⟨hk, rfl, ?_⟩
    constructor
    · intro h; exact Or.inl h
    · rintro (h | ⟨d, j, h1, h2, _⟩)
      · exact h
      · omega
  | succ n ih =>
    intro c hk h
    obtain ⟨hk1, e1, e2⟩ := wait_inner_none c cur s NPROC 0 hk
      (fun j _ h2 => h c j (le_refl c) (by omega) (by omega))
    obtain ⟨hk2, f1, f2⟩ := ih (c + 1) hk1
      (fun d j h1 h2 h3 => h d j (by omega) (by omega) h3)
    refine ⟨hk2, by simp [wait_outer, e1, f1], ?_⟩
    constructor
    · intro h'
      rcases f2.mp h' with h'' | ⟨d, j, g1, g2, g3, g4⟩
      · rcases e2.mp h'' with h3 | ⟨j, g1, g2, g3⟩
        · exact Or.inl h3
        · exact Or.inr ⟨c, j, le_refl c, by omega, by omega, g3⟩
      · exact Or.inr ⟨d, j, by omega, by omega, g3, g4⟩
    · rintro (h' | ⟨d, j, g1, g2, g3, g4⟩)
      · exact f2.mpr (Or.inl (e2.mpr (Or.inl h')))
      · by_cases hdc : d = c
        · subst hdc
          exact f2.mpr (Or.inl (e2.mpr (Or.inr ⟨j, by omega, by omega, g4⟩)))
        · exact f2.mpr (Or.inr ⟨d, j, by omega, by omega, g3, g4⟩)

/-- C6: when some slot of some table is a ZOMBIE whose parent is the
caller, `wait` returns (for any fuel, without sleeping) the id that a ZOMBIE
child of the caller had before the call; afterwards that child's slot is
UNUSED with id 0, no parent, empty name and killed flag 0, and every other
slot and every run-queue head is unchanged. -/
theorem wait_reaps_zombie_child (fuel NCPU NPROC me : Nat) (cur : Ptr) (s : Kernel)
    (h : ∃ c i, c < NCPU ∧ i < NPROC ∧ (s.get (c, i)).parent = some cur ∧
      (s.get (c, i)).state = ZOMBIE) :
    ∃ c i s', c < NCPU ∧ i < NPROC ∧ (s.get (c, i)).parent = some cur ∧
      (s.get (c, i)).state = ZOMBIE ∧
      wait fuel NCPU NPROC me cur s = some (some (s.get (c, i)).pid, s') ∧
      (s'.get (c, i)).state = UNUSED ∧ (s'.get (c, i)).pid = 0 ∧
      (s'.get (c, i)).parent = none ∧ cstr (s'.get (c, i)).name = [] ∧
      (s'.get (c, i)).killed = 0 ∧
      (∀ q, q ≠ (c, i) → s'.get q = s.get q) ∧ (∀ d, s'.runq d = s.runq d) := by
  obtain ⟨c, i, h1, h2, h3, h4⟩ := h
  obtain ⟨d, j, g1, g2, g3, g4, g5, hk', g6⟩ :=
    wait_outer_found NPROC cur s NCPU 0 false ⟨c, i, by omega, by omega, h2, h3, h4⟩
  refine ⟨d, j, wait_reap s (d, j), by omega, g3, g4, g5, ?_, ?_, ?_, ?_, ?_, ?_, ?_, ?_⟩
  · simp [wait, g6]
  · simp [wait_reap]
  · simp [wait_reap]
  · simp [wait_reap]
  · simp [wait_reap, cstr_set_zero]
  · simp [wait_reap]
  · intro q hq
    exact get_set_ne s (d, j) q _ hq
  · intro e
    simp [wait_reap]

/-- Witness for `wait_reaps_zombie_child`: on `orphanZombie`, process 3
(slot (1,0)) waits on CPU 1 and has the zombie child in slot (1,1). -/
theorem wait_reaps_zombie_child_witness :
    ∃ c i s', c < 2 ∧ i < 2 ∧ (orphanZombie.get (c, i)).parent = some (1, 0) ∧
      (orphanZombie.get (c, i)).state = ZOMBIE ∧
      wait 8 2 2 1 (1, 0) orphanZombie = some (some (orphanZombie.get (c, i)).pid, s') ∧
      (s'.get (c, i)).state = UNUSED ∧ (s'.get (c, i)).pid = 0 ∧
      (s'.get (c, i)).parent = none ∧ cstr (s'.get (c, i)).name = [] ∧
      (s'.get (c, i)).killed = 0 ∧
      (∀ q, q ≠ (c, i) → s'.get q = orphanZombie.get q) ∧
      (∀ d, s'.runq d = orphanZombie.runq d) :=
  wait_reaps_zombie_child 8 2 2 1 (1, 0) orphanZombie
    ⟨1, 1, by decide, by decide, by decide, by decide⟩

/-- C7: (1) when no slot of any table is a ZOMBIE child of the caller, and
either no slot of any table has the caller as parent or the caller's killed
flag is set, `wait` returns -1 (for any fuel, without sleeping) and the
state is unchanged; (2) when the caller's only child is a ZOMBIE, a first
`wait` reaps it and a second `wait` returns -1 and changes nothing. -/
theorem wait_without_zombie_fails (fuel NCPU NPROC me : Nat) (cur : Ptr) (s : Kernel) :
    ((∀ c < NCPU, ∀ i < NPROC,
        ¬ ((s.get (c, i)).parent = some cur ∧ (s.get (c, i)).state = ZOMBIE)) →
      ((∀ c < NCPU, ∀ i < NPROC, (s.get (c, i)).parent ≠ some cur) ∨
        (s.get cur).killed ≠ 0) →
      wait fuel NCPU NPROC me cur s = some (some (-1), s)) ∧
    (∀ c i, c < NCPU → i < NPROC →
      (∀ d < NCPU, ∀ j < NPROC, ((s.get (d, j)).parent = some cur ↔ (d, j) = (c, i))) →
      (s.get (c, i)).state = ZOMBIE →
      ∃ s1, wait fuel NCPU NPROC me cur s = some (some (s.get (c, i)).pid, s1) ∧
        wait fuel NCPU NPROC me cur s1 = some (some (-1), s1)) := by
  have part1 : ∀ t : Kernel,
      (∀ c < NCPU, ∀ i < NPROC,
        ¬ ((t.get (c, i)).parent = some cur ∧ (t.get (c, i)).state = ZOMBIE)) →
      ((∀ c < NCPU, ∀ i < NPROC, (t.get (c, i)).parent ≠ some cur) ∨
        (t.get cur).killed ≠ 0) →
      wait fuel NCPU NPROC me cur t = some (some (-1), t) := by
    intro t hz hk
    obtain ⟨hk', e1, e2⟩ := wait_outer_none NPROC cur t NCPU 0 false
      (fun d j _ h2 h3 => hz d (by omega) j h3)
    rcases hk with hno | hkilled
    · have hf : hk' = false := by
        cases hk' with
        | false => rfl
        | true =>
          rcases e2.mp rfl with h' | ⟨d, j, _, g2, g3, g4⟩
          · cases h'
          · exact absurd g4 (hno d (by omega) j g3)
      subst hf
      simp [wait, e1]
    · simp [wait, e1, hkilled]
  refine ⟨part1 s, ?_⟩
  intro c i hc hi honly hz
  obtain ⟨d, j, g1, g2, g3, g4, g5, hk', g6⟩ :=
    wait_outer_found NPROC cur s NCPU 0 false
      ⟨c, i, by omega, by omega, hi, (honly c hc i hi).mpr rfl, hz⟩
  have hdj : (d, j) = (c, i) := (honly d (by omega) j g3).mp g4
  rw [hdj] at g6
  refine ⟨wait_reap s (c, i), by simp [wait, g6], ?_⟩
  apply part1
  · intro d' hd' j' hj' hcontra
    by_cases hq : (d', j') = (c, i)
    · rw [hq] at hcontra
      simp [wait_reap] at hcontra
    · rw [wait_reap, get_set_ne s (c, i) (d', j') _ hq] at hcontra
      exact hq ((honly d' hd' j' hj').mp hcontra.1)
  · left
    intro d' hd' j' hj' hcontra
    by_cases hq : (d', j') = (c, i)
    · rw [hq] at hcontra
      simp [wait_reap] at hcontra
    · rw [wait_reap, get_set_ne s (c, i) (d', j') _ hq] at hcontra
      exact hq ((honly d' hd' j' hj').mp hcontra)

/-- Witness for `wait_without_zombie_fails`: on `loneProcess`, process 1
has no children; on `orphanZombie`, process 3 has the single child 4, a
ZOMBIE. -/
theorem wait_without_zombie_fails_witness :
    wait 8 2 2 0 (0, 0) loneProcess = some (some (-1), loneProcess) ∧
    ∃ s1, wait 8 2 2 1 (1, 0) orphanZombie = some (some (orphanZombie.get (1, 1)).pid, s1) ∧
      wait 8 2 2 1 (1, 0) s1 = some (some (-1), s1) :=
  ⟨(wait_without_zombie_fails 8 2 2 0 (0, 0) loneProcess).1 (by decide) (Or.inl (by decide)),
   (wait_without_zombie_fails 8 2 2 1 (1, 0) orphanZombie).2 1 1 (by decide) (by decide)
     (by decide) (by decide)⟩

/-! ## Run queues as linked lists -/

/-- A path only depends on the `next` links of the slots on it. -/
theorem Path_congr (s s' : Kernel) :
    ∀ (l : List Ptr) (a : Option Ptr),
      (∀ x ∈ l, (s'.get x).next = (s.get x).next) → Path s a l → Path s' a l := by
  intro l
  induction l with
  | nil => intro a _ h; exact h
  | cons x t ih =>
    intro a hsame h
    obtain ⟨h1, h2⟩ := h
    refine ⟨h1, ?_⟩
    rw [hsame x (List.mem_cons_self x t)]
    exact ih _ (fun y hy => hsame y (List.mem_cons_of_mem x hy)) h2

/-- On a finite queue, with fuel for its length, the walk of `addrun1` ends:
it only sets the state when `p` is on the queue, and pushes `p` at the
front otherwise. -/
theorem addrun1_loop_path (pt : Nat) (p : Ptr) (s : Kernel) :
    ∀ (l : List Ptr) (a : Option Ptr) (fuel : Nat), Path s a l → l.length < fuel →
      addrun1_loop fuel s pt p a =
        if p ∈ l then some (s.set p { s.get p with state := RUNNABLE })
        else some ((s.set p { s.get p with state := RUNNABLE, next := s.runq pt }).setRunq pt
          (some p)) := by
  intro l
  induction l with
  | nil =>
    intro a fuel h hf
    obtain ⟨f, rfl⟩ : ∃ f, fuel = f + 1 := ⟨fuel - 1, by simp at hf; omega⟩
    have ha : a = none := h
    subst ha
    simp [addrun1_loop]
  | cons x t ih =>
    intro a fuel h hf
    obtain ⟨f, rfl⟩ : ∃ f, fuel = f + 1 := ⟨fuel - 1, by simp at hf; omega⟩
    obtain ⟨h1, h2⟩ := h
    subst h1
    by_cases hx : x = p
    · subst hx
      simp [addrun1_loop]
    · have hx' : p ≠ x := fun e => hx e.symm
      simp only [addrun1_loop, hx, if_false, List.mem_cons, hx', false_or]
      exact ih _ f h2 (by simp at hf; omega)

/-- On a finite queue, with fuel for its length, the scan of `steal` ends
with the first RUNNABLE entry, if there is one. -/
theorem steal_scan_path (s : Kernel) :
    ∀ (l : List Ptr) (a : Option Ptr) (fuel : Nat), Path s a l → l.length < fuel →
      steal_scan fuel s a = some (l.find? (fun q => decide ((s.get q).state = RUNNABLE))) := by
  intro l
  induction l with
  | nil =>
    intro a fuel h hf
    obtain ⟨f, rfl⟩ : ∃ f, fuel = f + 1 := ⟨fuel - 1, by simp at hf; omega⟩
    have ha : a = none := h
    subst ha
    simp [steal_scan]
  | cons x t ih =>
    intro a fuel h hf
    obtain ⟨f, rfl⟩ : ∃ f, fuel = f + 1 := ⟨fuel - 1, by simp at hf; omega⟩
    obtain ⟨h1, h2⟩ := h
    subst h1
    by_cases hx : (s.get x).state = RUNNABLE
    · simp [steal_scan, hx, List.find?]
    · simp only [steal_scan, hx, if_false, List.find?, decide_False]
      exact ih _ f h2 (by simp at hf; omega)

/-- On a duplicate-free finite queue that holds `target`, with fuel for its
length, the walk of `delrun1` ends.  Afterwards the cell that led into the
walked part leads into the same list without `target`, `target->next` is
null, and nothing else has changed: slots keep every field but `next`,
slots off the walked part other than `prev` are untouched, and the queue
heads of the other tables (and of `pt` when `prev` is not null) are as
before. -/
theorem delrun1_loop_path (pt : Nat) (target : Ptr) :
    ∀ (l : List Ptr) (s : Kernel) (prev a : Option Ptr),
      Path s a l → l.Nodup → target ∈ l →
      linkOf s pt prev = a → (∀ pv, prev = some pv → pv ∉ l) →
      ∃ s', (∀ fuel, l.length < fuel → delrun1_loop fuel s pt prev a target = some s') ∧
        Path s' (linkOf s' pt prev) (l.erase target) ∧
        (s'.get target).next = none ∧
        (∀ q, s'.get q = { s.get q with next := (s'.get q).next }) ∧
        (∀ q, q ∉ l → (∀ pv, prev = some pv → q ≠ pv) → s'.get q = s.get q) ∧
        (∀ d, d ≠ pt → s'.runq d = s.runq d) ∧
        (prev ≠ none → s'.runq pt = s.runq pt) ∧
        s'.initproc = s.initproc ∧ s'.nextpid = s.nextpid := by
  intro l
  induction l with
  | nil => intro s prev a _ _ hmem; simp at hmem
  | cons x t ih =>
    intro s prev a hpath hnd hmem hlink hprev
    obtain ⟨h1, h2⟩ := hpath
    subst h1
    have hxt : x ∉ t := (List.nodup_cons.mp hnd).1
    have hndt : t.Nodup := (List.nodup_cons.mp hnd).2
    by_cases hx : x = target
    · subst hx
      cases prev with
      | none =>
        refine ⟨(s.setRunq pt (s.get x).next).set x
          { (s.setRunq pt (s.get x).next).get x with next := none }, ?_, ?_, ?_, ?_, ?_, ?_, ?_, ?_, ?_⟩
        · intro fuel hf
          obtain ⟨f, rfl⟩ : ∃ f, fuel = f + 1 := ⟨fuel - 1, by simp at hf; omega⟩
          simp [delrun1_loop]
        · simp only [linkOf, List.erase_cons_head, runq_set, runq_setRunq_same]
          apply Path_congr s _ t _ _ h2
          intro y hy
          have hyx : y ≠ x := fun e => hxt (e ▸ hy)
          rw [get_set_ne _ _ _ _ hyx, get_setRunq]
        · simp
        · intro q
          by_cases hq : q = x
          · subst hq; simp
          · rw [get_set_ne _ _ _ _ hq, get_setRunq]
        · intro q hq _
          have hqx : q ≠ x := fun e => hq (e ▸ List.mem_cons_self x t)
          rw [get_set_ne _ _ _ _ hqx, get_setRunq]
        · intro d hd
          rw [runq_set, runq_setRunq_ne _ _ _ _ hd]
        · intro h; exact absurd rfl h
        · rfl
        · rfl
      | some pv =>
        have hpvx : pv ≠ x := fun e => hprev pv rfl (e ▸ List.mem_cons_self x t)
        have hxpv : x ≠ pv := fun e => hpvx e.symm
        have hpvt : pv ∉ t := fun e => hprev pv rfl (List.mem_cons_of_mem x e)
        refine ⟨(s.set pv { s.get pv with next := (s.get x).next }).set x
          { (s.set pv { s.get pv with next := (s.get x).next }).get x with next := none },
          ?_, ?_, ?_, ?_, ?_, ?_, ?_, ?_, ?_⟩
        · intro fuel hf
          obtain ⟨f, rfl⟩ : ∃ f, fuel = f + 1 := ⟨fuel - 1, by simp at hf; omega⟩
          simp [delrun1_loop]
        · simp only [linkOf, List.erase_cons_head]
          rw [get_set_ne _ _ _ _ hpvx, get_set_same]
          apply Path_congr s _ t _ _ h2
          intro y hy
          have hyx : y ≠ x := fun e => hxt (e ▸ hy)
          have hypv : y ≠ pv := fun e => hpvt (e ▸ hy)
          rw [get_set_ne _ _ _ _ hyx, get_set_ne _ _ _ _ hypv]
        · simp
        · intro q
          by_cases hq : q = x
          · subst hq
            simp [get_set_ne _ _ _ _ hxpv]
          · rw [get_set_ne _ _ _ _ hq]
            by_cases hq2 : q = pv
            · subst hq2; simp
            · rw [get_set_ne _ _ _ _ hq2]
        · intro q hq hq2
          have hqx : q ≠ x := fun e => hq (e ▸ List.mem_cons_self x t)
          rw [get_set_ne _ _ _ _ hqx, get_set_ne _ _ _ _ (hq2 pv rfl)]
        · intro d _
          simp
        · intro _
          simp
        · rfl
        · rfl
    · have hmem' : target ∈ t := by
        rcases List.mem_cons.mp hmem with e | e
        · exact absurd e.symm hx
        · exact e
      obtain ⟨s', e1, e2, e3, e4, e5, e6, e7, e8, e9⟩ :=
        ih s (some x) (s.get x).next h2 hndt hmem' rfl
          (fun pv hpv => by cases hpv; exact hxt)
      have hrun : s'.runq pt = s.runq pt := e7 (by simp)
      refine ⟨s', ?_, ?_, e3, e4, ?_, e6, ?_, e8, e9⟩
      · intro fuel hf
        obtain ⟨f, rfl⟩ : ∃ f, fuel = f + 1 := ⟨fuel - 1, by simp at hf; omega⟩
        simp only [delrun1_loop, hx, if_false]
        exact e1 f (by simp at hf; omega)
      · have her : (x :: t).erase target = x :: t.erase target := by
          rw [List.erase_cons_tail]
          simpa using hx
        rw [her]
        refine ⟨?_, e2⟩
        cases prev with
        | none =>
          simp only [linkOf] at hlink ⊢
          rw [hrun, hlink]
        | some pv =>
          have hpvx : pv ≠ x := fun e => hprev pv rfl (e ▸ List.mem_cons_self x t)
          have hpvt : pv ∉ t := fun e => hprev pv rfl (List.mem_cons_of_mem x e)
          simp only [linkOf] at hlink ⊢
          rw [e5 pv hpvt (fun pv' hpv' => by cases hpv'; exact hpvx), hlink]
      · intro q hq _
        have hqx : q ≠ x := fun e => hq (e ▸ List.mem_cons_self x t)
        have hqt : q ∉ t := fun e => hq (List.mem_cons_of_mem x e)
        exact e5 q hqt (fun pv' hpv' => by cases hpv'; exact hqx)
      · intro _
        exact hrun

/-! ## `steal` -/

/-- Moving a RUNNABLE entry `p` of table `c`'s queue to the caller's queue:
`delrun1` followed by `addrun`, on duplicate-free disjoint queues. -/
theorem steal_take (NCPU me c : Nat) (p : Ptr) (s : Kernel) (l : Nat → List Ptr)
    (hme : me < NCPU) (hc : c < NCPU) (hcme : c ≠ me)
    (hpath : ∀ d < NCPU, Path s (s.runq d) (l d))
    (hnodup : ∀ d < NCPU, (l d).Nodup)
    (hdisj : ∀ d < NCPU, ∀ e < NCPU, d ≠ e → ∀ q ∈ l d, q ∉ l e)
    (hp : p ∈ l c) (hrun : (s.get p).state = RUNNABLE) :
    ∃ s1 s2, (∀ fuel, (l c).length < fuel → delrun1 fuel s c p = some s1) ∧
      (∀ fuel, (l me).length < fuel → addrun fuel me s1 p = some s2) ∧
      (∀ q, (s2.get q).state = (s.get q).state) ∧
      Path s2 (s2.runq me) (p :: l me) ∧
      Path s2 (s2.runq c) ((l c).erase p) ∧
      (∀ d < NCPU, d ≠ me → d ≠ c → Path s2 (s2.runq d) (l d)) := by
  obtain ⟨s1, e1, e2, _, e4, e5, e6, _, _, _⟩ :=
    delrun1_loop_path c p (l c) s none (s.runq c) (hpath c hc) (hnodup c hc) hp rfl
      (by intro pv h; cases h)
  have hpme : p ∉ l me := hdisj c hc me hme hcme p hp
  have hmec : me ≠ c := fun e => hcme e.symm
  have hpath1 : Path s1 (s1.runq me) (l me) := by
    rw [e6 me hmec]
    apply Path_congr s s1 (l me) _ _ (hpath me hme)
    intro y hy
    rw [e5 y (hdisj me hme c hc hmec y hy) (by intro pv h; cases h)]
  refine ⟨s1, (s1.set p { s1.get p with state := RUNNABLE, next := s1.runq me }).setRunq me
    (some p), e1, ?_, ?_, ?_, ?_, ?_⟩
  · intro fuel hf
    simp only [addrun, addrun1]
    rw [addrun1_loop_path me p s1 (l me) _ fuel hpath1 hf]
    simp [hpme]
  · intro q
    by_cases hq : q = p
    · subst hq
      simp [hrun]
    · rw [get_setRunq, get_set_ne _ _ _ _ hq]
      have := congrArg proc.state (e4 q)
      simpa using this
  · refine ⟨by simp, ?_⟩
    rw [get_setRunq, get_set_same]
    apply Path_congr s1 _ (l me) _ _ hpath1
    intro y hy
    have hyp : y ≠ p := fun e => hpme (e ▸ hy)
    rw [get_setRunq, get_set_ne _ _ _ _ hyp]
  · rw [runq_setRunq_ne _ _ _ _ hcme, runq_set]
    apply Path_congr s1 _ _ _ _ e2
    intro y hy
    have hyp : y ≠ p := ((hnodup c hc).mem_erase_iff.mp hy).1
    rw [get_setRunq, get_set_ne _ _ _ _ hyp]
  · intro d hd hdme hdc
    rw [runq_setRunq_ne _ _ _ _ hdme, runq_set, e6 d hdc]
    apply Path_congr s _ _ _ _ (hpath d hd)
    intro y hy
    have hyc : y ∉ l c := hdisj d hd c hc hdc y hy
    have hyp : y ≠ p := fun e => hyc (e ▸ hp)
    rw [get_setRunq, get_set_ne _ _ _ _ hyp, e5 y hyc (by intro pv h; cases h)]

/-- The loop of `steal` from table `c` on, on duplicate-free disjoint
queues: it ends, no slot changes state, and either nothing changed or one
RUNNABLE entry went from another table's queue to the front of the
caller's. -/
theorem steal_loop_spec (NCPU me : Nat) (s : Kernel) (l : Nat → List Ptr)
    (hme : me < NCPU)
    (hpath : ∀ d < NCPU, Path s (s.runq d) (l d))
    (hnodup : ∀ d < NCPU, (l d).Nodup)
    (hdisj : ∀ d < NCPU, ∀ e < NCPU, d ≠ e → ∀ q ∈ l d, q ∉ l e) :
    ∀ (n c : Nat), c + n = NCPU →
      ∃ s', (∃ N, ∀ fuel, N ≤ fuel → steal_loop fuel me n c s = some s') ∧
        (∀ q, (s'.get q).state = (s.get q).state) ∧
        (s' = s ∨
          ∃ c p, c < NCPU ∧ c ≠ me ∧ p ∈ l c ∧ (s.get p).state = RUNNABLE ∧
            Path s' (s'.runq me) (p :: l me) ∧
            Path s' (s'.runq c) ((l c).erase p) ∧
            (∀ d < NCPU, d ≠ me → d ≠ c → Path s' (s'.runq d) (l d))) := by
  intro n
  induction n with
  | zero =>
    intro c _
    exact ⟨s, ⟨0, fun fuel _ => rfl⟩, fun _ => rfl, Or.inl rfl⟩
  | succ n ih =>
    intro c hcn
    have hc : c < NCPU := by omega
    by_cases hcm : c = me
    · obtain ⟨s', ⟨N, hN⟩, h2, h3⟩ := ih (c + 1) (by omega)
      refine ⟨s', ⟨N, fun fuel hf => ?_⟩, h2, h3⟩
      simp only [steal_loop, if_pos hcm]
      exact hN fuel hf
    · cases hfind : (l c).find? (fun q => decide ((s.get q).state = RUNNABLE)) with
      | none =>
        obtain ⟨s', ⟨N, hN⟩, h2, h3⟩ := ih (c + 1) (by omega)
        refine ⟨s', ⟨max N ((l c).length + 1), fun fuel hf => ?_⟩, h2, h3⟩
        have hf1 : N ≤ fuel := le_trans (le_max_left _ _) hf
        have hf2 : (l c).length < fuel := lt_of_lt_of_le (Nat.lt_succ_self _)
          (le_trans (le_max_right _ _) hf)
        simp only [steal_loop, hcm, if_false]
        rw [steal_scan_path s (l c) _ fuel (hpath c hc) hf2, hfind]
        exact hN fuel hf1
      | some p =>
        have hp : p ∈ l c := List.mem_of_find?_eq_some hfind
        have hrun : (s.get p).state = RUNNABLE := by
          have := List.find?_some hfind
          simpa using this
        obtain ⟨s1, s2, g1, g2, g3, g4, g5, g6⟩ :=
          steal_take NCPU me c p s l hme hc hcm hpath hnodup hdisj hp hrun
        refine ⟨s2, ⟨(l c).length + (l me).length + 1, fun fuel hf => ?_⟩, g3,
          Or.inr ⟨c, p, hc, hcm, hp, hrun, g4, g5, g6⟩⟩
        simp only [steal_loop, hcm, if_false]
        rw [steal_scan_path s (l c) _ fuel (hpath c hc) (by omega), hfind]
        simp only []
        rw [g1 fuel (by omega)]
        exact g2 fuel (by omega)

/-- C10: on a state whose run queues are duplicate-free lists `l c`, pairwise
disjoint, `steal` called on CPU `me` ends (with enough fuel) in a state
where every slot has the state it had, so the number of slots that are not
UNUSED is the same; and either every queue is the list it was, or one
process `p`, RUNNABLE and taken from the queue of another table `c`, is now
at the front of the caller's queue, which it was not on before, has left
the queue of `c`, and is on no third queue, all other entries staying where
they were in their order. -/
theorem steal_moves_at_most_one (NCPU NPROC me : Nat) (s : Kernel) (l : Nat → List Ptr)
    (hme : me < NCPU)
    (hpath : ∀ d < NCPU, Path s (s.runq d) (l d))
    (hnodup : ∀ d < NCPU, (l d).Nodup)
    (hdisj : ∀ d < NCPU, ∀ e < NCPU, d ≠ e → ∀ q ∈ l d, q ∉ l e) :
    ∃ s', (∃ N, ∀ fuel, N ≤ fuel → steal fuel NCPU me s = some s') ∧
      (∀ q, (s'.get q).state = (s.get q).state) ∧
      liveCount NCPU NPROC s' = liveCount NCPU NPROC s ∧
      ((∀ d < NCPU, Path s' (s'.runq d) (l d)) ∨
        ∃ c p, c < NCPU ∧ c ≠ me ∧ p ∈ l c ∧ p ∉ l me ∧
          Path s' (s'.runq me) (p :: l me) ∧
          Path s' (s'.runq c) ((l c).erase p) ∧ p ∉ (l c).erase p ∧
          (∀ d < NCPU, d ≠ me → d ≠ c → Path s' (s'.runq d) (l d) ∧ p ∉ l d)) := by
  obtain ⟨s', h1, h2, h3⟩ :=
    steal_loop_spec NCPU me s l hme hpath hnodup hdisj NCPU 0 (by omega)
  refine ⟨s', h1, h2, ?_, ?_⟩
  · simp only [liveCount, h2]
  · rcases h3 with h3 | ⟨c, p, hc, hcm, hp, _, g4, g5, g6⟩
    · left
      subst h3
      exact hpath
    · right
      refine ⟨c, p, hc, hcm, hp, hdisj c hc me hme hcm p hp, g4, g5, ?_, ?_⟩
      · intro hmem
        exact ((hnodup c hc).mem_erase_iff.mp hmem).1 rfl
      · intro d hd hdme hdc
        exact ⟨g6 d hd hdme hdc, hdisj c hc d hd (fun e => hdc e.symm) p hp⟩

/-- Witness for `steal_moves_at_most_one`: CPU 0 of `idleCpu0` steals from
CPU 1's queue. -/
theorem steal_moves_at_most_one_witness :
    ∃ s', (∃ N, ∀ fuel, N ≤ fuel → steal fuel 2 0 idleCpu0 = some s') ∧
      (∀ q, (s'.get q).state = (idleCpu0.get q).state) ∧
      liveCount 2 3 s' = liveCount 2 3 idleCpu0 ∧
      ((∀ d < 2, Path s' (s'.runq d) (idleCpu0Queues d)) ∨
        ∃ c p, c < 2 ∧ c ≠ 0 ∧ p ∈ idleCpu0Queues c ∧ p ∉ idleCpu0Queues 0 ∧
          Path s' (s'.runq 0) (p :: idleCpu0Queues 0) ∧
          Path s' (s'.runq c) ((idleCpu0Queues c).erase p) ∧
          p ∉ (idleCpu0Queues c).erase p ∧
          (∀ d < 2, d ≠ 0 → d ≠ c → Path s' (s'.runq d) (idleCpu0Queues d) ∧
            p ∉ idleCpu0Queues d)) :=
  steal_moves_at_most_one 2 3 0 idleCpu0 idleCpu0Queues (by decide) (by decide) (by decide)
    (by
      intro d hd e he hde q hq
      interval_cases d <;> interval_cases e <;> simp_all [idleCpu0Queues])

/-! ## The reparenting pass of `exit` -/

/-- Redirecting the `next` link of one slot `p` to the start of a finite
list keeps every finite list finite. -/
theorem Path_redirect (s s' : Kernel) (p : Ptr) (h : Option Ptr) (l : List Ptr)
    (hl : Path s' h l) (hnext : (s'.get p).next = h)
    (hother : ∀ q, q ≠ p → (s'.get q).next = (s.get q).next) :
    ∀ (l' : List Ptr) (a : Option Ptr), Path s a l' → ∃ l'', Path s' a l'' := by
  intro l'
  induction l' with
  | nil => intro a ha; exact ⟨[], ha⟩
  | cons x t ih =>
    intro a ha
    obtain ⟨h1, h2⟩ := ha
    by_cases hx : x = p
    · subst hx
      exact ⟨x :: l, h1, by rw [hnext]; exact hl⟩
    · obtain ⟨l'', hl''⟩ := ih _ h2
      exact ⟨x :: l'', h1, by rw [hother x hx]; exact hl''⟩

/-- On a finite queue `addrun1` ends (with enough fuel); it changes no
parent pointer and keeps every finite queue finite. -/
theorem addrun1_total (pt : Nat) (p : Ptr) (s : Kernel) (hac : Acyclic s pt) :
    ∃ s', (∃ N, ∀ fuel, N ≤ fuel → addrun1 fuel s pt p = some s') ∧
      (∀ q, (s'.get q).parent = (s.get q).parent) ∧ s'.initproc = s.initproc ∧
      (∀ d, Acyclic s d → Acyclic s' d) := by
  obtain ⟨l, hl⟩ := hac
  by_cases hmem : p ∈ l
  · refine ⟨s.set p { s.get p with state := RUNNABLE }, ⟨l.length + 1, fun fuel hf => ?_⟩,
      ?_, rfl, ?_⟩
    · simp only [addrun1]
      rw [addrun1_loop_path pt p s l _ fuel hl (by omega), if_pos hmem]
    · intro q
      by_cases hq : q = p
      · subst hq; simp
      · rw [get_set_ne _ _ _ _ hq]
    · rintro d ⟨l', hl'⟩
      refine ⟨l', ?_⟩
      rw [runq_set]
      apply Path_congr s _ l' _ _ hl'
      intro y _
      by_cases hy : y = p
      · subst hy; simp
      · rw [get_set_ne _ _ _ _ hy]
  · have hnext : ∀ q, q ≠ p →
        (((s.set p { s.get p with state := RUNNABLE, next := s.runq pt }).setRunq pt
          (some p)).get q).next = (s.get q).next := by
      intro q hq
      rw [get_setRunq, get_set_ne _ _ _ _ hq]
    have hl2 : Path ((s.set p { s.get p with state := RUNNABLE, next := s.runq pt }).setRunq pt
        (some p)) (s.runq pt) l := by
      apply Path_congr s _ l _ _ hl
      intro y hy
      exact hnext y (fun e => hmem (e ▸ hy))
    refine ⟨(s.set p { s.get p with state := RUNNABLE, next := s.runq pt }).setRunq pt (some p),
      ⟨l.length + 1, fun fuel hf => ?_⟩, ?_, rfl, ?_⟩
    · simp only [addrun1]
      rw [addrun1_loop_path pt p s l _ fuel hl (by omega), if_neg hmem]
    · intro q
      by_cases hq : q = p
      · subst hq; simp
      · rw [get_setRunq, get_set_ne _ _ _ _ hq]
    · rintro d ⟨l', hl'⟩
      by_cases hd : d = pt
      · subst hd
        exact ⟨p :: l, by simp, by simpa using hl2⟩
      · rw [Acyclic, runq_setRunq_ne _ _ _ _ hd, runq_set]
        exact Path_redirect s _ p (s.runq pt) l hl2 (by simp) hnext l' _ hl'

/-- On a finite queue the loop of `wakeup1` ends (with enough fuel); it
changes no parent pointer and keeps every finite queue finite. -/
theorem wakeup1_loop_total (pt : Nat) (chan : Chan) :
    ∀ (n i : Nat) (s : Kernel), Acyclic s pt →
      ∃ s', (∃ N, ∀ fuel, N ≤ fuel → wakeup1_loop fuel n i s pt chan = some s') ∧
        (∀ q, (s'.get q).parent = (s.get q).parent) ∧ s'.initproc = s.initproc ∧
        (∀ d, Acyclic s d → Acyclic s' d) := by
  intro n
  induction n with
  | zero =>
    intro i s _
    exact ⟨s, ⟨0, fun fuel _ => rfl⟩, fun _ => rfl, rfl, fun _ h => h⟩
  | succ n ih =>
    intro i s hac
    by_cases hc : (s.get (pt, i)).state = SLEEPING ∧ (s.get (pt, i)).chan = chan
    · obtain ⟨s1, ⟨N1, hN1⟩, a1, a2, a3⟩ := addrun1_total pt (pt, i) s hac
      obtain ⟨s', ⟨N2, hN2⟩, b1, b2, b3⟩ := ih (i + 1) s1 (a3 pt hac)
      refine ⟨s', ⟨max N1 N2, fun fuel hf => ?_⟩, ?_, ?_, ?_⟩
      · simp only [wakeup1_loop, if_pos hc, hN1 fuel (le_trans (le_max_left _ _) hf)]
        exact hN2 fuel (le_trans (le_max_right _ _) hf)
      · intro q; rw [b1 q, a1 q]
      · rw [b2, a2]
      · intro d hd; exact b3 d (a3 d hd)
    · obtain ⟨s', ⟨N2, hN2⟩, b1, b2, b3⟩ := ih (i + 1) s hac
      refine ⟨s', ⟨N2, fun fuel hf => ?_⟩, b1, b2, b3⟩
      simp only [wakeup1_loop, if_neg hc]
      exact hN2 fuel hf

/-- The inner loop of the reparenting pass over the slots `i, ..., i+n-1`
of table `c`, whose queue is finite: it ends (with enough fuel), reparents
exactly the visited slots, and keeps `initproc` and the finiteness of every
queue. -/
theorem exit_reparent_inner_spec (NPROC c : Nat) (cur : Ptr) :
    ∀ (n i : Nat) (s : Kernel), Acyclic s c →
      ∃ s', (∃ N, ∀ fuel, N ≤ fuel → exit_reparent_inner fuel NPROC n i c cur s = some s') ∧
        s'.initproc = s.initproc ∧ (∀ d, Acyclic s d → Acyclic s' d) ∧
        (∀ d j, (s'.get (d, j)).parent =
          if d = c ∧ i ≤ j ∧ j < i + n then reparented cur s.initproc (s.get (d, j)).parent
          else (s.get (d, j)).parent) := by
  intro n
  induction n with
  | zero =>
    intro i s _
    refine ⟨s, ⟨0, fun fuel _ => rfl⟩, rfl, fun _ h => h, ?_⟩
    intro d j
    have : ¬ (d = c ∧ i ≤ j ∧ j < i + 0) := by omega
    rw [if_neg this]
  | succ n ih =>
    intro i s hac
    by_cases hp : (s.get (c, i)).parent = some cur
    · have hkeep : ∀ d, Acyclic s d →
          Acyclic (s.set (c, i) { s.get (c, i) with parent := s.initproc }) d := by
        rintro d ⟨l, hl⟩
        refine ⟨l, ?_⟩
        rw [runq_set]
        apply Path_congr s _ l _ _ hl
        intro y _
        by_cases hy : y = (c, i)
        · subst hy; simp
        · rw [get_set_ne _ _ _ _ hy]
      have hpar : ∀ d j,
          ((s.set (c, i) { s.get (c, i) with parent := s.initproc }).get (d, j)).parent =
            if d = c ∧ j = i then s.initproc else (s.get (d, j)).parent := by
        intro d j
        by_cases hq : (d, j) = (c, i)
        · rw [hq, get_set_same]
          have hdj : d = c ∧ j = i := ⟨congrArg Prod.fst hq, congrArg Prod.snd hq⟩
          rw [if_pos hdj]
        · rw [get_set_ne _ _ _ _ hq]
          have : ¬ (d = c ∧ j = i) := fun e => hq (by rw [e.1, e.2])
          rw [if_neg this]
      have hfin : ∀ (s2 s' : Kernel), s2.initproc = s.initproc →
          (∀ d j, (s2.get (d, j)).parent =
            if d = c ∧ j = i then s.initproc else (s.get (d, j)).parent) →
          (∀ d j, (s'.get (d, j)).parent =
            if d = c ∧ i + 1 ≤ j ∧ j < i + 1 + n
              then reparented cur s2.initproc (s2.get (d, j)).parent
            else (s2.get (d, j)).parent) →
          ∀ d j, (s'.get (d, j)).parent =
            if d = c ∧ i ≤ j ∧ j < i + (n + 1)
              then reparented cur s.initproc (s.get (d, j)).parent
            else (s.get (d, j)).parent := by
        intro s2 s' hi2 h2 h' d j
        rw [h' d j, h2 d j, hi2]
        by_cases hq : d = c ∧ j = i
        · obtain ⟨rfl, rfl⟩ := hq
          have h1 : ¬ (d = d ∧ j + 1 ≤ j ∧ j < j + 1 + n) := by omega
          have h3 : d = d ∧ j ≤ j ∧ j < j + (n + 1) := ⟨rfl, le_refl j, by omega⟩
          rw [if_neg h1, if_pos h3]
          simp [reparented, hp]
        · rw [if_neg hq]
          by_cases hr : d = c ∧ i + 1 ≤ j ∧ j < i + 1 + n
          · have h3 : d = c ∧ i ≤ j ∧ j < i + (n + 1) := ⟨hr.1, by omega, by omega⟩
            rw [if_pos hr, if_pos h3]
          · have h3 : ¬ (d = c ∧ i ≤ j ∧ j < i + (n + 1)) := by
              rintro ⟨e1, e2, e3⟩
              by_cases hji : j = i
              · exact hq ⟨e1, hji⟩
              · exact hr ⟨e1, by omega, by omega⟩
            rw [if_neg hr, if_neg h3]
      by_cases hz : (s.get (c, i)).state = ZOMBIE
      · obtain ⟨s2, ⟨N1, hN1⟩, a1, a2, a3⟩ :=
          wakeup1_loop_total c (chanOf s.initproc) NPROC 0
            (s.set (c, i) { s.get (c, i) with parent := s.initproc }) (hkeep c hac)
        obtain ⟨s', ⟨N2, hN2⟩, b1, b2, b3⟩ := ih (i + 1) s2 (a3 c (hkeep c hac))
        refine ⟨s', ⟨max N1 N2, fun fuel hf => ?_⟩, ?_, ?_, ?_⟩
        · have hw := hN1 fuel (le_trans (le_max_left _ _) hf)
          simp only [exit_reparent_inner, if_pos hp, get_set_same, if_pos hz, initproc_set,
            wakeup1, hw]
          exact hN2 fuel (le_trans (le_max_right _ _) hf)
        · rw [b1, a2, initproc_set]
        · intro d hd; exact b2 d (a3 d (hkeep d hd))
        · exact hfin s2 s' (by rw [a2, initproc_set])
            (fun d j => by rw [a1 (d, j)]; exact hpar d j) b3
      · obtain ⟨s', ⟨N2, hN2⟩, b1, b2, b3⟩ :=
          ih (i + 1) (s.set (c, i) { s.get (c, i) with parent := s.initproc }) (hkeep c hac)
        refine ⟨s', ⟨N2, fun fuel hf => ?_⟩, ?_, ?_, ?_⟩
        · simp only [exit_reparent_inner, if_pos hp, get_set_same, if_neg hz]
          exact hN2 fuel hf
        · rw [b1, initproc_set]
        · intro d hd; exact b2 d (hkeep d hd)
        · exact hfin _ s' (initproc_set _ _ _) hpar b3
    · obtain ⟨s', ⟨N2, hN2⟩, b1, b2, b3⟩ := ih (i + 1) s hac
      refine ⟨s', ⟨N2, fun fuel hf => ?_⟩, b1, b2, ?_⟩
      · simp only [exit_reparent_inner, if_neg hp]
        exact hN2 fuel hf
      · intro d j
        rw [b3 d j]
        by_cases hq : d = c ∧ j = i
        · obtain ⟨rfl, rfl⟩ := hq
          have h1 : ¬ (d = d ∧ j + 1 ≤ j ∧ j < j + 1 + n) := by omega
          have h3 : d = d ∧ j ≤ j ∧ j < j + (n + 1) := ⟨rfl, le_refl j, by omega⟩
          rw [if_neg h1, if_pos h3]
          simp [reparented, hp]
        · by_cases hr : d = c ∧ i + 1 ≤ j ∧ j < i + 1 + n
          · have h3 : d = c ∧ i ≤ j ∧ j < i + (n + 1) := ⟨hr.1, by omega, by omega⟩
            rw [if_pos hr, if_pos h3]
          · have h3 : ¬ (d = c ∧ i ≤ j ∧ j < i + (n + 1)) := by
              rintro ⟨e1, e2, e3⟩
              by_cases hji : j = i
              · exact hq ⟨e1, hji⟩
              · exact hr ⟨e1, by omega, by omega⟩
            rw [if_neg hr, if_neg h3]

/-- The outer loop of the reparenting pass over the tables `c, ..., c+n-1`,
whose queues are finite: it ends (with enough fuel), reparents exactly the
slots `0, ..., NPROC-1` of these tables, and keeps `initproc`. -/
theorem exit_reparent_outer_spec (NCPU NPROC me : Nat) (cur : Ptr) :
    ∀ (n c : Nat) (s : Kernel), me + c + n ≤ NCPU →
      (∀ d, c ≤ d → d < c + n → Acyclic s d) →
      ∃ s', (∃ N, ∀ fuel, N ≤ fuel →
          exit_reparent_outer fuel NCPU NPROC me n c cur s = some s') ∧
        s'.initproc = s.initproc ∧
        (∀ d j, (s'.get (d, j)).parent =
          if c ≤ d ∧ d < c + n ∧ j < NPROC
            then reparented cur s.initproc (s.get (d, j)).parent
          else (s.get (d, j)).parent) := by
  intro n
  induction n with
  | zero =>
    intro c s _ _
    refine ⟨s, ⟨0, fun fuel _ => rfl⟩, rfl, ?_⟩
    intro d j
    have : ¬ (c ≤ d ∧ d < c + 0 ∧ j < NPROC) := by omega
    rw [if_neg this]
  | succ n ih =>
    intro c s hb hac
    have hin : ¬ NCPU ≤ me + c := by omega
    obtain ⟨s1, ⟨N1, hN1⟩, a1, a2, a3⟩ :=
      exit_reparent_inner_spec NPROC c cur NPROC 0 s (hac c (le_refl c) (by omega))
    obtain ⟨s', ⟨N2, hN2⟩, b1, b2⟩ :=
      ih (c + 1) s1 (by omega) (fun d h1 h2 => a2 d (hac d (by omega) (by omega)))
    refine ⟨s', ⟨max N1 N2, fun fuel hf => ?_⟩, by rw [b1, a1], ?_⟩
    · simp only [exit_reparent_outer, if_neg hin, hN1 fuel (le_trans (le_max_left _ _) hf)]
      exact hN2 fuel (le_trans (le_max_right _ _) hf)
    · intro d j
      rw [b2 d j, a3 d j, a1]
      by_cases hd : d = c
      · subst hd
        have h1 : ¬ (d + 1 ≤ d ∧ d < d + 1 + n ∧ j < NPROC) := by omega
        rw [if_neg h1]
        by_cases hj : j < NPROC
        · have h2 : d = d ∧ 0 ≤ j ∧ j < 0 + NPROC := ⟨rfl, Nat.zero_le j, by omega⟩
          have h3 : d ≤ d ∧ d < d + (n + 1) ∧ j < NPROC := ⟨le_refl d, by omega, hj⟩
          rw [if_pos h2, if_pos h3]
        · have h2 : ¬ (d = d ∧ 0 ≤ j ∧ j < 0 + NPROC) := by omega
          have h3 : ¬ (d ≤ d ∧ d < d + (n + 1) ∧ j < NPROC) := by omega
          rw [if_neg h2, if_neg h3]
      · have h2 : ¬ (d = c ∧ 0 ≤ j ∧ j < 0 + NPROC) := fun e => hd e.1
        rw [if_neg h2]
        by_cases hr : c + 1 ≤ d ∧ d < c + 1 + n ∧ j < NPROC
        · have h3 : c ≤ d ∧ d < c + (n + 1) ∧ j < NPROC := by omega
          rw [if_pos hr, if_pos h3]
        · have h3 : ¬ (c ≤ d ∧ d < c + (n + 1) ∧ j < NPROC) := by omega
          rw [if_neg hr, if_neg h3]

/-- On CPU 0, where `ptable[c]` is `ptables[c]`: let the caller `cur` not be
the init process, and let the run queues be finite (null-terminated) lists.
Then the reparenting pass of `exit` ends (with enough fuel) and afterwards,
in every table: every slot whose parent was the caller has `initproc` as
parent, no slot has the caller as parent, and every slot whose parent was
not the caller keeps its parent; `initproc` itself is unchanged. -/
theorem exit_reparent_on_cpu0 (NCPU NPROC : Nat) (cur : Ptr) (s : Kernel)
    (hinit : s.initproc ≠ some cur)
    (hwf : ∀ c < NCPU, Acyclic s c) :
    ∃ s', (∃ N, ∀ fuel, N ≤ fuel → exit_reparent fuel NCPU NPROC 0 cur s = some s') ∧
      s'.initproc = s.initproc ∧
      ∀ c < NCPU, ∀ i < NPROC,
        ((s.get (c, i)).parent = some cur → (s'.get (c, i)).parent = s.initproc) ∧
        (s'.get (c, i)).parent ≠ some cur ∧
        ((s.get (c, i)).parent ≠ some cur → (s'.get (c, i)).parent = (s.get (c, i)).parent) := by
  obtain ⟨s', h1, h2, h3⟩ :=
    exit_reparent_outer_spec NCPU NPROC 0 cur NCPU 0 s (by omega)
      (fun d _ hd => hwf d (by omega))
  refine ⟨s', h1, h2, ?_⟩
  intro c hc i hi
  have hcond : 0 ≤ c ∧ c < 0 + NCPU ∧ i < NPROC := ⟨Nat.zero_le c, by omega, hi⟩
  have hpar := h3 c i
  rw [if_pos hcond] at hpar
  by_cases hp : (s.get (c, i)).parent = some cur
  · have e : (s'.get (c, i)).parent = s.initproc := by
      rw [hpar]; simp [reparented, hp]
    exact ⟨fun _ => e, by rw [e]; exact hinit, fun h => absurd hp h⟩
  · have e : (s'.get (c, i)).parent = (s.get (c, i)).parent := by
      rw [hpar]; simp [reparented, hp]
    exact ⟨fun h => absurd h hp, by rw [e]; exact hp, fun _ => e⟩

/-- A pass over the tables `c, ..., c+n` on CPU `me` whose last lock index
`me + c + n` is not below `NCPU` has no defined result, whatever the fuel. -/
theorem exit_reparent_outer_past_end (fuel NCPU NPROC me : Nat) (cur : Ptr) :
    ∀ (n c : Nat) (s : Kernel), NCPU ≤ me + c + n →
      exit_reparent_outer fuel NCPU NPROC me (n + 1) c cur s = none := by
  intro n
  induction n with
  | zero =>
    intro c s h
    have hc : NCPU ≤ me + c := by omega
    simp only [exit_reparent_outer, if_pos hc]
  | succ n ih =>
    intro c s h
    by_cases hc : NCPU ≤ me + c
    · simp only [exit_reparent_outer, if_pos hc]
    · cases h1 : exit_reparent_inner fuel NPROC NPROC 0 c cur s with
      | none => simp only [exit_reparent_outer, if_neg hc, h1]
      | some s1 =>
        have h2 := ih (c + 1) s1 (by omega)
        simp only [exit_reparent_outer, if_neg hc, h1] at h2 ⊢
        exact h2

/-- On every CPU other than 0 the reparenting pass reaches past the end of
`ptables`: it has no defined result, whatever the fuel and the state. -/
theorem exit_reparent_off_cpu0 (fuel NCPU NPROC me : Nat) (cur : Ptr) (s : Kernel)
    (hme : 0 < me) (hN : 0 < NCPU) :
    exit_reparent fuel NCPU NPROC me cur s = none := by
  obtain ⟨n, rfl⟩ : ∃ n, NCPU = n + 1 := ⟨NCPU - 1, by omega⟩
  exact exit_reparent_outer_past_end fuel (n + 1) NPROC me cur n 0 s (by omega)

/-- C8, evaluated at the failing input: on `crossTableFamily` the shell
(slot (1,0)) is not init, runs on CPU 1 and is the parent of slot (0,1).
Its reparenting pass, run on CPU 1, has no defined result for any fuel: for
table 1 it takes `ptable[1].lock`, which is `ptables[2].lock`, past the end
of the two tables.  The same pass run on CPU 0 (by slot (0,1), the parent of
slot (1,1)) ends and hands that child to init. -/
theorem exit_reparent_reads_past_lock_array :
    crossTableFamily.initproc ≠ some (1, 0) ∧
    (crossTableFamily.get (0, 1)).parent = some (1, 0) ∧
    (∀ fuel, exit_reparent fuel 2 2 1 (1, 0) crossTableFamily = none) ∧
    (exit_reparent 8 2 2 0 (0, 1) crossTableFamily).map (fun s => (s.get (1, 1)).parent)
      = some (some (0, 0)) :=
  ⟨by decide, by decide,
    fun fuel => exit_reparent_off_cpu0 fuel 2 2 1 (1, 0) crossTableFamily (by decide) (by decide),
    by decide⟩

/-- C9, evaluated at the failing input: on `crossTableFamily` init (slot
(0,0)) is SLEEPING on the channel `initproc`, and the exiting process (slot
(0,1), on CPU 0) has the ZOMBIE child 4 in slot (1,1).  `exit` reaches its
final `sched()` with the child handed to init, but with init still SLEEPING
and on no run queue: queue 0 is empty and queue 1 holds the shell. -/
theorem exit_leaves_remote_init_asleep :
    crossTableFamily.initproc = some (0, 0) ∧
    (crossTableFamily.get (0, 0)).state = SLEEPING ∧
    (crossTableFamily.get (0, 0)).chan = chanOf crossTableFamily.initproc ∧
    (crossTableFamily.get (1, 1)).parent = some (0, 1) ∧
    (crossTableFamily.get (1, 1)).state = ZOMBIE ∧
    (exit 8 2 2 0 (0, 1) crossTableFamily).map
        (fun s => ((s.get (1, 1)).parent, (s.get (0, 0)).state, s.runq 0, s.runq 1))
      = some (some (0, 0), SLEEPING, none, some (1, 0)) := by
  decide

/-! ## `addrun1` and `delrun1` on one queue -/

/-- Storing back what a slot already holds changes nothing. -/
theorem set_get_self (s : Kernel) (p : Ptr) (v : proc) (h : v = s.get p) : s.set p v = s := by
  subst h
  cases s with
  | mk pts np ip =>
    simp only [Kernel.set, Kernel.get]
    congr 1
    funext c
    by_cases hc : c = p.1
    · subst hc
      simp only [Function.update_same]
      have : Function.update (pts p.1).proc p.2 ((pts p.1).proc p.2) = (pts p.1).proc :=
        Function.update_eq_self _ _
      rw [this]
    · simp [Function.update, hc]

/-- When `target` is not on the finite queue, the walk of `delrun1` ends
with fuel for the queue's length and changes nothing. -/
theorem delrun1_loop_absent (pt : Nat) (target : Ptr) (s : Kernel) :
    ∀ (l : List Ptr) (prev a : Option Ptr) (fuel : Nat), Path s a l → target ∉ l →
      l.length < fuel → delrun1_loop fuel s pt prev a target = some s := by
  intro l
  induction l with
  | nil =>
    intro prev a fuel h _ hf
    obtain ⟨f, rfl⟩ : ∃ f, fuel = f + 1 := ⟨fuel - 1, by simp at hf; omega⟩
    have ha : a = none := h
    subst ha
    simp [delrun1_loop]
  | cons x t ih =>
    intro prev a fuel h hmem hf
    obtain ⟨f, rfl⟩ : ∃ f, fuel = f + 1 := ⟨fuel - 1, by simp at hf; omega⟩
    obtain ⟨h1, h2⟩ := h
    subst h1
    have hx : x ≠ target := fun e => hmem (e ▸ List.mem_cons_self x t)
    have ht : target ∉ t := fun e => hmem (List.mem_cons_of_mem x e)
    simp only [delrun1_loop, hx, if_false]
    exact ih (some x) _ f h2 ht (by simp at hf; omega)

/-- Pushing a slot that is not on the finite queue of table `pt`: the walk
of `addrun1` ends and the slot becomes the new head. -/
theorem addrun1_inserts_at_front_aux (pt : Nat) (p : Ptr) (s : Kernel) (l : List Ptr)
    (hl : Path s (s.runq pt) l) (hp : p ∉ l) :
    ∃ s', (∀ fuel, l.length < fuel → addrun1 fuel s pt p = some s') ∧
      (s'.get p).state = RUNNABLE ∧
      Path s' (s'.runq pt) (p :: l) ∧
      (∀ q, q ≠ p → s'.get q = s.get q) ∧
      (∀ q, q ≠ p → (s'.get q).state = (s.get q).state) ∧
      (∀ d, d ≠ pt → s'.runq d = s.runq d) := by
  have hnext : ∀ q, q ≠ p →
      ((s.set p { s.get p with state := RUNNABLE, next := s.runq pt }).setRunq pt
        (some p)).get q = s.get q := by
    intro q hq
    rw [get_setRunq, get_set_ne _ _ _ _ hq]
  refine ⟨(s.set p { s.get p with state := RUNNABLE, next := s.runq pt }).setRunq pt (some p),
    ?_, by simp, ?_, hnext, fun q hq => by rw [hnext q hq], ?_⟩
  · intro fuel hf
    simp only [addrun1]
    rw [addrun1_loop_path pt p s l _ fuel hl hf, if_neg hp]
  · refine ⟨by simp, ?_⟩
    rw [get_setRunq, get_set_same]
    apply Path_congr s _ l _ _ hl
    intro y hy
    rw [hnext y (fun e => hp (e ▸ hy))]
  · intro d hd
    rw [runq_setRunq_ne _ _ _ _ hd, runq_set]

/-- C17: when the run queue of table `pt` is the finite list `l` and `p` is
not on it, `addrun1(pt, p)` ends (with fuel for the length of `l`), sets the
state of `p` to RUNNABLE and inserts `p` at the front: the queue becomes
`p` followed by `l` in its old order.  No other slot changes (so no other
state changes), and the other tables keep their queue heads. -/
theorem addrun1_inserts_at_front (pt : Nat) (p : Ptr) (s : Kernel) (l : List Ptr)
    (hl : Path s (s.runq pt) l) (hp : p ∉ l) :
    ∃ s', (∀ fuel, l.length < fuel → addrun1 fuel s pt p = some s') ∧
      (s'.get p).state = RUNNABLE ∧
      Path s' (s'.runq pt) (p :: l) ∧
      (∀ q, q ≠ p → s'.get q = s.get q) ∧
      (∀ q, q ≠ p → (s'.get q).state = (s.get q).state) ∧
      (∀ d, d ≠ pt → s'.runq d = s.runq d) :=
  addrun1_inserts_at_front_aux pt p s l hl hp

/-- Witness for `addrun1_inserts_at_front`: on `idleCpu0`, process 1 (slot
(1,0)) is not on CPU 1's queue. -/
theorem addrun1_inserts_at_front_witness :
    ∃ s', (∀ fuel, [((1 : Nat), (2 : Nat)), (1, 1)].length < fuel →
        addrun1 fuel idleCpu0 1 (1, 0) = some s') ∧
      (s'.get (1, 0)).state = RUNNABLE ∧
      Path s' (s'.runq 1) ((1, 0) :: [(1, 2), (1, 1)]) ∧
      (∀ q, q ≠ (1, 0) → s'.get q = idleCpu0.get q) ∧
      (∀ q, q ≠ (1, 0) → (s'.get q).state = (idleCpu0.get q).state) ∧
      (∀ d, d ≠ 1 → s'.runq d = idleCpu0.runq d) :=
  addrun1_inserts_at_front 1 (1, 0) idleCpu0 [(1, 2), (1, 1)] (by decide) (by decide)

/-- The effect of `delrun1(pt, p)` on a table whose queue is the
duplicate-free finite list `l`: the queue loses `p`; slots keep every field
but `next`; slots off the queue, and the queue heads of the other tables,
are untouched. -/
theorem delrun1_on_queue (pt : Nat) (p : Ptr) (s : Kernel) (l : List Ptr)
    (hl : Path s (s.runq pt) l) (hnd : l.Nodup) :
    ∃ s', (∀ fuel, l.length < fuel → delrun1 fuel s pt p = some s') ∧
      Path s' (s'.runq pt) (l.erase p) ∧
      (∀ q, s'.get q = { s.get q with next := (s'.get q).next }) ∧
      (∀ q, q ∉ l → s'.get q = s.get q) ∧
      (∀ d, d ≠ pt → s'.runq d = s.runq d) ∧
      (p ∉ l → s' = s) ∧ s'.initproc = s.initproc ∧ s'.nextpid = s.nextpid := by
  by_cases hp : p ∈ l
  · obtain ⟨s', e1, e2, _, e4, e5, e6, _, e8, e9⟩ :=
      delrun1_loop_path pt p l s none (s.runq pt) hl hnd hp rfl (by intro pv h; cases h)
    exact ⟨s', e1, e2, e4, fun q hq => e5 q hq (by intro pv h; cases h), e6,
      fun h => absurd hp h, e8, e9⟩
  · have her : l.erase p = l := List.erase_of_not_mem hp
    refine ⟨s, ?_, by rw [her]; exact hl, fun q => rfl, fun _ _ => rfl, fun _ _ => rfl,
      fun _ => rfl, rfl, rfl⟩
    intro fuel hf
    exact delrun1_loop_absent pt p s l none _ fuel hl hp hf

/-- C18: when the run queue of table `pt` is the duplicate-free finite list
`l`, `delrun1(pt, p)` ends (with fuel for the length of `l`) and leaves the
queue `l` without `p`: `p` is not on it, every other entry is on it exactly
when it was, in the old relative order.  No slot changes state, and when
`p` was not on the queue the whole state is unchanged. -/
theorem delrun1_removes_by_identity (pt : Nat) (p : Ptr) (s : Kernel) (l : List Ptr)
    (hl : Path s (s.runq pt) l) (hnd : l.Nodup) :
    ∃ s', (∀ fuel, l.length < fuel → delrun1 fuel s pt p = some s') ∧
      Path s' (s'.runq pt) (l.erase p) ∧
      p ∉ l.erase p ∧
      (∀ q, q ≠ p → (q ∈ l.erase p ↔ q ∈ l)) ∧
      (l.erase p).Sublist l ∧
      (∀ q, (s'.get q).state = (s.get q).state) ∧
      (p ∉ l → s' = s) := by
  obtain ⟨s', e1, e2, e3, _, _, e6, _, _⟩ := delrun1_on_queue pt p s l hl hnd
  refine ⟨s', e1, e2, ?_, ?_, List.erase_sublist p l, ?_, e6⟩
  · intro hmem
    exact (hnd.mem_erase_iff.mp hmem).1 rfl
  · intro q hq
    rw [hnd.mem_erase_iff]
    exact ⟨fun h => h.2, fun h => ⟨hq, h⟩⟩
  · intro q
    have := congrArg proc.state (e3 q)
    simpa using this

/-- Witness for `delrun1_removes_by_identity`: on `idleCpu0`, process 2
(slot (1,1)) is taken off CPU 1's queue. -/
theorem delrun1_removes_by_identity_witness :
    ∃ s', (∀ fuel, [((1 : Nat), (2 : Nat)), (1, 1)].length < fuel →
        delrun1 fuel idleCpu0 1 (1, 1) = some s') ∧
      Path s' (s'.runq 1) ([(1, 2), (1, 1)].erase (1, 1)) ∧
      (1, 1) ∉ [((1 : Nat), (2 : Nat)), (1, 1)].erase (1, 1) ∧
      (∀ q, q ≠ (1, 1) → (q ∈ [((1 : Nat), (2 : Nat)), (1, 1)].erase (1, 1) ↔
        q ∈ [((1 : Nat), (2 : Nat)), (1, 1)])) ∧
      ([((1 : Nat), (2 : Nat)), (1, 1)].erase (1, 1)).Sublist [(1, 2), (1, 1)] ∧
      (∀ q, (s'.get q).state = (idleCpu0.get q).state) ∧
      ((1, 1) ∉ [((1 : Nat), (2 : Nat)), (1, 1)] → s' = idleCpu0) :=
  delrun1_removes_by_identity 1 (1, 1) idleCpu0 [(1, 2), (1, 1)] (by decide) (by decide)

/-- C12: when the run queue of table `pt` is the duplicate-free finite list
`l`, `addrun1(pt, p)` ends (with enough fuel) in a state `s1` on which a
second `addrun1(pt, p)` changes nothing; in `s1` the queue is a list on
which `p` occurs, and occurs once (the list is duplicate-free); and if `p` was already on the queue, the
queue is the same list and `s1` differs from the old state in the state of
`p` only, which is RUNNABLE. -/
theorem addrun1_idempotent (pt : Nat) (p : Ptr) (s : Kernel) (l : List Ptr)
    (hl : Path s (s.runq pt) l) (hnd : l.Nodup) :
    ∃ s1 l1, (∃ N, ∀ fuel, N ≤ fuel →
        addrun1 fuel s pt p = some s1 ∧ addrun1 fuel s1 pt p = some s1) ∧
      Path s1 (s1.runq pt) l1 ∧ p ∈ l1 ∧ l1.Nodup ∧
      (p ∈ l → l1 = l ∧ s1 = s.set p { s.get p with state := RUNNABLE }) := by
  by_cases hp : p ∈ l
  · have hl1 : Path (s.set p { s.get p with state := RUNNABLE })
        ((s.set p { s.get p with state := RUNNABLE }).runq pt) l := by
      rw [runq_set]
      apply Path_congr s _ l _ _ hl
      intro y _
      by_cases hy : y = p
      · subst hy; simp
      · rw [get_set_ne _ _ _ _ hy]
    refine ⟨s.set p { s.get p with state := RUNNABLE }, l, ⟨l.length + 1, fun fuel hf => ?_⟩,
      hl1, hp, hnd, fun _ => ⟨rfl, rfl⟩⟩
    constructor
    · simp only [addrun1]
      rw [addrun1_loop_path pt p s l _ fuel hl (by omega), if_pos hp]
    · simp only [addrun1]
      rw [addrun1_loop_path pt p _ l _ fuel hl1 (by omega), if_pos hp]
      congr 1
      apply set_get_self
      simp
  · obtain ⟨s1, e1, e2, e3, _, _, _⟩ := addrun1_inserts_at_front_aux pt p s l hl hp
    refine ⟨s1, p :: l, ⟨l.length + 2, fun fuel hf => ?_⟩, e3, List.mem_cons_self p l,
      List.nodup_cons.mpr ⟨hp, hnd⟩, fun h => absurd h hp⟩
    · refine ⟨e1 fuel (by omega), ?_⟩
      simp only [addrun1]
      rw [addrun1_loop_path pt p s1 (p :: l) _ fuel e3 (by simp; omega),
        if_pos (List.mem_cons_self p l)]
      congr 1
      apply set_get_self
      cases hg : s1.get p
      rw [hg] at e2
      simp only at e2
      subst e2
      rfl

/-- Witness for `addrun1_idempotent`: CPU 1's queue on `idleCpu0` and
process 2 (slot (1,1)), which is on it. -/
theorem addrun1_idempotent_witness :
    ∃ s1 l1, (∃ N, ∀ fuel, N ≤ fuel →
        addrun1 fuel idleCpu0 1 (1, 1) = some s1 ∧ addrun1 fuel s1 1 (1, 1) = some s1) ∧
      Path s1 (s1.runq 1) l1 ∧ (1, 1) ∈ l1 ∧ l1.Nodup ∧
      ((1, 1) ∈ [((1 : Nat), (2 : Nat)), (1, 1)] → l1 = [(1, 2), (1, 1)] ∧
        s1 = idleCpu0.set (1, 1) { idleCpu0.get (1, 1) with state := RUNNABLE }) :=
  addrun1_idempotent 1 (1, 1) idleCpu0 [(1, 2), (1, 1)] (by decide) (by decide)

/-! ## `sleep` -/

/-- A pointer starts at most one finite list. -/
theorem Path_functional (s : Kernel) :
    ∀ (l1 l2 : List Ptr) (a : Option Ptr), Path s a l1 → Path s a l2 → l1 = l2 := by
  intro l1
  induction l1 with
  | nil =>
    intro l2 a h1 h2
    cases l2 with
    | nil => rfl
    | cons y t =>
      have e1 : a = none := h1
      have e2 : a = some y := h2.1
      rw [e1] at e2; cases e2
  | cons x t ih =>
    intro l2 a h1 h2
    cases l2 with
    | nil =>
      have e1 : a = some x := h1.1
      have e2 : a = none := h2
      rw [e1] at e2; cases e2
    | cons y t2 =>
      have e1 : a = some x := h1.1
      have e2 : a = some y := h2.1
      rw [e1] at e2
      have exy : x = y := Option.some.inj e2
      subst exy
      rw [ih t2 _ h1.2 h2.2]

/-- A suffix of a linked list is the linked list that starts further down. -/
theorem Path_suffix (s : Kernel) (l2 : List Ptr) :
    ∀ (l1 : List Ptr) (a : Option Ptr), Path s a (l1 ++ l2) → ∃ b, Path s b l2 := by
  intro l1
  induction l1 with
  | nil => intro a h; exact ⟨a, h⟩
  | cons x t ih => intro a h; exact ih _ h.2

/-- A linked list that reaches the null pointer visits no slot twice. -/
theorem Path_nodup (s : Kernel) :
    ∀ (l : List Ptr) (a : Option Ptr), Path s a l → l.Nodup := by
  intro l
  induction l with
  | nil => intro a _; exact List.nodup_nil
  | cons x t ih =>
    intro a h
    refine List.nodup_cons.mpr ⟨fun hx => ?_, ih _ h.2⟩
    obtain ⟨t1, t2, e⟩ := List.append_of_mem hx
    have h2 : Path s (s.get x).next (t1 ++ x :: t2) := e ▸ h.2
    obtain ⟨b, hb⟩ := Path_suffix s (x :: t2) t1 _ h2
    have hb2 : Path s (s.get x).next t2 := hb.2
    have e2 : t2 = t := Path_functional s t2 t _ hb2 h.2
    have hlen := congrArg List.length e
    rw [← e2] at hlen
    simp at hlen
    omega

/-- C19: let the guard lock be non-null and the caller's local run queue be
the finite list `l`.  Then `sleep(chan, lk)` reaches `sched()`
(with fuel for the length of `l`) in a state where the caller is SLEEPING
with recorded channel `chan` and is not on the local queue, which is `l`
without the caller: the other entries are on it exactly when they were, in
their old relative order.  Every other slot keeps its state and channel,
and every queue of another table that shares no entry with `l` is the list
it was. -/
theorem sleep_blocks_caller (me : Nat) (cur : Ptr) (s : Kernel) (chan : Chan) (lk : Nat)
    (l : List Ptr) (hlk : lk ≠ 0) (hl : Path s (s.runq me) l) :
    ∃ s', (∀ fuel, l.length < fuel → sleep fuel me cur s chan lk = some s') ∧
      (s'.get cur).state = SLEEPING ∧ (s'.get cur).chan = chan ∧
      Path s' (s'.runq me) (l.erase cur) ∧ cur ∉ l.erase cur ∧
      (∀ q, q ≠ cur → (q ∈ l.erase cur ↔ q ∈ l)) ∧ (l.erase cur).Sublist l ∧
      (∀ q, q ≠ cur →
        (s'.get q).state = (s.get q).state ∧ (s'.get q).chan = (s.get q).chan) ∧
      (∀ d l', d ≠ me → Path s (s.runq d) l' → (∀ q ∈ l', q ∉ l) →
        Path s' (s'.runq d) l') := by
  have hnd : l.Nodup := Path_nodup s l _ hl
  have hnext : ∀ q, (((s.set cur { s.get cur with chan := chan }).set cur
      { (s.set cur { s.get cur with chan := chan }).get cur with state := SLEEPING }).get q).next
        = (s.get q).next := by
    intro q
    by_cases hq : q = cur
    · subst hq; simp
    · rw [get_set_ne _ _ _ _ hq, get_set_ne _ _ _ _ hq]
  have hl2 : Path ((s.set cur { s.get cur with chan := chan }).set cur
      { (s.set cur { s.get cur with chan := chan }).get cur with state := SLEEPING })
      (((s.set cur { s.get cur with chan := chan }).set cur
      { (s.set cur { s.get cur with chan := chan }).get cur with state := SLEEPING }).runq me)
      l := by
    rw [runq_set, runq_set]
    exact Path_congr s _ l _ (fun y _ => hnext y) hl
  obtain ⟨s', e1, e2, e3, e4, e5, _, _, _⟩ := delrun1_on_queue me cur _ l hl2 hnd
  refine ⟨s', ?_, ?_, ?_, e2, ?_, ?_, List.erase_sublist cur l, ?_, ?_⟩
  · intro fuel hf
    simp only [sleep, if_neg hlk]
    exact e1 fuel hf
  · have := congrArg proc.state (e3 cur)
    simpa using this
  · have := congrArg proc.chan (e3 cur)
    simpa using this
  · intro hmem
    exact (hnd.mem_erase_iff.mp hmem).1 rfl
  · intro q hq
    rw [hnd.mem_erase_iff]
    exact ⟨fun h => h.2, fun h => ⟨hq, h⟩⟩
  · intro q hq
    have h1 := congrArg proc.state (e3 q)
    have h2 := congrArg proc.chan (e3 q)
    rw [get_set_ne _ _ _ _ hq, get_set_ne _ _ _ _ hq] at h1 h2
    exact ⟨by simpa using h1, by simpa using h2⟩
  · intro d l' hd hl' hdis
    rw [e5 d hd, runq_set, runq_set]
    apply Path_congr s _ l' _ _ hl'
    intro y hy
    rw [e4 y (hdis y hy)]
    exact hnext y

/-- Witness for `sleep_blocks_caller`: on `idleCpu0`, let process 3 (slot
(1,2), the head of CPU 1's queue) sleep on channel 7. -/
theorem sleep_blocks_caller_witness :
    ∃ s', (∀ fuel, [((1 : Nat), (2 : Nat)), (1, 1)].length < fuel →
        sleep fuel 1 (1, 2) idleCpu0 (Chan.other 7) 1 = some s') ∧
      (s'.get (1, 2)).state = SLEEPING ∧ (s'.get (1, 2)).chan = Chan.other 7 ∧
      Path s' (s'.runq 1) ([(1, 2), (1, 1)].erase (1, 2)) ∧
      (1, 2) ∉ [((1 : Nat), (2 : Nat)), (1, 1)].erase (1, 2) ∧
      (∀ q, q ≠ (1, 2) → (q ∈ [((1 : Nat), (2 : Nat)), (1, 1)].erase (1, 2) ↔
        q ∈ [((1 : Nat), (2 : Nat)), (1, 1)])) ∧
      ([((1 : Nat), (2 : Nat)), (1, 1)].erase (1, 2)).Sublist [(1, 2), (1, 1)] ∧
      (∀ q, q ≠ (1, 2) →
        (s'.get q).state = (idleCpu0.get q).state ∧ (s'.get q).chan = (idleCpu0.get q).chan) ∧
      (∀ d l', d ≠ 1 → Path idleCpu0 (idleCpu0.runq d) l' →
        (∀ q ∈ l', q ∉ [((1 : Nat), (2 : Nat)), (1, 1)]) → Path s' (s'.runq d) l') :=
  sleep_blocks_caller 1 (1, 2) idleCpu0 (Chan.other 7) 1 [(1, 2), (1, 1)] (by decide)
    (by decide)

/-! ## `wakeup1` on one table -/

/-- The effect of `addrun1(pt, p)` on a table whose queue is the
duplicate-free finite list `l`, whether `p` is on it or not. -/
theorem addrun1_on_queue (pt : Nat) (p : Ptr) (s : Kernel) (l : List Ptr)
    (hl : Path s (s.runq pt) l) (hnd : l.Nodup) :
    ∃ s1 l1, (∀ fuel, l.length < fuel → addrun1 fuel s pt p = some s1) ∧
      Path s1 (s1.runq pt) l1 ∧ l1.Nodup ∧ l <:+ l1 ∧
      (∀ q, q ∈ l1 ↔ q ∈ l ∨ q = p) ∧
      (s1.get p).state = RUNNABLE ∧
      (∀ q, q ≠ p → s1.get q = s.get q) ∧
      (∀ q, (s1.get q).chan = (s.get q).chan) := by
  by_cases hp : p ∈ l
  · refine ⟨s.set p { s.get p with state := RUNNABLE }, l, ?_, ?_, hnd, List.suffix_refl l,
      ?_, by simp, fun q hq => get_set_ne _ _ _ _ hq, ?_⟩
    · intro fuel hf
      simp only [addrun1]
      rw [addrun1_loop_path pt p s l _ fuel hl hf, if_pos hp]
    · rw [runq_set]
      apply Path_congr s _ l _ _ hl
      intro y _
      by_cases hy : y = p
      · subst hy; simp
      · rw [get_set_ne _ _ _ _ hy]
    · intro q
      constructor
      · intro h; exact Or.inl h
      · rintro (h | h)
        · exact h
        · rw [h]; exact hp
    · intro q
      by_cases hq : q = p
      · subst hq; simp
      · rw [get_set_ne _ _ _ _ hq]
  · obtain ⟨s1, e1, e2, e3, e4, _, _⟩ := addrun1_inserts_at_front_aux pt p s l hl hp
    refine ⟨s1, p :: l, e1, e3, List.nodup_cons.mpr ⟨hp, hnd⟩, List.suffix_cons p l, ?_, e2, e4,
      ?_⟩
    · intro q
      rw [List.mem_cons]
      exact ⟨fun h => h.symm, fun h => h.symm⟩
    · intro q
      by_cases hq : q = p
      · subst hq
        have := e1 (l.length + 1) (by omega)
        simp only [addrun1] at this
        rw [addrun1_loop_path pt q s l _ _ hl (by omega), if_neg hp] at this
        have h2 := Option.some.inj this
        rw [← h2]
        simp
      · rw [e4 q hq]

/-- When no slot among `i, ..., i+n-1` of table `pt` sleeps on `chan`, the
loop of `wakeup1` changes nothing, whatever the fuel. -/
theorem wakeup1_loop_noop (fuel pt : Nat) (chan : Chan) (s : Kernel) :
    ∀ (n i : Nat),
      (∀ j, i ≤ j → j < i + n →
        ¬ ((s.get (pt, j)).state = SLEEPING ∧ (s.get (pt, j)).chan = chan)) →
      wakeup1_loop fuel n i s pt chan = some s := by
  intro n
  induction n with
  | zero => intro i _; rfl
  | succ n ih =>
    intro i h
    simp only [wakeup1_loop, if_neg (h i (le_refl i) (by omega))]
    exact ih (i + 1) (fun j h1 h2 => h j (by omega) (by omega))

/-- The loop of `wakeup1` over the slots `i, ..., i+n-1` of a table whose
queue is the duplicate-free finite list `l`. -/
theorem wakeup1_loop_spec (pt : Nat) (chan : Chan) :
    ∀ (n i : Nat) (s : Kernel) (l : List Ptr), Path s (s.runq pt) l → l.Nodup →
      ∃ s' l', (∃ N, ∀ fuel, N ≤ fuel → wakeup1_loop fuel n i s pt chan = some s') ∧
        Path s' (s'.runq pt) l' ∧ l'.Nodup ∧ l <:+ l' ∧
        (∀ q, (s'.get q).chan = (s.get q).chan) ∧
        (∀ d j, (s'.get (d, j)).state =
          if d = pt ∧ i ≤ j ∧ j < i + n ∧ (s.get (d, j)).state = SLEEPING ∧
              (s.get (d, j)).chan = chan
            then RUNNABLE else (s.get (d, j)).state) ∧
        (∀ d j, (d, j) ∈ l' ↔ ((d, j) ∈ l ∨
          (d = pt ∧ i ≤ j ∧ j < i + n ∧ (s.get (d, j)).state = SLEEPING ∧
            (s.get (d, j)).chan = chan))) := by
  intro n
  induction n with
  | zero =>
    intro i s l hl hnd
    refine ⟨s, l, ⟨0, fun fuel _ => rfl⟩, hl, hnd, List.suffix_refl l, fun _ => rfl, ?_, ?_⟩
    · intro d j
      have : ¬ (d = pt ∧ i ≤ j ∧ j < i + 0 ∧ (s.get (d, j)).state = SLEEPING ∧
          (s.get (d, j)).chan = chan) := by
        rintro ⟨_, h1, h2, _⟩; omega
      rw [if_neg this]
    · intro d j
      constructor
      · intro h; exact Or.inl h
      · rintro (h | ⟨_, h1, h2, _⟩)
        · exact h
        · omega
  | succ n ih =>
    intro i s l hl hnd
    by_cases hc : (s.get (pt, i)).state = SLEEPING ∧ (s.get (pt, i)).chan = chan
    · obtain ⟨s1, l1, a1, a2, a3, a4, a5, a6, a7, a8⟩ := addrun1_on_queue pt (pt, i) s l hl hnd
      obtain ⟨s', l', ⟨N, hN⟩, b2, b3, b4, b5, b6, b7⟩ := ih (i + 1) s1 l1 a2 a3
      refine ⟨s', l', ⟨max N (l.length + 1), fun fuel hf => ?_⟩, b2, b3, a4.trans b4, ?_, ?_, ?_⟩
      · have hf1 : N ≤ fuel := le_trans (le_max_left _ _) hf
        have hf2 : l.length < fuel := lt_of_lt_of_le (Nat.lt_succ_self _)
          (le_trans (le_max_right _ _) hf)
        simp only [wakeup1_loop, if_pos hc, a1 fuel hf2]
        exact hN fuel hf1
      · intro q; rw [b5 q, a8 q]
      · intro d j
        rw [b6 d j, a8 (d, j)]
        by_cases hq : (d, j) = (pt, i)
        · have hd : d = pt := congrArg Prod.fst hq
          have hj : j = i := congrArg Prod.snd hq
          subst hd; subst hj
          have h1 : ¬ (d = d ∧ j + 1 ≤ j ∧ j < j + 1 + n ∧ (s1.get (d, j)).state = SLEEPING ∧
              (s.get (d, j)).chan = chan) := by
            rintro ⟨_, h, _⟩; omega
          have h2 : d = d ∧ j ≤ j ∧ j < j + (n + 1) ∧ (s.get (d, j)).state = SLEEPING ∧
              (s.get (d, j)).chan = chan := ⟨rfl, le_refl j, by omega, hc.1, hc.2⟩
          rw [if_neg h1, if_pos h2, a6]
        · rw [a7 (d, j) hq]
          by_cases hr : d = pt ∧ i + 1 ≤ j ∧ j < i + 1 + n ∧ (s.get (d, j)).state = SLEEPING ∧
              (s.get (d, j)).chan = chan
          · have h2 : d = pt ∧ i ≤ j ∧ j < i + (n + 1) ∧ (s.get (d, j)).state = SLEEPING ∧
                (s.get (d, j)).chan = chan := ⟨hr.1, by omega, by omega, hr.2.2.2⟩
            rw [if_pos hr, if_pos h2]
          · have h2 : ¬ (d = pt ∧ i ≤ j ∧ j < i + (n + 1) ∧ (s.get (d, j)).state = SLEEPING ∧
                (s.get (d, j)).chan = chan) := by
              rintro ⟨e1, e2, e3, e4⟩
              by_cases hji : j = i
              · exact hq (by rw [e1, hji])
              · exact hr ⟨e1, by omega, by omega, e4⟩
            rw [if_neg hr, if_neg h2]
      · intro d j
        rw [b7 d j, a5 (d, j), a8 (d, j)]
        by_cases hq : (d, j) = (pt, i)
        · have hd : d = pt := congrArg Prod.fst hq
          have hj : j = i := congrArg Prod.snd hq
          subst hd; subst hj
          constructor
          · intro _
            exact Or.inr ⟨rfl, le_refl j, by omega, hc.1, hc.2⟩
          · intro _
            exact Or.inl (Or.inr rfl)
        · rw [a7 (d, j) hq]
          constructor
          · rintro ((h | h) | ⟨e1, e2, e3, e4⟩)
            · exact Or.inl h
            · exact absurd h hq
            · exact Or.inr ⟨e1, by omega, by omega, e4⟩
          · rintro (h | ⟨e1, e2, e3, e4⟩)
            · exact Or.inl (Or.inl h)
            · have hji : j ≠ i := fun e => hq (by rw [e1, e])
              exact Or.inr ⟨e1, by omega, by omega, e4⟩
    · obtain ⟨s', l', ⟨N, hN⟩, b2, b3, b4, b5, b6, b7⟩ := ih (i + 1) s l hl hnd
      refine ⟨s', l', ⟨N, fun fuel hf => ?_⟩, b2, b3, b4, b5, ?_, ?_⟩
      · simp only [wakeup1_loop, if_neg hc]
        exact hN fuel hf
      · intro d j
        rw [b6 d j]
        by_cases hr : d = pt ∧ i + 1 ≤ j ∧ j < i + 1 + n ∧ (s.get (d, j)).state = SLEEPING ∧
            (s.get (d, j)).chan = chan
        · have h2 : d = pt ∧ i ≤ j ∧ j < i + (n + 1) ∧ (s.get (d, j)).state = SLEEPING ∧
              (s.get (d, j)).chan = chan := ⟨hr.1, by omega, by omega, hr.2.2.2⟩
          rw [if_pos hr, if_pos h2]
        · have h2 : ¬ (d = pt ∧ i ≤ j ∧ j < i + (n + 1) ∧ (s.get (d, j)).state = SLEEPING ∧
              (s.get (d, j)).chan = chan) := by
            rintro ⟨e1, e2, e3, e4⟩
            by_cases hji : j = i
            · subst e1; subst hji
              exact hc e4
            · exact hr ⟨e1, by omega, by omega, e4⟩
          rw [if_neg hr, if_neg h2]
      · intro d j
        rw [b7 d j]
        constructor
        · rintro (h | ⟨e1, e2, e3, e4⟩)
          · exact Or.inl h
          · exact Or.inr ⟨e1, by omega, by omega, e4⟩
        · rintro (h | ⟨e1, e2, e3, e4⟩)
          · exact Or.inl h
          · by_cases hji : j = i
            · subst e1; subst hji
              exact absurd e4 hc
            · exact Or.inr ⟨e1, by omega, by omega, e4⟩

/-- C20: let the run queue of table `pt` be the duplicate-free finite list
`l`.  Then `wakeup1(pt, chan)` ends (with enough fuel) in a state `s'` where
the queue is a duplicate-free list `l'` that ends with `l` (the old entries
keep their order); the slots `i < NPROC` of `pt` that were SLEEPING on
`chan` are RUNNABLE and on `l'`; every other slot keeps its state and is on
`l'` exactly when it was on `l`; no channel changes; and a second
`wakeup1(pt, chan)` on `s'` changes nothing. -/
theorem wakeup1_wakes_exactly_sleepers (NPROC pt : Nat) (chan : Chan) (s : Kernel)
    (l : List Ptr) (hl : Path s (s.runq pt) l) (hnd : l.Nodup) :
    ∃ s' l', (∃ N, ∀ fuel, N ≤ fuel →
        wakeup1 fuel NPROC s pt chan = some s' ∧ wakeup1 fuel NPROC s' pt chan = some s') ∧
      Path s' (s'.runq pt) l' ∧ l'.Nodup ∧ l <:+ l' ∧
      (∀ i < NPROC, (s.get (pt, i)).state = SLEEPING → (s.get (pt, i)).chan = chan →
        (s'.get (pt, i)).state = RUNNABLE ∧ (pt, i) ∈ l') ∧
      (∀ d j, ¬ (d = pt ∧ j < NPROC ∧ (s.get (d, j)).state = SLEEPING ∧
          (s.get (d, j)).chan = chan) →
        (s'.get (d, j)).state = (s.get (d, j)).state ∧ ((d, j) ∈ l' ↔ (d, j) ∈ l)) ∧
      (∀ q, (s'.get q).chan = (s.get q).chan) := by
  obtain ⟨s', l', ⟨N, hN⟩, b2, b3, b4, b5, b6, b7⟩ := wakeup1_loop_spec pt chan NPROC 0 s l hl hnd
  have hnone : ∀ j, 0 ≤ j → j < 0 + NPROC →
      ¬ ((s'.get (pt, j)).state = SLEEPING ∧ (s'.get (pt, j)).chan = chan) := by
    intro j _ hj hcon
    have hst := b6 pt j
    rw [b5 (pt, j)] at hcon
    by_cases hm : (s.get (pt, j)).state = SLEEPING
    · have hcond : pt = pt ∧ 0 ≤ j ∧ j < 0 + NPROC ∧ (s.get (pt, j)).state = SLEEPING ∧
          (s.get (pt, j)).chan = chan := ⟨rfl, Nat.zero_le j, hj, hm, hcon.2⟩
      rw [if_pos hcond] at hst
      rw [hst] at hcon
      exact absurd hcon.1 (by decide)
    · have hcond : ¬ (pt = pt ∧ 0 ≤ j ∧ j < 0 + NPROC ∧ (s.get (pt, j)).state = SLEEPING ∧
          (s.get (pt, j)).chan = chan) := fun h => hm h.2.2.2.1
      rw [if_neg hcond] at hst
      rw [hst] at hcon
      exact hm hcon.1
  refine ⟨s', l', ⟨N, fun fuel hf => ⟨hN fuel hf, ?_⟩⟩, b2, b3, b4, ?_, ?_, b5⟩
  · exact wakeup1_loop_noop fuel pt chan s' NPROC 0 hnone
  · intro i hi h1 h2
    have hcond : pt = pt ∧ 0 ≤ i ∧ i < 0 + NPROC ∧ (s.get (pt, i)).state = SLEEPING ∧
        (s.get (pt, i)).chan = chan := ⟨rfl, Nat.zero_le i, by omega, h1, h2⟩
    refine ⟨?_, (b7 pt i).mpr (Or.inr hcond)⟩
    rw [b6 pt i, if_pos hcond]
  · intro d j hnot
    have hcond : ¬ (d = pt ∧ 0 ≤ j ∧ j < 0 + NPROC ∧ (s.get (d, j)).state = SLEEPING ∧
        (s.get (d, j)).chan = chan) :=
      fun h => hnot ⟨h.1, by omega, h.2.2.2⟩
    refine ⟨by rw [b6 d j, if_neg hcond], ?_⟩
    rw [b7 d j]
    exact ⟨fun h => h.resolve_right hcond, fun h => Or.inl h⟩

/-- Witness for `wakeup1_wakes_exactly_sleepers`: table 1 of `localSleeper`,
whose queue is empty and whose slot (1,1) sleeps on channel 7. -/
theorem wakeup1_wakes_exactly_sleepers_witness :
    ∃ s' l', (∃ N, ∀ fuel, N ≤ fuel →
        wakeup1 fuel 2 localSleeper 1 (Chan.other 7) = some s' ∧
        wakeup1 fuel 2 s' 1 (Chan.other 7) = some s') ∧
      Path s' (s'.runq 1) l' ∧ l'.Nodup ∧ [] <:+ l' ∧
      (∀ i < 2, (localSleeper.get (1, i)).state = SLEEPING →
        (localSleeper.get (1, i)).chan = Chan.other 7 →
        (s'.get (1, i)).state = RUNNABLE ∧ (1, i) ∈ l') ∧
      (∀ d j, ¬ (d = 1 ∧ j < 2 ∧ (localSleeper.get (d, j)).state = SLEEPING ∧
          (localSleeper.get (d, j)).chan = Chan.other 7) →
        (s'.get (d, j)).state = (localSleeper.get (d, j)).state ∧
          ((d, j) ∈ l' ↔ (d, j) ∈ ([] : List Ptr))) ∧
      (∀ q, (s'.get q).chan = (localSleeper.get q).chan) :=
  wakeup1_wakes_exactly_sleepers 2 1 (Chan.other 7) localSleeper [] (by decide) (by decide)

/-! ## `allocproc` and `fork` -/

@[simp] theorem get_setNextpid (s : Kernel) (n : Int) (q : Ptr) :
    (s.setNextpid n).get q = s.get q := rfl

@[simp] theorem runq_setNextpid (s : Kernel) (n : Int) (c : Nat) :
    (s.setNextpid n).runq c = s.runq c := rfl

@[simp] theorem nextpid_setNextpid (s : Kernel) (n : Int) : (s.setNextpid n).nextpid = n := rfl

@[simp] theorem initproc_setNextpid (s : Kernel) (n : Int) :
    (s.setNextpid n).initproc = s.initproc := rfl

@[simp] theorem nextpid_set (s : Kernel) (p : Ptr) (v : proc) :
    (s.set p v).nextpid = s.nextpid := rfl

@[simp] theorem nextpid_setRunq (s : Kernel) (c : Nat) (h : Option Ptr) :
    (s.setRunq c h).nextpid = s.nextpid := rfl

@[simp] theorem get_setInitproc (s : Kernel) (p : Option Ptr) (q : Ptr) :
    (s.setInitproc p).get q = s.get q := rfl

@[simp] theorem runq_setInitproc (s : Kernel) (p : Option Ptr) (c : Nat) :
    (s.setInitproc p).runq c = s.runq c := rfl

@[simp] theorem nextpid_setInitproc (s : Kernel) (p : Option Ptr) :
    (s.setInitproc p).nextpid = s.nextpid := rfl

@[simp] theorem initproc_setInitproc (s : Kernel) (p : Option Ptr) :
    (s.setInitproc p).initproc = p := rfl

/-- The scan of `allocproc` stops at the first UNUSED slot. -/
theorem allocproc_scan_first (me : Nat) (s : Kernel) (i : Nat)
    (hfree : (s.get (me, i)).state = UNUSED) :
    ∀ (n i0 : Nat), i0 ≤ i → i < i0 + n →
      (∀ j, i0 ≤ j → j < i → (s.get (me, j)).state ≠ UNUSED) →
      allocproc_scan n i0 me s = some i := by
  intro n
  induction n with
  | zero => intro i0 h1 h2 _; omega
  | succ n ih =>
    intro i0 h1 h2 h3
    by_cases hi : i0 = i
    · subst hi
      simp [allocproc_scan, hfree]
    · have hne : (s.get (me, i0)).state ≠ UNUSED := h3 i0 (le_refl i0) (by omega)
      simp only [allocproc_scan, hne, if_false]
      exact ih (i0 + 1) (by omega) (by omega) (fun j g1 g2 => h3 j (by omega) g2)

/-- Two writes to the same slot: the second one wins. -/
theorem set_set_same (s : Kernel) (p : Ptr) (v w : proc) : (s.set p v).set p w = s.set p w := by
  cases s with
  | mk pts np ip =>
    simp only [Kernel.set]
    congr 1
    funext c
    by_cases hc : c = p.1
    · subst hc
      simp [Function.update]
    · simp [Function.update, hc]

theorem set_setNextpid (s : Kernel) (n : Int) (p : Ptr) (v : proc) :
    (s.setNextpid n).set p v = (s.set p v).setNextpid n := rfl

/-- The part of `allocproc` after `found:` writes the chosen slot and
`nextpid` only. -/
theorem allocproc_found_eq (s : Kernel) (p : Ptr) (ext : Extern) :
    allocproc_found s p ext =
      if ext.kalloc = 0 then
        (none, (s.set p
          { s.get p with state := UNUSED, pid := s.nextpid, kstack := ext.kalloc }).setNextpid
            (wrap32 (s.nextpid + 1)))
      else
        (some p, (s.set p
          { s.get p with state := EMBRYO, pid := s.nextpid, kstack := ext.kalloc,
                         ctxeip := ext.forkret }).setNextpid
            (wrap32 (s.nextpid + 1))) := by
  unfold allocproc_found
  simp only [get_set_same, set_set_same, nextpid_set, set_setNextpid, get_setNextpid]

/-- The part of `fork` after `allocproc`, with the assignments to the
child's slot collected. -/
theorem fork_child_eq (fuel me : Nat) (cur np : Ptr) (s1 : Kernel) (ext : Extern) :
    fork_child fuel me cur np s1 ext =
      if ext.copyuvm = 0 then
        some (-1, s1.set np
          { s1.get np with pgdir := ext.copyuvm, kstack := 0, state := UNUSED })
      else
        match addrun fuel me (fork_filled cur np s1 ext) np with
        | none => none
        | some s9 =>
          some ((s1.get np).pid, s9.set np { s9.get np with name := ext.name }) := by
  unfold fork_child fork_filled
  by_cases hc : ext.copyuvm = 0
  · simp only [if_pos hc, get_set_same, set_set_same]
  · simp only [if_neg hc, get_set_same, set_set_same]
    by_cases h : cur = np
    · subst h
      simp only [get_set_same]
    · simp only [get_set_ne _ _ _ _ h]

/-- Resetting the state of a free slot to UNUSED does not change it. -/
theorem proc_state_unused (v : proc) (h : v.state = UNUSED) :
    { v with state := UNUSED } = v := by
  cases v
  simp only at h
  subst h
  rfl

/-- A failing `fork`, as one assignment to the first UNUSED slot of the
caller's table and one to `nextpid`. -/
theorem fork_failure_eq (fuel NPROC me i : Nat) (cur : Ptr) (s : Kernel) (ext : Extern)
    (hi : i < NPROC) (hfree : (s.get (me, i)).state = UNUSED)
    (hfirst : ∀ j < i, (s.get (me, j)).state ≠ UNUSED)
    (hfail : ext.kalloc = 0 ∨ ext.copyuvm = 0) :
    fork fuel NPROC me cur s ext = some (-1, (s.set (me, i)
      (if ext.kalloc = 0 then { s.get (me, i) with pid := s.nextpid, kstack := 0 }
        else { s.get (me, i) with pid := s.nextpid, kstack := 0, pgdir := 0,
                                  ctxeip := ext.forkret })).setNextpid
        (wrap32 (s.nextpid + 1))) := by
  have hscan : allocproc_scan NPROC 0 me s = some i :=
    allocproc_scan_first me s i hfree NPROC 0 (Nat.zero_le i) (by omega)
      (fun j _ h => hfirst j h)
  by_cases hk : ext.kalloc = 0
  · simp only [fork, allocproc, hscan, allocproc_found_eq, if_pos hk]
    conv_rhs => rw [← proc_state_unused (s.get (me, i)) hfree]
    simp only [hk]
  · have hc : ext.copyuvm = 0 := hfail.resolve_left hk
    simp only [fork, allocproc, hscan, allocproc_found_eq, if_neg hk, fork_child_eq, if_pos hc,
      get_setNextpid, get_set_same, set_setNextpid, set_set_same]
    conv_rhs => rw [← proc_state_unused (s.get (me, i)) hfree]
    simp only [hc]

/-- On a finite queue that does not hold `p`, `addrun1(pt, p)` is the push
of `p`. -/
theorem addrun1_fresh_eq (pt : Nat) (p : Ptr) (s : Kernel) (l : List Ptr)
    (hl : Path s (s.runq pt) l) (hp : p ∉ l) (fuel : Nat) (hf : l.length < fuel) :
    addrun1 fuel s pt p =
      some ((s.set p { s.get p with state := RUNNABLE, next := s.runq pt }).setRunq pt
        (some p)) := by
  simp only [addrun1]
  rw [addrun1_loop_path pt p s l _ fuel hl hf, if_neg hp]

/-- A successful `allocproc` leaves memory size and trap frame alone. -/
theorem allocated_sz_tf (s : Kernel) (p q : Ptr) (ext : Extern) :
    ((allocated s p ext).get q).sz = (s.get q).sz ∧
    ((allocated s p ext).get q).tf = (s.get q).tf ∧
    ((allocated s p ext).get q).next = (s.get q).next := by
  by_cases h : q = p
  · subst h; simp [allocated]
  · simp [allocated, get_set_ne _ _ _ _ h]

/-- Filling in the child's slot changes no queue link. -/
theorem fork_filled_next (cur np : Ptr) (s1 : Kernel) (ext : Extern) (q : Ptr) :
    ((fork_filled cur np s1 ext).get q).next = (s1.get q).next := by
  by_cases h : q = np
  · subst h; simp [fork_filled]
  · simp [fork_filled, get_set_ne _ _ _ _ h]

/-- The run of a successful `fork`: with a free first slot `i`, a finite
local queue `l` not holding it, and enough fuel, `fork` returns the old
value of `nextpid` and ends in the state `forked`. -/
theorem fork_success_eq (NPROC me i : Nat) (cur : Ptr) (s : Kernel) (ext : Extern)
    (l : List Ptr)
    (hi : i < NPROC) (hfree : (s.get (me, i)).state = UNUSED)
    (hfirst : ∀ j < i, (s.get (me, j)).state ≠ UNUSED)
    (hk : ext.kalloc ≠ 0) (hc : ext.copyuvm ≠ 0)
    (hl : Path s (s.runq me) l) (hoff : (me, i) ∉ l) (fuel : Nat) (hf : l.length < fuel) :
    fork fuel NPROC me cur s ext = some (s.nextpid, forked me cur (me, i) s ext) := by
  have hscan : allocproc_scan NPROC 0 me s = some i :=
    allocproc_scan_first me s i hfree NPROC 0 (Nat.zero_le i) (by omega)
      (fun j _ h => hfirst j h)
  have hl8 : Path (fork_filled cur (me, i) (allocated s (me, i) ext) ext)
      ((fork_filled cur (me, i) (allocated s (me, i) ext) ext).runq me) l := by
    have hr : (fork_filled cur (me, i) (allocated s (me, i) ext) ext).runq me = s.runq me := by
      simp [fork_filled, allocated]
    rw [hr]
    apply Path_congr s _ l _ _ hl
    intro y _
    rw [fork_filled_next, (allocated_sz_tf s (me, i) y ext).2.2]
  have hpid : ((allocated s (me, i) ext).get (me, i)).pid = s.nextpid := by
    simp [allocated]
  simp only [fork, allocproc, hscan, allocproc_found_eq, if_neg hk, fork_child_eq, if_neg hc,
    addrun]
  change (match addrun1 fuel (fork_filled cur (me, i) (allocated s (me, i) ext) ext) me (me, i)
    with
    | none => none
    | some s9 => some (((allocated s (me, i) ext).get (me, i)).pid,
        s9.set (me, i) { s9.get (me, i) with name := ext.name })) = _
  rw [addrun1_fresh_eq me (me, i) _ l hl8 hoff fuel hf, hpid]
  rfl

/-- C14, counterexample: once the pid counter has wrapped around, a
successful `fork` returns an id that is not positive, or the caller's own.
On `initAtPidLimit` (`nextpid` is 2147483647, slots (0,1) and (0,2) are
UNUSED) a first `fork` by init returns 2147483647 and leaves `nextpid` at
-2147483648; a second `fork` then returns -2147483648, the id of the
RUNNABLE child in slot (0,2).  On `initPidComeRound` (`nextpid` is 1, the id
of init) `fork` by init returns 1, the id of the caller, for the RUNNABLE
child in slot (0,1). -/
theorem fork_after_wrap_returns_bad_id :
    (initAtPidLimit.get (0, 1)).state = UNUSED ∧ (initAtPidLimit.get (0, 2)).state = UNUSED ∧
    allFine.kalloc ≠ 0 ∧ allFine.copyuvm ≠ 0 ∧
    (fork 8 3 0 (0, 0) initAtPidLimit allFine).map
        (fun r => (r.1, r.2.nextpid, (r.2.get (0, 2)).state))
      = some (2147483647, -2147483648, UNUSED) ∧
    ((fork 8 3 0 (0, 0) initAtPidLimit allFine).bind
        (fun r => fork 8 3 0 (0, 0) r.2 allFine)).map
        (fun r => (r.1, (r.2.get (0, 2)).state, (r.2.get (0, 2)).pid))
      = some (-2147483648, RUNNABLE, -2147483648) ∧
    (initPidComeRound.get (0, 0)).pid = 1 ∧ (initPidComeRound.get (0, 1)).state = UNUSED ∧
    (fork 8 2 0 (0, 0) initPidComeRound allFine).map
        (fun r => (r.1, (r.2.get (0, 1)).state, (r.2.get (0, 1)).pid))
      = some (1, RUNNABLE, 1) := by
  decide

/-- C14, amended: let slot `i` be the first UNUSED slot of the caller's
table, let `kalloc` and `copyuvm` succeed, let the caller's local run queue
be the finite list `l`, not holding that slot, and let the pid counter not
have wrapped around: it is positive and above the caller's id.  Then `fork`
returns (with fuel for the length of `l`) the id of the child in slot `i`,
which is the old value of `nextpid`, positive and different from the
caller's id; afterwards the child has the caller as parent, the caller's
memory size, the caller's trap frame with `eax` set to 0, state RUNNABLE,
and is the head of the caller's local run queue, followed by `l`. -/
theorem fork_creates_runnable_child (NPROC me i : Nat) (cur : Ptr) (s : Kernel) (ext : Extern)
    (l : List Ptr)
    (hi : i < NPROC) (hfree : (s.get (me, i)).state = UNUSED)
    (hfirst : ∀ j < i, (s.get (me, j)).state ≠ UNUSED)
    (hk : ext.kalloc ≠ 0) (hc : ext.copyuvm ≠ 0)
    (hl : Path s (s.runq me) l) (hoff : (me, i) ∉ l)
    (hpos : 0 < s.nextpid) (hlt : (s.get cur).pid < s.nextpid) :
    ∃ s' pid, (∀ fuel, l.length < fuel → fork fuel NPROC me cur s ext = some (pid, s')) ∧
      pid = (s'.get (me, i)).pid ∧ 0 < pid ∧ pid ≠ (s.get cur).pid ∧
      (s'.get (me, i)).parent = some cur ∧
      (s'.get (me, i)).sz = (s.get cur).sz ∧
      (s'.get (me, i)).tf = { (s.get cur).tf with eax := 0 } ∧
      (s'.get (me, i)).state = RUNNABLE ∧
      Path s' (s'.runq me) ((me, i) :: l) := by
  refine ⟨forked me cur (me, i) s ext, s.nextpid,
    fun fuel hf => fork_success_eq NPROC me i cur s ext l hi hfree hfirst hk hc hl hoff fuel hf,
    ?_, hpos, fun e => by rw [e] at hlt; omega, ?_, ?_, ?_, ?_, ?_⟩
  · simp [forked, fork_filled, allocated]
  · simp [forked, fork_filled]
  · simp [forked, fork_filled, (allocated_sz_tf s (me, i) cur ext).1]
  · simp [forked, fork_filled, (allocated_sz_tf s (me, i) cur ext).2.1]
  · simp [forked]
  · have hr : (fork_filled cur (me, i) (allocated s (me, i) ext) ext).runq me = s.runq me := by
      simp [fork_filled, allocated]
    refine ⟨by simp [forked], ?_⟩
    simp only [forked, get_set_same, get_setRunq, runq_set, runq_setRunq_same, hr]
    apply Path_congr s _ l _ _ hl
    intro y hy
    have hy' : y ≠ (me, i) := fun e => hoff (e ▸ hy)
    rw [get_set_ne _ _ _ _ hy', get_setRunq, get_set_ne _ _ _ _ hy', fork_filled_next,
      (allocated_sz_tf s (me, i) y ext).2.2]

/-- Witness for `fork_creates_runnable_child`: init forks on `initRunning`. -/
theorem fork_creates_runnable_child_witness :
    ∃ s' pid, (∀ fuel, [((0 : Nat), (0 : Nat))].length < fuel →
        fork fuel 2 0 (0, 0) initRunning allFine = some (pid, s')) ∧
      pid = (s'.get (0, 1)).pid ∧ 0 < pid ∧ pid ≠ (initRunning.get (0, 0)).pid ∧
      (s'.get (0, 1)).parent = some (0, 0) ∧
      (s'.get (0, 1)).sz = (initRunning.get (0, 0)).sz ∧
      (s'.get (0, 1)).tf = { (initRunning.get (0, 0)).tf with eax := 0 } ∧
      (s'.get (0, 1)).state = RUNNABLE ∧
      Path s' (s'.runq 0) ((0, 1) :: [(0, 0)]) :=
  fork_creates_runnable_child 2 0 1 (0, 0) initRunning allFine [(0, 0)] (by decide) (by decide)
    (by decide) (by decide) (by decide) (by decide) (by decide) (by decide) (by decide)

/-! ## Sleep followed by a wakeup from another CPU -/

/-- C16, evaluated at the failing input: on `waiterAndSignaler` the waiter
(slot (0,1), running on CPU 0) calls `sleep` on channel 7 with a non-null
guard lock and reaches `sched()`; then the signaler, on CPU 1, calls `wakeup`
on channel 7, which returns.  Afterwards the waiter is still SLEEPING on
channel 7; CPU 0's run queue is empty and CPU 1's still starts with the
signaler. -/
theorem wakeup_from_other_cpu_is_missed :
    (waiterAndSignaler.get (0, 1)).state = RUNNING ∧
    ((sleep 8 0 (0, 1) waiterAndSignaler (Chan.other 7) 1).bind
        (fun s1 => wakeup 8 2 2 1 s1 (Chan.other 7))).map
        (fun s => ((s.get (0, 1)).state, (s.get (0, 1)).chan, s.runq 0, s.runq 1))
      = some (SLEEPING, Chan.other 7, none, some (1, 0)) := by
  refine ⟨by decide, ?_⟩
  rfl

/-! ## Process ids -/

theorem SamePids.refl_pids (s : Kernel) : SamePids s s :=
  ⟨rfl, fun _ => ⟨rfl, Iff.rfl⟩⟩

theorem SamePids.trans_pids {s s1 s2 : Kernel} (h1 : SamePids s s1) (h2 : SamePids s1 s2) :
    SamePids s s2 :=
  ⟨h2.1.trans h1.1, fun q =>
    ⟨((h2.2 q).1).trans (h1.2 q).1, ((h2.2 q).2).trans (h1.2 q).2⟩⟩

/-- Writing a slot keeps ids and free slots when the new contents have the
old id and are free exactly when the old contents were. -/
theorem SamePids_set (s : Kernel) (p : Ptr) (v : proc) (hpid : v.pid = (s.get p).pid)
    (hst : v.state = UNUSED ↔ (s.get p).state = UNUSED) : SamePids s (s.set p v) := by
  refine ⟨rfl, fun q => ?_⟩
  by_cases hq : q = p
  · subst hq
    rw [get_set_same]
    exact ⟨hpid, hst⟩
  · rw [get_set_ne _ _ _ _ hq]
    exact ⟨rfl, Iff.rfl⟩

theorem SamePids_setRunq (s : Kernel) (c : Nat) (h : Option Ptr) :
    SamePids s (s.setRunq c h) :=
  ⟨rfl, fun q => by rw [get_setRunq]; exact ⟨rfl, Iff.rfl⟩⟩

/-- Whatever the fuel, a completed `addrun1` on a slot that holds a process
keeps ids and free slots. -/
theorem addrun1_loop_SamePids (pt : Nat) (p : Ptr) (s s' : Kernel)
    (hlive : (s.get p).state ≠ UNUSED) :
    ∀ (fuel : Nat) (a : Option Ptr), addrun1_loop fuel s pt p a = some s' → SamePids s s' := by
  have hset : ∀ nx, SamePids s (s.set p { s.get p with state := RUNNABLE, next := nx }) :=
    fun nx => SamePids_set s p _ rfl
      ⟨fun h => by simp at h, fun h => absurd h hlive⟩
  have hset2 : SamePids s (s.set p { s.get p with state := RUNNABLE }) :=
    SamePids_set s p _ rfl ⟨fun h => by simp at h, fun h => absurd h hlive⟩
  intro fuel
  induction fuel with
  | zero => intro a h; simp [addrun1_loop] at h
  | succ f ih =>
    intro a h
    cases a with
    | none =>
      simp only [addrun1_loop, Option.some.injEq] at h
      rw [← h]
      exact (hset _).trans_pids (SamePids_setRunq _ _ _)
    | some q =>
      by_cases hq : q = p
      · simp only [addrun1_loop, hq, if_true, Option.some.injEq] at h
        rw [← h]
        exact hset2
      · simp only [addrun1_loop, hq, if_false] at h
        exact ih _ h

/-- Whatever the fuel, a completed `delrun1` keeps ids and free slots. -/
theorem delrun1_loop_SamePids (pt : Nat) (target : Ptr) :
    ∀ (fuel : Nat) (s s' : Kernel) (prev a : Option Ptr),
      delrun1_loop fuel s pt prev a target = some s' → SamePids s s' := by
  intro fuel
  induction fuel with
  | zero => intro s s' prev a h; simp [delrun1_loop] at h
  | succ f ih =>
    intro s s' prev a h
    cases a with
    | none =>
      simp only [delrun1_loop, Option.some.injEq] at h
      rw [← h]
      exact SamePids.refl_pids s
    | some n =>
      by_cases hn : n = target
      · cases prev with
        | none =>
          simp only [delrun1_loop, hn, if_true, Option.some.injEq] at h
          rw [← h]
          exact (SamePids_setRunq s pt _).trans_pids (SamePids_set _ _ _ rfl Iff.rfl)
        | some pv =>
          simp only [delrun1_loop, hn, if_true, Option.some.injEq] at h
          rw [← h]
          have h1 : SamePids s (s.set pv { s.get pv with next := (s.get target).next }) :=
            SamePids_set s pv _ rfl Iff.rfl
          exact h1.trans_pids (SamePids_set _ target _ rfl Iff.rfl)
      · simp only [delrun1_loop, hn, if_false] at h
        exact ih _ _ _ _ h

/-- Whatever the fuel, a completed `wakeup1` keeps ids and free slots. -/
theorem wakeup1_loop_SamePids (fuel pt : Nat) (chan : Chan) :
    ∀ (n i : Nat) (s s' : Kernel), wakeup1_loop fuel n i s pt chan = some s' → SamePids s s' := by
  intro n
  induction n with
  | zero =>
    intro i s s' h
    simp only [wakeup1_loop, Option.some.injEq] at h
    rw [← h]; exact SamePids.refl_pids s
  | succ n ih =>
    intro i s s' h
    by_cases hc : (s.get (pt, i)).state = SLEEPING ∧ (s.get (pt, i)).chan = chan
    · simp only [wakeup1_loop, if_pos hc] at h
      cases h1 : addrun1 fuel s pt (pt, i) with
      | none => rw [h1] at h; simp at h
      | some s1 =>
        rw [h1] at h
        have hlive : (s.get (pt, i)).state ≠ UNUSED := by rw [hc.1]; decide
        exact (addrun1_loop_SamePids pt (pt, i) s s1 hlive fuel _ h1).trans_pids (ih _ _ _ h)
    · simp only [wakeup1_loop, if_neg hc] at h
      exact ih _ _ _ h

/-- Whatever the fuel, a completed `wakeup` keeps ids and free slots. -/
theorem wakeup_loop_SamePids (fuel NPROC me : Nat) (chan : Chan) :
    ∀ (n : Nat) (s s' : Kernel), wakeup_loop fuel NPROC me n s chan = some s' → SamePids s s' := by
  intro n
  induction n with
  | zero =>
    intro s s' h
    simp only [wakeup_loop, Option.some.injEq] at h
    rw [← h]; exact SamePids.refl_pids s
  | succ n ih =>
    intro s s' h
    simp only [wakeup_loop] at h
    cases h1 : wakeup1 fuel NPROC s me chan with
    | none => rw [h1] at h; simp at h
    | some s1 =>
      rw [h1] at h
      exact (wakeup1_loop_SamePids fuel me chan NPROC 0 s s1 h1).trans_pids (ih _ _ h)

/-- Whatever the fuel, a completed `kill` keeps ids and free slots. -/
theorem kill_inner_SamePids (fuel c me : Nat) (pid : Int) :
    ∀ (n i : Nat) (s : Kernel) (r : Bool × Kernel),
      kill_inner fuel n i c me s pid = some r → SamePids s r.2 := by
  intro n
  induction n with
  | zero =>
    intro i s r h
    simp only [kill_inner, Option.some.injEq] at h
    rw [← h]; exact SamePids.refl_pids s
  | succ n ih =>
    intro i s r h
    by_cases hp : (s.get (me, i)).pid = pid
    · have hk : SamePids s (s.set (me, i) { s.get (me, i) with killed := 1 }) :=
        SamePids_set s _ _ rfl Iff.rfl
      by_cases hs : (s.get (me, i)).state = SLEEPING
      · simp only [kill_inner, if_pos hp, get_set_same, if_pos hs] at h
        cases h1 : addrun1 fuel (s.set (me, i) { s.get (me, i) with killed := 1 }) c (me, i) with
        | none => rw [h1] at h; simp at h
        | some s2 =>
          rw [h1] at h
          simp only [Option.some.injEq] at h
          rw [← h]
          have hlive : ((s.set (me, i) { s.get (me, i) with killed := 1 }).get (me, i)).state
              ≠ UNUSED := by
            rw [get_set_same]; simp only; rw [hs]; decide
          exact hk.trans_pids (addrun1_loop_SamePids c (me, i) _ s2 hlive fuel _ h1)
      · simp only [kill_inner, if_pos hp, get_set_same, if_neg hs, Option.some.injEq] at h
        rw [← h]
        exact hk
    · simp only [kill_inner, if_neg hp] at h
      exact ih _ _ _ h

theorem kill_outer_SamePids (fuel NPROC me : Nat) (pid : Int) :
    ∀ (n c : Nat) (s : Kernel) (r : Int × Kernel),
      kill_outer fuel NPROC me n c s pid = some r → SamePids s r.2 := by
  intro n
  induction n with
  | zero =>
    intro c s r h
    simp only [kill_outer, Option.some.injEq] at h
    rw [← h]; exact SamePids.refl_pids s
  | succ n ih =>
    intro c s r h
    simp only [kill_outer] at h
    cases h1 : kill_inner fuel NPROC 0 c me s pid with
    | none => rw [h1] at h; simp at h
    | some r1 =>
      obtain ⟨b, s1⟩ := r1
      have hs1 := kill_inner_SamePids fuel c me pid NPROC 0 s _ h1
      rw [h1] at h
      cases b with
      | true =>
        simp only [Option.some.injEq] at h
        rw [← h]; exact hs1
      | false =>
        simp only at h
        exact hs1.trans_pids (ih _ _ _ h)

/-- Whatever the fuel, a completed reparenting pass keeps ids and free
slots. -/
theorem exit_reparent_inner_SamePids (fuel NPROC c : Nat) (cur : Ptr) :
    ∀ (n i : Nat) (s s' : Kernel),
      exit_reparent_inner fuel NPROC n i c cur s = some s' → SamePids s s' := by
  intro n
  induction n with
  | zero =>
    intro i s s' h
    simp only [exit_reparent_inner, Option.some.injEq] at h
    rw [← h]; exact SamePids.refl_pids s
  | succ n ih =>
    intro i s s' h
    by_cases hp : (s.get (c, i)).parent = some cur
    · have hk : SamePids s (s.set (c, i) { s.get (c, i) with parent := s.initproc }) :=
        SamePids_set s _ _ rfl Iff.rfl
      by_cases hz : (s.get (c, i)).state = ZOMBIE
      · simp only [exit_reparent_inner, if_pos hp, get_set_same, if_pos hz] at h
        cases h1 : wakeup1 fuel NPROC (s.set (c, i) { s.get (c, i) with parent := s.initproc }) c
            (chanOf (s.set (c, i) { s.get (c, i) with parent := s.initproc }).initproc) with
        | none => rw [h1] at h; simp at h
        | some s2 =>
          rw [h1] at h
          exact (hk.trans_pids (wakeup1_loop_SamePids fuel c _ NPROC 0 _ s2 h1)).trans_pids (ih _ _ _ h)
      · simp only [exit_reparent_inner, if_pos hp, get_set_same, if_neg hz] at h
        exact hk.trans_pids (ih _ _ _ h)
    · simp only [exit_reparent_inner, if_neg hp] at h
      exact ih _ _ _ h

theorem exit_reparent_outer_SamePids (fuel NCPU NPROC me : Nat) (cur : Ptr) :
    ∀ (n c : Nat) (s s' : Kernel),
      exit_reparent_outer fuel NCPU NPROC me n c cur s = some s' → SamePids s s' := by
  intro n
  induction n with
  | zero =>
    intro c s s' h
    simp only [exit_reparent_outer, Option.some.injEq] at h
    rw [← h]; exact SamePids.refl_pids s
  | succ n ih =>
    intro c s s' h
    simp only [exit_reparent_outer] at h
    by_cases hc : NCPU ≤ me + c
    · rw [if_pos hc] at h; cases h
    rw [if_neg hc] at h
    cases h1 : exit_reparent_inner fuel NPROC NPROC 0 c cur s with
    | none => rw [h1] at h; simp at h
    | some s1 =>
      rw [h1] at h
      exact (exit_reparent_inner_SamePids fuel NPROC c cur NPROC 0 s s1 h1).trans_pids (ih _ _ _ h)

/-- Whatever the fuel, a completed `exit` of a slot that holds a process
keeps ids and free slots. -/
theorem exit_SamePids (fuel NCPU NPROC me : Nat) (cur : Ptr) (s s' : Kernel)
    (hlive : (s.get cur).state ≠ UNUSED)
    (h : exit fuel NCPU NPROC me cur s = some s') : SamePids s s' := by
  unfold exit at h
  by_cases hi : s.initproc = some cur
  · simp [hi] at h
  · simp only [if_neg hi] at h
    have h0 : SamePids s (s.set cur
        { s.get cur with ofile := (s.get cur).ofile.map (fun _ => 0), cwd := 0 }) :=
      SamePids_set s _ _ rfl Iff.rfl
    cases h1 : delrun1 fuel (s.set cur
        { s.get cur with ofile := (s.get cur).ofile.map (fun _ => 0), cwd := 0 }) me cur with
    | none => rw [h1] at h; simp at h
    | some s2 =>
      rw [h1] at h
      simp only at h
      have a1 := h0.trans_pids (delrun1_loop_SamePids me cur fuel _ s2 none _ h1)
      cases h2 : wakeup fuel NCPU NPROC me s2 (chanOf (s2.get cur).parent) with
      | none => rw [h2] at h; simp at h
      | some s3 =>
        rw [h2] at h
        simp only at h
        have a2 := a1.trans_pids (wakeup_loop_SamePids fuel NPROC me _ NCPU s2 s3 h2)
        cases h3 : exit_reparent fuel NCPU NPROC me cur s3 with
        | none => rw [h3] at h; simp at h
        | some s4 =>
          rw [h3] at h
          simp only [Option.some.injEq] at h
          have a3 := a2.trans_pids (exit_reparent_outer_SamePids fuel NCPU NPROC me cur NCPU 0 s3 s4 h3)
          rw [← h]
          have hl4 : (s4.get cur).state ≠ UNUSED := fun e => hlive (((a3.2 cur).2).mp e)
          exact a3.trans_pids (SamePids_set s4 cur _ rfl
            ⟨fun e => by simp at e, fun e => absurd e hl4⟩)

/-- Whatever the fuel, `sleep` by a slot that holds a process keeps ids and
free slots up to `sched()`. -/
theorem sleep_SamePids (fuel me : Nat) (cur : Ptr) (s s' : Kernel) (chan : Chan) (lk : Nat)
    (hlive : (s.get cur).state ≠ UNUSED)
    (h : sleep fuel me cur s chan lk = some s') : SamePids s s' := by
  unfold sleep at h
  by_cases hlk : lk = 0
  · simp [hlk] at h
  · simp only [if_neg hlk] at h
    have h1 : SamePids s (s.set cur { s.get cur with chan := chan }) :=
      SamePids_set s _ _ rfl Iff.rfl
    have h2 : SamePids (s.set cur { s.get cur with chan := chan })
        ((s.set cur { s.get cur with chan := chan }).set cur
          { (s.set cur { s.get cur with chan := chan }).get cur with state := SLEEPING }) :=
      SamePids_set _ cur _ rfl
        ⟨fun e => by simp at e, fun e => by rw [get_set_same] at e; exact absurd e hlive⟩
    exact (h1.trans_pids h2).trans_pids (delrun1_loop_SamePids me cur fuel _ s' none _ h)

theorem FewerPids_of_SamePids {s s' : Kernel} (h : SamePids s s') : FewerPids s s' :=
  ⟨h.1, fun q hq => ⟨fun e => hq ((h.2 q).2.mpr e), (h.2 q).1⟩⟩

/-- Reaping a slot frees it and touches no other slot. -/
theorem wait_reap_FewerPids (s : Kernel) (p : Ptr) : FewerPids s (wait_reap s p) := by
  refine ⟨rfl, fun q hq => ?_⟩
  by_cases h : q = p
  · subst h
    simp [wait_reap] at hq
  · rw [wait_reap, get_set_ne _ _ _ _ h] at hq
    rw [wait_reap, get_set_ne _ _ _ _ h]
    exact ⟨hq, rfl⟩

/-- A scan of `wait` that returns has reaped one slot. -/
theorem wait_inner_reaps (c : Nat) (cur : Ptr) (s : Kernel) :
    ∀ (n i : Nat) (hk hk' : Bool) (r : Int × Kernel),
      wait_inner n i c cur s hk = (some r, hk') → ∃ q, r.2 = wait_reap s q := by
  intro n
  induction n with
  | zero => intro i hk hk' r h; simp [wait_inner] at h
  | succ n ih =>
    intro i hk hk' r h
    by_cases hp : (s.get (c, i)).parent = some cur
    · by_cases hz : (s.get (c, i)).state = ZOMBIE
      · simp only [wait_inner, hp, ne_eq, not_true_eq_false, if_false, hz, if_true,
          Prod.mk.injEq, Option.some.injEq] at h
        exact ⟨(c, i), by rw [← h.1]⟩
      · simp only [wait_inner, hp, ne_eq, not_true_eq_false, if_false, hz] at h
        exact ih _ _ _ _ h
    · simp only [wait_inner, ne_eq, hp, not_false_eq_true, if_true] at h
      exact ih _ _ _ _ h

theorem wait_outer_reaps (NPROC : Nat) (cur : Ptr) (s : Kernel) :
    ∀ (n c : Nat) (hk hk' : Bool) (r : Int × Kernel),
      wait_outer NPROC n c cur s hk = (some r, hk') → ∃ q, r.2 = wait_reap s q := by
  intro n
  induction n with
  | zero => intro c hk hk' r h; simp [wait_outer] at h
  | succ n ih =>
    intro c hk hk' r h
    simp only [wait_outer] at h
    cases h1 : wait_inner NPROC 0 c cur s hk with
    | mk o hk1 =>
      rw [h1] at h
      cases o with
      | none => exact ih _ _ _ _ h
      | some r1 =>
        simp only [Prod.mk.injEq, Option.some.injEq] at h
        obtain ⟨q, hq⟩ := wait_inner_reaps c cur s NPROC 0 hk hk1 r1 h1
        exact ⟨q, by rw [← h.1]; exact hq⟩

/-- Whatever the fuel, a completed round of `wait` by a slot that holds a
process only frees slots. -/
theorem wait_FewerPids (fuel NCPU NPROC me : Nat) (cur : Ptr) (s : Kernel)
    (r : Option Int × Kernel) (hlive : (s.get cur).state ≠ UNUSED)
    (h : wait fuel NCPU NPROC me cur s = some r) : FewerPids s r.2 := by
  unfold wait at h
  cases h1 : wait_outer NPROC NCPU 0 cur s false with
  | mk o hk =>
    rw [h1] at h
    cases o with
    | some r1 =>
      obtain ⟨pid, s1⟩ := r1
      simp only [Option.some.injEq] at h
      obtain ⟨q, hq⟩ := wait_outer_reaps NPROC cur s NCPU 0 false hk (pid, s1) h1
      rw [← h]
      simp only at hq ⊢
      rw [hq]
      exact wait_reap_FewerPids s q
    | none =>
      simp only at h
      by_cases hc : hk = false ∨ (s.get cur).killed ≠ 0
      · rw [if_pos hc] at h
        simp only [Option.some.injEq] at h
        rw [← h]
        exact FewerPids_of_SamePids (SamePids.refl_pids s)
      · rw [if_neg hc] at h
        cases h2 : sleep fuel me cur s (Chan.procp cur) 1 with
        | none => rw [h2] at h; simp at h
        | some s1 =>
          rw [h2] at h
          simp only [Option.some.injEq] at h
          rw [← h]
          exact FewerPids_of_SamePids (sleep_SamePids fuel me cur s s1 _ 1 hlive h2)

theorem allocproc_scan_free (me : Nat) (s : Kernel) :
    ∀ (n i0 i : Nat), allocproc_scan n i0 me s = some i → (s.get (me, i)).state = UNUSED := by
  intro n
  induction n with
  | zero => intro i0 i h; simp [allocproc_scan] at h
  | succ n ih =>
    intro i0 i h
    by_cases hf : (s.get (me, i0)).state = UNUSED
    · simp only [allocproc_scan, if_pos hf, Option.some.injEq] at h
      rw [← h]; exact hf
    · simp only [allocproc_scan, if_neg hf] at h
      exact ih _ _ h

/-- Handing `nextpid` to a free slot `p` and touching no other slot. -/
theorem Allocated_of_slot (s s' : Kernel) (p : Ptr) (hfree : (s.get p).state = UNUSED)
    (hn : s'.nextpid = wrap32 (s.nextpid + 1)) (hpid : (s'.get p).pid = s.nextpid)
    (hother : ∀ q, q ≠ p → s'.get q = s.get q) : Allocated s s' :=
  ⟨hn, p, hfree, hpid, fun q hq => by rw [hother q hq]; exact ⟨rfl, Iff.rfl⟩⟩

theorem Allocated_SamePids {s s1 s2 : Kernel} (h1 : Allocated s s1) (h2 : SamePids s1 s2) :
    Allocated s s2 := by
  obtain ⟨hn, p, hfree, hpid, hother⟩ := h1
  refine ⟨h2.1.trans hn, p, hfree, ((h2.2 p).1).trans hpid, fun q hq => ?_⟩
  exact ⟨((h2.2 q).1).trans (hother q hq).1, ((h2.2 q).2).trans (hother q hq).2⟩

/-- The state after a successful `allocproc`. -/
theorem Allocated_allocated (s : Kernel) (p : Ptr) (ext : Extern)
    (hfree : (s.get p).state = UNUSED) : Allocated s (allocated s p ext) :=
  Allocated_of_slot s _ p hfree rfl (by simp [allocated])
    (fun q hq => by simp [allocated, get_set_ne _ _ _ _ hq])

/-- The function `allocproc` changes nothing or hands out one id. -/
theorem allocproc_Allocated (NPROC me : Nat) (s : Kernel) (ext : Extern) :
    (allocproc NPROC me s ext).2 = s ∨ Allocated s (allocproc NPROC me s ext).2 := by
  unfold allocproc
  cases h : allocproc_scan NPROC 0 me s with
  | none => left; rfl
  | some i =>
    right
    have hfree := allocproc_scan_free me s NPROC 0 i h
    simp only [allocproc_found_eq]
    by_cases hk : ext.kalloc = 0
    · rw [if_pos hk]
      exact Allocated_of_slot s _ (me, i) hfree rfl (by simp)
        (fun q hq => by simp [get_set_ne _ _ _ _ hq])
    · rw [if_neg hk]
      exact Allocated_allocated s (me, i) ext hfree

/-- Whatever the fuel and the outcome, a completed `fork` changes nothing or
hands out one id. -/
theorem fork_Allocated (fuel NPROC me : Nat) (cur : Ptr) (s : Kernel) (ext : Extern)
    (r : Int × Kernel) (h : fork fuel NPROC me cur s ext = some r) :
    r.2 = s ∨ Allocated s r.2 := by
  unfold fork allocproc at h
  cases hs : allocproc_scan NPROC 0 me s with
  | none =>
    rw [hs] at h
    simp only [Option.some.injEq] at h
    left; rw [← h]
  | some i =>
    right
    have hfree := allocproc_scan_free me s NPROC 0 i hs
    rw [hs] at h
    simp only [allocproc_found_eq] at h
    by_cases hk : ext.kalloc = 0
    · rw [if_pos hk] at h
      simp only [Option.some.injEq] at h
      rw [← h]
      exact Allocated_of_slot s _ (me, i) hfree rfl (by simp)
        (fun q hq => by simp [get_set_ne _ _ _ _ hq])
    · rw [if_neg hk] at h
      simp only [fork_child_eq] at h
      have ha := Allocated_allocated s (me, i) ext hfree
      by_cases hc : ext.copyuvm = 0
      · rw [if_pos hc] at h
        simp only [Option.some.injEq] at h
        rw [← h]
        exact Allocated_of_slot s _ (me, i) hfree rfl (by simp [allocated])
          (fun q hq => by simp [allocated, get_set_ne _ _ _ _ hq])
      · rw [if_neg hc] at h
        have hf : SamePids (allocated s (me, i) ext)
            (fork_filled cur (me, i) (allocated s (me, i) ext) ext) :=
          SamePids_set _ _ _ rfl Iff.rfl
        have hlive : ((fork_filled cur (me, i) (allocated s (me, i) ext) ext).get
            (me, i)).state ≠ UNUSED := by
          simp [fork_filled, allocated]
        change (match addrun1 fuel (fork_filled cur (me, i) (allocated s (me, i) ext) ext) me
          (me, i) with
          | none => none
          | some s9 => some (((allocated s (me, i) ext).get (me, i)).pid,
              s9.set (me, i) { s9.get (me, i) with name := ext.name })) = some r at h
        cases h1 : addrun1 fuel (fork_filled cur (me, i) (allocated s (me, i) ext) ext) me
            (me, i) with
        | none => rw [h1] at h; simp at h
        | some s9 =>
          rw [h1] at h
          simp only [Option.some.injEq] at h
          rw [← h]
          have h9 := addrun1_loop_SamePids me (me, i) _ s9 hlive fuel _ h1
          exact Allocated_SamePids (Allocated_SamePids (Allocated_SamePids ha hf) h9)
            (SamePids_set s9 (me, i) _ rfl Iff.rfl)

/-- The function `userinit`, with the assignments to the new slot
collected. -/
theorem userinit_eq (fuel NPROC me : Nat) (s : Kernel) (ext : Extern) (img : InitImage) :
    userinit fuel NPROC me s ext img =
      match allocproc_scan NPROC 0 me s with
      | none => none
      | some i =>
        if ext.kalloc = 0 then none
        else if ext.copyuvm = 0 then none
        else addrun fuel me (userinit_filled (me, i) (allocated s (me, i) ext) ext img) (me, i) := by
  unfold userinit allocproc
  cases hs : allocproc_scan NPROC 0 me s with
  | none => rfl
  | some i =>
    simp only [allocproc_found_eq]
    by_cases hk : ext.kalloc = 0
    · simp only [if_pos hk]
    · simp only [if_neg hk]
      by_cases hc : ext.copyuvm = 0
      · simp only [if_pos hc]
      · simp only [if_neg hc, get_set_same, set_set_same, get_setInitproc]
        rfl

/-- Whatever the fuel, a completed `userinit` hands out one id. -/
theorem userinit_Allocated (fuel NPROC me : Nat) (s s' : Kernel) (ext : Extern)
    (img : InitImage) (h : userinit fuel NPROC me s ext img = some s') : Allocated s s' := by
  rw [userinit_eq] at h
  cases hs : allocproc_scan NPROC 0 me s with
  | none => rw [hs] at h; simp at h
  | some i =>
    have hfree := allocproc_scan_free me s NPROC 0 i hs
    rw [hs] at h
    simp only at h
    by_cases hk : ext.kalloc = 0
    · rw [if_pos hk] at h; simp at h
    · rw [if_neg hk] at h
      by_cases hc : ext.copyuvm = 0
      · rw [if_pos hc] at h; simp at h
      · rw [if_neg hc] at h
        have ha : Allocated s (allocated s (me, i) ext) := Allocated_allocated s (me, i) ext hfree
        have h0 : SamePids (allocated s (me, i) ext)
            (userinit_filled (me, i) (allocated s (me, i) ext) ext img) := by
          refine ⟨rfl, fun q => ?_⟩
          by_cases hq : q = (me, i)
          · subst hq
            simp [userinit_filled]
          · simp [userinit_filled, get_set_ne _ _ _ _ hq]
        have hlive : ((userinit_filled (me, i) (allocated s (me, i) ext) ext img).get
            (me, i)).state ≠ UNUSED := by
          simp [userinit_filled, allocated]
        exact Allocated_SamePids (Allocated_SamePids ha h0)
          (addrun1_loop_SamePids me (me, i) _ s' hlive fuel _ h)

theorem PidInv_boot : PidInv boot := by
  refine ⟨⟨by decide, by decide⟩, ?_, ?_⟩
  · intro p hp
    exact absurd rfl hp
  · intro p q _ hp _
    exact absurd rfl hp

theorem PidInv_FewerPids {s s' : Kernel} (hinv : PidInv s) (h : FewerPids s s') : PidInv s' := by
  obtain ⟨hr, hlt, huniq⟩ := hinv
  obtain ⟨hn, hq⟩ := h
  refine ⟨by rw [hn]; exact hr, ?_, ?_⟩
  · intro p hp
    rw [hn, (hq p hp).2]
    exact hlt p (hq p hp).1
  · intro p q hpq hp hq'
    rw [(hq p hp).2, (hq q hq').2]
    exact huniq p q hpq (hq p hp).1 (hq q hq').1

/-- Handing out one id keeps the pid invariant as long as the counter does
not wrap around. -/
theorem PidInv_Allocated {s s' : Kernel} (hinv : PidInv s) (h : Allocated s s')
    (hmono : s.nextpid ≤ s'.nextpid) : PidInv s' := by
  obtain ⟨hr, hlt, huniq⟩ := hinv
  obtain ⟨hn, p, hfree, hpid, hother⟩ := h
  have hstep : s'.nextpid = s.nextpid + 1 := by
    rw [hn] at hmono ⊢
    unfold wrap32 at hmono ⊢
    omega
  have hmax : s.nextpid + 1 ≤ 2147483647 := by
    rw [hn] at hmono
    unfold wrap32 at hmono
    omega
  refine ⟨⟨by omega, by omega⟩, ?_, ?_⟩
  · intro q hq
    by_cases hqp : q = p
    · subst hqp
      rw [hpid]; omega
    · have hl := hlt q (fun e => hq ((hother q hqp).2.mpr e))
      rw [(hother q hqp).1]
      omega
  · intro q1 q2 hne h1 h2
    by_cases e1 : q1 = p
    · subst e1
      have e2 : q2 ≠ q1 := fun e => hne e.symm
      have hl := hlt q2 (fun e => h2 ((hother q2 e2).2.mpr e))
      rw [hpid, (hother q2 e2).1]
      omega
    · by_cases e2 : q2 = p
      · subst e2
        have hl := hlt q1 (fun e => h1 ((hother q1 e1).2.mpr e))
        rw [hpid, (hother q1 e1).1]
        omega
      · rw [(hother q1 e1).1, (hother q2 e2).1]
        exact huniq q1 q2 hne (fun e => h1 ((hother q1 e1).2.mpr e))
          (fun e => h2 ((hother q2 e2).2.mpr e))

/-- Every state reached while the counter has not wrapped satisfies the pid
invariant. -/
theorem PidReach_PidInv (NCPU NPROC : Nat) (s : Kernel) (h : PidReach NCPU NPROC s) :
    PidInv s := by
  induction h with
  | boot => exact PidInv_boot
  | step s s' _ hstep hmono ih =>
    cases hstep with
    | allocproc me ext =>
      rcases allocproc_Allocated NPROC me s ext with e | e
      · rw [e]; exact ih
      · exact PidInv_Allocated ih e hmono
    | userinit _ fuel me ext img hu =>
      exact PidInv_Allocated ih (userinit_Allocated fuel NPROC me s s' ext img hu) hmono
    | fork fuel me cur ext r _ hf =>
      rcases fork_Allocated fuel NPROC me cur s ext r hf with e | e
      · rw [e]; exact ih
      · exact PidInv_Allocated ih e hmono
    | kill fuel me pid r hk =>
      exact PidInv_FewerPids ih
        (FewerPids_of_SamePids (kill_outer_SamePids fuel NPROC me pid NCPU 0 s r hk))
    | exit _ fuel me cur hl he =>
      exact PidInv_FewerPids ih
        (FewerPids_of_SamePids (exit_SamePids fuel NCPU NPROC me cur s s' hl he))
    | wait fuel me cur r hl hw =>
      exact PidInv_FewerPids ih (wait_FewerPids fuel NCPU NPROC me cur s r hl hw)

/-- C15: in every state reached from `boot` (all slots UNUSED, `nextpid = 1`)
by `allocproc`, `userinit`, `fork` (successful or failed), `kill`, `exit` and
`wait` steps during which the pid counter did not wrap around, any two
distinct slots that are not UNUSED hold different ids, every such id is
below `nextpid`, and `nextpid` is positive. -/
theorem pids_unique_until_wrap (NCPU NPROC : Nat) (s : Kernel)
    (h : PidReach NCPU NPROC s) :
    (∀ p q, p ≠ q → (s.get p).state ≠ UNUSED → (s.get q).state ≠ UNUSED →
      (s.get p).pid ≠ (s.get q).pid) ∧
    (∀ p, (s.get p).state ≠ UNUSED → (s.get p).pid < s.nextpid) ∧
    0 < s.nextpid := by
  obtain ⟨hr, hlt, huniq⟩ := PidReach_PidInv NCPU NPROC s h
  exact ⟨huniq, hlt, by omega⟩

/-- The state `afterUserinit` is what `userinit` on CPU 0 makes of `boot`. -/
theorem userinit_boot : userinit 8 2 0 boot allFine sampleImage = some afterUserinit := rfl

/-- The state `afterFirstFork` is what a `fork` by init on CPU 0 makes of
`afterUserinit`; the call returns the id 2 of the child. -/
theorem fork_afterUserinit :
    fork 8 2 0 (0, 0) afterUserinit allFine = some (2, afterFirstFork) := rfl

/-- The state `afterFirstFork` is reached from `boot` without a wrap of the
pid counter: `userinit`, then a `fork` by init. -/
theorem PidReach_afterFirstFork : PidReach 2 2 afterFirstFork :=
  PidReach.step afterUserinit afterFirstFork
    (PidReach.step boot afterUserinit PidReach.boot
      (PidStep.userinit boot afterUserinit 8 0 allFine sampleImage userinit_boot) (by decide))
    (PidStep.fork afterUserinit 8 0 (0, 0) allFine (2, afterFirstFork) (by decide)
      fork_afterUserinit)
    (by decide)

/-- Witness for `pids_unique_until_wrap`: the state after `userinit` and one
`fork`, in which two slots hold a process, init with id 1 and its child with
id 2, and `nextpid` is 3. -/
theorem pids_unique_until_wrap_witness :
    PidReach 2 2 afterFirstFork ∧
    (afterFirstFork.get (0, 0)).state = RUNNABLE ∧ (afterFirstFork.get (0, 0)).pid = 1 ∧
    (afterFirstFork.get (0, 1)).state = RUNNABLE ∧ (afterFirstFork.get (0, 1)).pid = 2 ∧
    afterFirstFork.nextpid = 3 ∧
    ((∀ p q, p ≠ q → (afterFirstFork.get p).state ≠ UNUSED →
      (afterFirstFork.get q).state ≠ UNUSED →
      (afterFirstFork.get p).pid ≠ (afterFirstFork.get q).pid) ∧
    (∀ p, (afterFirstFork.get p).state ≠ UNUSED →
      (afterFirstFork.get p).pid < afterFirstFork.nextpid) ∧
    0 < afterFirstFork.nextpid) :=
  ⟨PidReach_afterFirstFork, by decide, by decide, by decide, by decide, by decide,
    pids_unique_until_wrap 2 2 afterFirstFork PidReach_afterFirstFork⟩

/-! ## The run-queue invariant -/

/-- More fuel does not change what a completed `addrun1` walk returns. -/
theorem addrun1_loop_mono (pt : Nat) (p : Ptr) (s s' : Kernel) (k : Nat) :
    ∀ (fuel : Nat) (a : Option Ptr), addrun1_loop fuel s pt p a = some s' →
      addrun1_loop (fuel + k) s pt p a = some s' := by
  intro fuel
  induction fuel with
  | zero => intro a h; simp [addrun1_loop] at h
  | succ f ih =>
    intro a h
    have e : f + 1 + k = (f + k) + 1 := by omega
    rw [e]
    cases a with
    | none => simpa [addrun1_loop] using h
    | some q =>
      by_cases hq : q = p
      · simpa [addrun1_loop, hq] using h
      · simp only [addrun1_loop, hq, if_false] at h ⊢
        exact ih _ h

/-- More fuel does not change what a completed `delrun1` walk returns. -/
theorem delrun1_loop_mono (pt : Nat) (target : Ptr) (s s' : Kernel) (k : Nat) :
    ∀ (fuel : Nat) (prev a : Option Ptr), delrun1_loop fuel s pt prev a target = some s' →
      delrun1_loop (fuel + k) s pt prev a target = some s' := by
  intro fuel
  induction fuel with
  | zero => intro prev a h; simp [delrun1_loop] at h
  | succ f ih =>
    intro prev a h
    have e : f + 1 + k = (f + k) + 1 := by omega
    rw [e]
    cases a with
    | none => simpa [delrun1_loop] using h
    | some n =>
      by_cases hn : n = target
      · simpa [delrun1_loop, hn] using h
      · simp only [delrun1_loop, hn, if_false] at h ⊢
        exact ih _ _ h

/-- More fuel does not change what a completed `steal` scan returns. -/
theorem steal_scan_mono (s : Kernel) (r : Option Ptr) (k : Nat) :
    ∀ (fuel : Nat) (a : Option Ptr), steal_scan fuel s a = some r →
      steal_scan (fuel + k) s a = some r := by
  intro fuel
  induction fuel with
  | zero => intro a h; simp [steal_scan] at h
  | succ f ih =>
    intro a h
    have e : f + 1 + k = (f + k) + 1 := by omega
    rw [e]
    cases a with
    | none => simpa [steal_scan] using h
    | some q =>
      by_cases hq : (s.get q).state = RUNNABLE
      · simpa [steal_scan, hq] using h
      · simp only [steal_scan, hq, if_false] at h ⊢
        exact ih _ h

/-- Whatever the fuel, a completed `addrun1` of a slot that is not on the
finite queue is the push of that slot. -/
theorem addrun1_fresh_det (pt : Nat) (p : Ptr) (s s' : Kernel) (l : List Ptr)
    (hl : Path s (s.runq pt) l) (hp : p ∉ l) (fuel : Nat)
    (h : addrun1 fuel s pt p = some s') :
    s' = (s.set p { s.get p with state := RUNNABLE, next := s.runq pt }).setRunq pt (some p) := by
  have h1 := addrun1_loop_mono pt p s s' (l.length + 1) fuel _ h
  have h2 := addrun1_fresh_eq pt p s l hl hp (fuel + (l.length + 1)) (by omega)
  simp only [addrun1] at h2
  rw [h1] at h2
  exact Option.some.inj h2

/-- Whatever the fuel, a completed `delrun1` on a duplicate-free finite
queue is the one described by `delrun1_on_queue`. -/
theorem delrun1_det (pt : Nat) (p : Ptr) (s s' : Kernel) (l : List Ptr)
    (hl : Path s (s.runq pt) l) (hnd : l.Nodup) (fuel : Nat)
    (h : delrun1 fuel s pt p = some s') :
    Path s' (s'.runq pt) (l.erase p) ∧
      (∀ q, s'.get q = { s.get q with next := (s'.get q).next }) ∧
      (∀ q, q ∉ l → s'.get q = s.get q) ∧
      (∀ d, d ≠ pt → s'.runq d = s.runq d) ∧
      s'.initproc = s.initproc ∧ s'.nextpid = s.nextpid := by
  obtain ⟨s0, e1, e2, e3, e4, e5, _, e7, e8⟩ := delrun1_on_queue pt p s l hl hnd
  have h1 := delrun1_loop_mono pt p s s' (l.length + 1) fuel none _ h
  have h2 := e1 (fuel + (l.length + 1)) (by omega)
  simp only [delrun1] at h2
  rw [h1] at h2
  have h3 : s' = s0 := Option.some.inj h2
  subst h3
  exact ⟨e2, e3, e4, e5, e7, e8⟩

/-- Whatever the fuel, a completed scan of `steal` over a finite queue
returns its first RUNNABLE entry. -/
theorem steal_scan_det (s : Kernel) (l : List Ptr) (a : Option Ptr) (r : Option Ptr)
    (hl : Path s a l) (fuel : Nat) (h : steal_scan fuel s a = some r) :
    r = l.find? (fun q => decide ((s.get q).state = RUNNABLE)) := by
  have h1 := steal_scan_mono s r (l.length + 1) fuel a h
  have h2 := steal_scan_path s l a (fuel + (l.length + 1)) hl (by omega)
  rw [h1] at h2
  exact Option.some.inj h2

/-- Writing a slot without changing its `next` link keeps the queues. -/
theorem QInv_set (s : Kernel) (l : Nat → List Ptr) (p : Ptr) (v : proc)
    (hv : v.next = (s.get p).next) (h : QInv s l) : QInv (s.set p v) l := by
  refine ⟨fun c => ?_, h.2.1, h.2.2⟩
  rw [runq_set]
  apply Path_congr s _ (l c) _ _ (h.1 c)
  intro y _
  by_cases hy : y = p
  · subst hy; rw [get_set_same, hv]
  · rw [get_set_ne _ _ _ _ hy]

/-- Pushing a slot that is on no queue puts it at the front of one queue and
keeps the others. -/
theorem QInv_push (s : Kernel) (l : Nat → List Ptr) (pt : Nat) (p : Ptr) (h : QInv s l)
    (hoff : ∀ c, p ∉ l c) :
    QInv ((s.set p { s.get p with state := RUNNABLE, next := s.runq pt }).setRunq pt (some p))
      (Function.update l pt (p :: l pt)) := by
  have hnext : ∀ y, y ≠ p →
      (((s.set p { s.get p with state := RUNNABLE, next := s.runq pt }).setRunq pt
        (some p)).get y).next = (s.get y).next := by
    intro y hy
    rw [get_setRunq, get_set_ne _ _ _ _ hy]
  refine ⟨fun c => ?_, fun c => ?_, fun c d hcd q hq => ?_⟩
  · by_cases hc : c = pt
    · subst hc
      rw [Function.update_same]
      refine ⟨by simp, ?_⟩
      rw [get_setRunq, get_set_same]
      apply Path_congr s _ _ _ _ (h.1 c)
      intro y hy
      exact hnext y (fun e => hoff c (e ▸ hy))
    · rw [Function.update_noteq hc, runq_setRunq_ne _ _ _ _ hc, runq_set]
      apply Path_congr s _ _ _ _ (h.1 c)
      intro y hy
      exact hnext y (fun e => hoff c (e ▸ hy))
  · by_cases hc : c = pt
    · subst hc
      rw [Function.update_same]
      exact List.nodup_cons.mpr ⟨hoff c, h.2.1 c⟩
    · rw [Function.update_noteq hc]
      exact h.2.1 c
  · by_cases hc : c = pt
    · subst hc
      have hd : d ≠ c := fun e => hcd e.symm
      rw [Function.update_same] at hq
      rw [Function.update_noteq hd]
      rcases List.mem_cons.mp hq with e | e
      · rw [e]; exact hoff d
      · exact h.2.2 c d hcd q e
    · rw [Function.update_noteq hc] at hq
      by_cases hd : d = pt
      · subst hd
        rw [Function.update_same]
        intro hmem
        rcases List.mem_cons.mp hmem with e | e
        · exact hoff c (e ▸ hq)
        · exact h.2.2 c d hcd q hq e
      · rw [Function.update_noteq hd]
        exact h.2.2 c d hcd q hq

/-- Whatever the fuel, a completed `delrun1` of an entry of queue `pt` takes
it off that queue and keeps the others. -/
theorem QInv_delrun1 (s s' : Kernel) (l : Nat → List Ptr) (pt : Nat) (p : Ptr) (fuel : Nat)
    (h : QInv s l) (hd : delrun1 fuel s pt p = some s') :
    QInv s' (Function.update l pt ((l pt).erase p)) ∧
      (∀ q, s'.get q = { s.get q with next := (s'.get q).next }) ∧
      s'.initproc = s.initproc ∧ s'.nextpid = s.nextpid := by
  obtain ⟨e2, e3, e4, e5, e7, e8⟩ := delrun1_det pt p s s' (l pt) (h.1 pt) (h.2.1 pt) fuel hd
  refine ⟨⟨fun c => ?_, fun c => ?_, fun c d hcd q hq => ?_⟩, e3, e7, e8⟩
  · by_cases hc : c = pt
    · subst hc
      rw [Function.update_same]
      exact e2
    · rw [Function.update_noteq hc, e5 c hc]
      apply Path_congr s _ _ _ _ (h.1 c)
      intro y hy
      rw [e4 y (h.2.2 c pt hc y hy)]
  · by_cases hc : c = pt
    · subst hc
      rw [Function.update_same]
      exact (h.2.1 c).erase p
    · rw [Function.update_noteq hc]
      exact h.2.1 c
  · by_cases hc : c = pt
    · subst hc
      have hd' : d ≠ c := fun e => hcd e.symm
      rw [Function.update_same] at hq
      rw [Function.update_noteq hd']
      exact h.2.2 c d hcd q (List.mem_of_mem_erase hq)
    · rw [Function.update_noteq hc] at hq
      by_cases hd' : d = pt
      · subst hd'
        rw [Function.update_same]
        intro hmem
        exact h.2.2 c d hcd q hq (List.mem_of_mem_erase hmem)
      · rw [Function.update_noteq hd']
        exact h.2.2 c d hcd q hq

theorem WakeRel.refl_wake (s : Kernel) (l : Nat → List Ptr) : WakeRel s l s l :=
  fun _ => Or.inl ⟨rfl, fun _ => Iff.rfl⟩

theorem WakeRel.trans_wake {s s1 s2 : Kernel} {l l1 l2 : Nat → List Ptr}
    (h1 : WakeRel s l s1 l1) (h2 : WakeRel s1 l1 s2 l2) : WakeRel s l s2 l2 := by
  intro q
  rcases h1 q with ⟨a1, a2⟩ | ⟨a1, a2, c, a3⟩
  · rcases h2 q with ⟨b1, b2⟩ | ⟨b1, b2, b3⟩
    · exact Or.inl ⟨b1.trans a1, fun c => (b2 c).trans (a2 c)⟩
    · exact Or.inr ⟨a1 ▸ b1, b2, b3⟩
  · rcases h2 q with ⟨b1, b2⟩ | ⟨_, b2, b3⟩
    · exact Or.inr ⟨a1, b1.trans a2, c, (b2 c).mpr a3⟩
    · exact Or.inr ⟨a1, b2, b3⟩

/-- Writing a slot without changing its state or its `next` link. -/
theorem JInv_set (s : Kernel) (l : Nat → List Ptr) (p : Ptr) (v : proc)
    (hn : v.next = (s.get p).next) (hs : v.state = (s.get p).state) (h : JInv s l) :
    JInv (s.set p v) l ∧ WakeRel s l (s.set p v) l := by
  have hst : ∀ q, ((s.set p v).get q).state = (s.get q).state := by
    intro q
    by_cases hq : q = p
    · subst hq; rw [get_set_same, hs]
    · rw [get_set_ne _ _ _ _ hq]
  refine ⟨⟨QInv_set s l p v hn h.1, fun q hq c => h.2 q (by rw [← hst q]; exact hq) c⟩, ?_⟩
  intro q
  exact Or.inl ⟨hst q, fun _ => Iff.rfl⟩

/-- Whatever the fuel, a completed `addrun1` of a SLEEPING slot wakes it. -/
theorem wake_addrun1 (s s' : Kernel) (l : Nat → List Ptr) (pt : Nat) (p : Ptr) (fuel : Nat)
    (h : JInv s l) (hp : (s.get p).state = SLEEPING) (ha : addrun1 fuel s pt p = some s') :
    ∃ l', JInv s' l' ∧ WakeRel s l s' l' := by
  have hoff : ∀ c, p ∉ l c := h.2 p hp
  have hs' := addrun1_fresh_det pt p s s' (l pt) (h.1.1 pt) (hoff pt) fuel ha
  subst hs'
  have hst : ∀ q, q ≠ p →
      (((s.set p { s.get p with state := RUNNABLE, next := s.runq pt }).setRunq pt
        (some p)).get q).state = (s.get q).state := by
    intro q hq
    rw [get_setRunq, get_set_ne _ _ _ _ hq]
  have hmem : ∀ q, q ≠ p → ∀ c, (q ∈ Function.update l pt (p :: l pt) c ↔ q ∈ l c) := by
    intro q hq c
    by_cases hc : c = pt
    · subst hc
      rw [Function.update_same, List.mem_cons]
      exact ⟨fun e => e.resolve_left hq, fun e => Or.inr e⟩
    · rw [Function.update_noteq hc]
  refine ⟨Function.update l pt (p :: l pt), ⟨QInv_push s l pt p h.1 hoff, ?_⟩, ?_⟩
  · intro q hq c
    have hqp : q ≠ p := by
      intro e
      rw [e] at hq
      simp at hq
    rw [hst q hqp] at hq
    rw [hmem q hqp c]
    exact h.2 q hq c
  · intro q
    by_cases hqp : q = p
    · subst hqp
      refine Or.inr ⟨hp, by simp, pt, ?_⟩
      rw [Function.update_same]
      exact List.mem_cons_self q (l pt)
    · exact Or.inl ⟨hst q hqp, hmem q hqp⟩

/-- Whatever the fuel, a completed `wakeup1` only wakes SLEEPING slots. -/
theorem wake_wakeup1_loop (fuel pt : Nat) (chan : Chan) :
    ∀ (n i : Nat) (s s' : Kernel) (l : Nat → List Ptr), JInv s l →
      wakeup1_loop fuel n i s pt chan = some s' → ∃ l', JInv s' l' ∧ WakeRel s l s' l' := by
  intro n
  induction n with
  | zero =>
    intro i s s' l hj h
    simp only [wakeup1_loop, Option.some.injEq] at h
    rw [← h]
    exact ⟨l, hj, WakeRel.refl_wake s l⟩
  | succ n ih =>
    intro i s s' l hj h
    by_cases hc : (s.get (pt, i)).state = SLEEPING ∧ (s.get (pt, i)).chan = chan
    · simp only [wakeup1_loop, if_pos hc] at h
      cases h1 : addrun1 fuel s pt (pt, i) with
      | none => rw [h1] at h; simp at h
      | some s1 =>
        rw [h1] at h
        obtain ⟨l1, j1, w1⟩ := wake_addrun1 s s1 l pt (pt, i) fuel hj hc.1 h1
        obtain ⟨l2, j2, w2⟩ := ih _ _ _ l1 j1 h
        exact ⟨l2, j2, w1.trans_wake w2⟩
    · simp only [wakeup1_loop, if_neg hc] at h
      exact ih _ _ _ l hj h

/-- Whatever the fuel, a completed `wakeup` only wakes SLEEPING slots. -/
theorem wake_wakeup_loop (fuel NPROC me : Nat) (chan : Chan) :
    ∀ (n : Nat) (s s' : Kernel) (l : Nat → List Ptr), JInv s l →
      wakeup_loop fuel NPROC me n s chan = some s' → ∃ l', JInv s' l' ∧ WakeRel s l s' l' := by
  intro n
  induction n with
  | zero =>
    intro s s' l hj h
    simp only [wakeup_loop, Option.some.injEq] at h
    rw [← h]
    exact ⟨l, hj, WakeRel.refl_wake s l⟩
  | succ n ih =>
    intro s s' l hj h
    simp only [wakeup_loop] at h
    cases h1 : wakeup1 fuel NPROC s me chan with
    | none => rw [h1] at h; simp at h
    | some s1 =>
      rw [h1] at h
      obtain ⟨l1, j1, w1⟩ := wake_wakeup1_loop fuel me chan NPROC 0 s s1 l hj h1
      obtain ⟨l2, j2, w2⟩ := ih _ _ l1 j1 h
      exact ⟨l2, j2, w1.trans_wake w2⟩

/-- Whatever the fuel, a completed `kill` only wakes SLEEPING slots. -/
theorem wake_kill_inner (fuel c me : Nat) (pid : Int) :
    ∀ (n i : Nat) (s : Kernel) (r : Bool × Kernel) (l : Nat → List Ptr), JInv s l →
      kill_inner fuel n i c me s pid = some r → ∃ l', JInv r.2 l' ∧ WakeRel s l r.2 l' := by
  intro n
  induction n with
  | zero =>
    intro i s r l hj h
    simp only [kill_inner, Option.some.injEq] at h
    rw [← h]
    exact ⟨l, hj, WakeRel.refl_wake s l⟩
  | succ n ih =>
    intro i s r l hj h
    by_cases hp : (s.get (me, i)).pid = pid
    · obtain ⟨j0, w0⟩ := JInv_set s l (me, i) { s.get (me, i) with killed := 1 } rfl rfl hj
      by_cases hs : (s.get (me, i)).state = SLEEPING
      · simp only [kill_inner, if_pos hp, get_set_same, if_pos hs] at h
        cases h1 : addrun1 fuel (s.set (me, i) { s.get (me, i) with killed := 1 }) c (me, i) with
        | none => rw [h1] at h; simp at h
        | some s2 =>
          rw [h1] at h
          simp only [Option.some.injEq] at h
          rw [← h]
          have hs1 : ((s.set (me, i) { s.get (me, i) with killed := 1 }).get (me, i)).state
              = SLEEPING := by
            rw [get_set_same]; exact hs
          obtain ⟨l2, j2, w2⟩ := wake_addrun1 _ s2 l c (me, i) fuel j0 hs1 h1
          exact ⟨l2, j2, w0.trans_wake w2⟩
      · simp only [kill_inner, if_pos hp, get_set_same, if_neg hs, Option.some.injEq] at h
        rw [← h]
        exact ⟨l, j0, w0⟩
    · simp only [kill_inner, if_neg hp] at h
      exact ih _ _ _ l hj h

theorem wake_kill_outer (fuel NPROC me : Nat) (pid : Int) :
    ∀ (n c : Nat) (s : Kernel) (r : Int × Kernel) (l : Nat → List Ptr), JInv s l →
      kill_outer fuel NPROC me n c s pid = some r → ∃ l', JInv r.2 l' ∧ WakeRel s l r.2 l' := by
  intro n
  induction n with
  | zero =>
    intro c s r l hj h
    simp only [kill_outer, Option.some.injEq] at h
    rw [← h]
    exact ⟨l, hj, WakeRel.refl_wake s l⟩
  | succ n ih =>
    intro c s r l hj h
    simp only [kill_outer] at h
    cases h1 : kill_inner fuel NPROC 0 c me s pid with
    | none => rw [h1] at h; simp at h
    | some r1 =>
      obtain ⟨b, s1⟩ := r1
      obtain ⟨l1, j1, w1⟩ := wake_kill_inner fuel c me pid NPROC 0 s _ l hj h1
      rw [h1] at h
      cases b with
      | true =>
        simp only [Option.some.injEq] at h
        rw [← h]
        exact ⟨l1, j1, w1⟩
      | false =>
        simp only at h
        obtain ⟨l2, j2, w2⟩ := ih _ _ _ l1 j1 h
        exact ⟨l2, j2, w1.trans_wake w2⟩

/-- Whatever the fuel, a completed reparenting pass only wakes SLEEPING
slots. -/
theorem wake_exit_reparent_inner (fuel NPROC c : Nat) (cur : Ptr) :
    ∀ (n i : Nat) (s s' : Kernel) (l : Nat → List Ptr), JInv s l →
      exit_reparent_inner fuel NPROC n i c cur s = some s' →
      ∃ l', JInv s' l' ∧ WakeRel s l s' l' := by
  intro n
  induction n with
  | zero =>
    intro i s s' l hj h
    simp only [exit_reparent_inner, Option.some.injEq] at h
    rw [← h]
    exact ⟨l, hj, WakeRel.refl_wake s l⟩
  | succ n ih =>
    intro i s s' l hj h
    by_cases hp : (s.get (c, i)).parent = some cur
    · obtain ⟨j0, w0⟩ := JInv_set s l (c, i) { s.get (c, i) with parent := s.initproc } rfl rfl hj
      by_cases hz : (s.get (c, i)).state = ZOMBIE
      · simp only [exit_reparent_inner, if_pos hp, get_set_same, if_pos hz] at h
        cases h1 : wakeup1 fuel NPROC (s.set (c, i) { s.get (c, i) with parent := s.initproc }) c
            (chanOf (s.set (c, i) { s.get (c, i) with parent := s.initproc }).initproc) with
        | none => rw [h1] at h; simp at h
        | some s2 =>
          rw [h1] at h
          obtain ⟨l2, j2, w2⟩ := wake_wakeup1_loop fuel c _ NPROC 0 _ s2 l j0 h1
          obtain ⟨l3, j3, w3⟩ := ih _ _ _ l2 j2 h
          exact ⟨l3, j3, (w0.trans_wake w2).trans_wake w3⟩
      · simp only [exit_reparent_inner, if_pos hp, get_set_same, if_neg hz] at h
        obtain ⟨l3, j3, w3⟩ := ih _ _ _ l j0 h
        exact ⟨l3, j3, w0.trans_wake w3⟩
    · simp only [exit_reparent_inner, if_neg hp] at h
      exact ih _ _ _ l hj h

theorem wake_exit_reparent_outer (fuel NCPU NPROC me : Nat) (cur : Ptr) :
    ∀ (n c : Nat) (s s' : Kernel) (l : Nat → List Ptr), JInv s l →
      exit_reparent_outer fuel NCPU NPROC me n c cur s = some s' →
      ∃ l', JInv s' l' ∧ WakeRel s l s' l' := by
  intro n
  induction n with
  | zero =>
    intro c s s' l hj h
    simp only [exit_reparent_outer, Option.some.injEq] at h
    rw [← h]
    exact ⟨l, hj, WakeRel.refl_wake s l⟩
  | succ n ih =>
    intro c s s' l hj h
    simp only [exit_reparent_outer] at h
    by_cases hc : NCPU ≤ me + c
    · rw [if_pos hc] at h; cases h
    rw [if_neg hc] at h
    cases h1 : exit_reparent_inner fuel NPROC NPROC 0 c cur s with
    | none => rw [h1] at h; simp at h
    | some s1 =>
      rw [h1] at h
      obtain ⟨l1, j1, w1⟩ := wake_exit_reparent_inner fuel NPROC c cur NPROC 0 s s1 l hj h1
      obtain ⟨l2, j2, w2⟩ := ih _ _ _ l1 j1 h
      exact ⟨l2, j2, w1.trans_wake w2⟩

/-- Under the scheduler invariant the queues hold no SLEEPING slot. -/
theorem JInv_of_sched (k : Kernel) (l : Nat → List Ptr) (hq : QInv k l)
    (h4 : ∀ p, (∃ c, p ∈ l c) ↔ ((k.get p).state = RUNNABLE ∨ (k.get p).state = RUNNING)) :
    JInv k l := by
  refine ⟨hq, fun q hs c hmem => ?_⟩
  rcases (h4 q).mp ⟨c, hmem⟩ with e | e
  · rw [hs] at e; cases e
  · rw [hs] at e; cases e

/-- Waking SLEEPING slots keeps the scheduler invariant. -/
theorem SchedInv_wake (k k' : Kernel) (cp : Nat → Option Ptr) (l l' : Nat → List Ptr)
    (h4 : ∀ p, (∃ c, p ∈ l c) ↔ ((k.get p).state = RUNNABLE ∨ (k.get p).state = RUNNING))
    (h5 : ∀ me p, cp me = some p → (k.get p).state = RUNNING ∧ p ∈ l me)
    (hj : JInv k' l') (hw : WakeRel k l k' l') :
    SchedInv { k := k', cpuproc := cp } := by
  refine ⟨l', hj.1, fun p => ?_, fun me p hp => ?_⟩
  · rcases hw p with ⟨a1, a2⟩ | ⟨_, a2, a3⟩
    · simp only
      rw [a1, ← h4 p]
      constructor
      · rintro ⟨c, hc⟩; exact ⟨c, (a2 c).mp hc⟩
      · rintro ⟨c, hc⟩; exact ⟨c, (a2 c).mpr hc⟩
    · exact ⟨fun _ => Or.inl a2, fun _ => a3⟩
  · obtain ⟨b1, b2⟩ := h5 me p hp
    rcases hw p with ⟨a1, a2⟩ | ⟨a1, _, _⟩
    · exact ⟨a1.trans b1, (a2 me).mpr b2⟩
    · rw [b1] at a1; cases a1

theorem SchedInv_wakeup (NCPU NPROC : Nat) (sys : Sys) (fuel me : Nat) (chan : Chan)
    (k' : Kernel) (hinv : SchedInv sys) (h : wakeup fuel NCPU NPROC me sys.k chan = some k') :
    SchedInv { k := k', cpuproc := sys.cpuproc } := by
  obtain ⟨l, hq, h4, h5⟩ := hinv
  obtain ⟨l', hj, hw⟩ := wake_wakeup_loop fuel NPROC me chan NCPU sys.k k' l
    (JInv_of_sched sys.k l hq h4) h
  exact SchedInv_wake sys.k k' sys.cpuproc l l' h4 h5 hj hw

theorem SchedInv_kill (NCPU NPROC : Nat) (sys : Sys) (fuel me : Nat) (pid : Int)
    (r : Int × Kernel) (hinv : SchedInv sys) (h : kill fuel NCPU NPROC me sys.k pid = some r) :
    SchedInv { k := r.2, cpuproc := sys.cpuproc } := by
  obtain ⟨l, hq, h4, h5⟩ := hinv
  obtain ⟨l', hj, hw⟩ := wake_kill_outer fuel NPROC me pid NCPU 0 sys.k r l
    (JInv_of_sched sys.k l hq h4) h
  exact SchedInv_wake sys.k r.2 sys.cpuproc l l' h4 h5 hj hw

/-- Writing a slot without changing its state or its `next` link keeps the
scheduler invariant. -/
theorem SchedInv_set (sys : Sys) (p : Ptr) (v : proc) (hinv : SchedInv sys)
    (hn : v.next = (sys.k.get p).next) (hs : v.state = (sys.k.get p).state) :
    SchedInv { k := sys.k.set p v, cpuproc := sys.cpuproc } := by
  obtain ⟨l, hq, h4, h5⟩ := hinv
  obtain ⟨hj, hw⟩ := JInv_set sys.k l p v hn hs (JInv_of_sched sys.k l hq h4)
  exact SchedInv_wake sys.k _ sys.cpuproc l l h4 h5 hj hw

theorem SchedInv_scheduler (sys : Sys) (me : Nat) (p : Ptr) (hinv : SchedInv sys)
    (hon : OnQueue sys.k me p) (hr : (sys.k.get p).state = RUNNABLE) :
    SchedInv { k := scheduler_run sys.k p,
               cpuproc := Function.update sys.cpuproc me (some p) } := by
  obtain ⟨l, hq, h4, h5⟩ := hinv
  obtain ⟨l0, hl0, hp0⟩ := hon
  have hpl : p ∈ l me := by
    rw [Path_functional sys.k (l me) l0 _ (hq.1 me) hl0]; exact hp0
  have hst : ∀ q, q ≠ p → ((scheduler_run sys.k p).get q).state = (sys.k.get q).state := by
    intro q hqp
    rw [scheduler_run, get_set_ne _ _ _ _ hqp]
  refine ⟨l, QInv_set sys.k l p _ rfl hq, fun q => ?_, fun c q hc => ?_⟩
  · by_cases hqp : q = p
    · subst hqp
      simp only [scheduler_run, get_set_same]
      exact ⟨fun _ => by simp, fun _ => ⟨me, hpl⟩⟩
    · simp only
      rw [hst q hqp]
      exact h4 q
  · simp only at hc
    by_cases hcm : c = me
    · subst hcm
      rw [Function.update_same] at hc
      have e : q = p := (Option.some.inj hc).symm
      subst e
      exact ⟨by simp [scheduler_run], hpl⟩
    · rw [Function.update_noteq hcm] at hc
      obtain ⟨b1, b2⟩ := h5 c q hc
      have hqp : q ≠ p := by
        intro e; rw [e, hr] at b1; cases b1
      exact ⟨by simp only; rw [hst q hqp]; exact b1, b2⟩

theorem SchedInv_yield (sys : Sys) (me : Nat) (cur : Ptr) (hinv : SchedInv sys)
    (hcur : sys.cpuproc me = some cur) :
    SchedInv { k := yield cur sys.k, cpuproc := Function.update sys.cpuproc me none } := by
  obtain ⟨l, hq, h4, h5⟩ := hinv
  obtain ⟨c1, c2⟩ := h5 me cur hcur
  have hst : ∀ q, q ≠ cur → ((yield cur sys.k).get q).state = (sys.k.get q).state := by
    intro q hqp
    rw [yield, get_set_ne _ _ _ _ hqp]
  refine ⟨l, QInv_set sys.k l cur _ rfl hq, fun q => ?_, fun c q hc => ?_⟩
  · by_cases hqp : q = cur
    · subst hqp
      simp only [yield, get_set_same]
      exact ⟨fun _ => by simp, fun _ => ⟨me, c2⟩⟩
    · simp only
      rw [hst q hqp]
      exact h4 q
  · simp only at hc
    by_cases hcm : c = me
    · subst hcm
      rw [Function.update_same] at hc
      cases hc
    · rw [Function.update_noteq hcm] at hc
      obtain ⟨b1, b2⟩ := h5 c q hc
      have hqp : q ≠ cur := by
        intro e
        rw [e] at b2
        exact hq.2.2 c me hcm cur b2 c2
      exact ⟨by simp only; rw [hst q hqp]; exact b1, b2⟩

theorem SchedInv_sleep_resume (sys : Sys) (cur : Ptr) (hinv : SchedInv sys) :
    SchedInv { k := sleep_resume cur sys.k, cpuproc := sys.cpuproc } :=
  SchedInv_set sys cur _ hinv rfl rfl

/-- Taking `cur` off queue `me` does not move any other slot. -/
theorem mem_update_erase (l : Nat → List Ptr) (me : Nat) (cur q : Ptr) (hq : q ≠ cur)
    (c : Nat) : q ∈ Function.update l me ((l me).erase cur) c ↔ q ∈ l c := by
  by_cases hc : c = me
  · subst hc
    rw [Function.update_same]
    exact ⟨List.mem_of_mem_erase, fun h => (List.mem_erase_of_ne hq).mpr h⟩
  · rw [Function.update_noteq hc]

/-- After `cur` is taken off the duplicate-free disjoint queues it is on no
queue. -/
theorem not_mem_update_erase (l : Nat → List Ptr) (me : Nat) (cur : Ptr)
    (hnd : ∀ c, (l c).Nodup) (hdis : ∀ c d, c ≠ d → ∀ q ∈ l c, q ∉ l d) (hcur : cur ∈ l me)
    (c : Nat) : cur ∉ Function.update l me ((l me).erase cur) c := by
  by_cases hc : c = me
  · subst hc
    rw [Function.update_same]
    intro hmem
    exact ((hnd c).mem_erase_iff.mp hmem).1 rfl
  · rw [Function.update_noteq hc]
    exact hdis me c (fun e => hc e.symm) cur hcur

/-- The scheduler invariant after the running process of CPU `me` has left
the CPU: it is on no queue and neither RUNNABLE nor RUNNING, and every other
slot was left alone or woken. -/
theorem SchedInv_after_leave (k k' : Kernel) (cp : Nat → Option Ptr) (l l4 : Nat → List Ptr)
    (me : Nat) (cur : Ptr) (hq : QInv k l)
    (h4 : ∀ p, (∃ c, p ∈ l c) ↔ ((k.get p).state = RUNNABLE ∨ (k.get p).state = RUNNING))
    (h5 : ∀ c p, cp c = some p → (k.get p).state = RUNNING ∧ p ∈ l c)
    (hcur : cp me = some cur) (hq' : QInv k' l4)
    (hrel : ∀ q, q ≠ cur →
      (((k'.get q).state = (k.get q).state ∧ ∀ c, (q ∈ l4 c ↔ q ∈ l c)) ∨
       ((k.get q).state = SLEEPING ∧ (k'.get q).state = RUNNABLE ∧ ∃ c, q ∈ l4 c)))
    (hst : (k'.get cur).state ≠ RUNNABLE ∧ (k'.get cur).state ≠ RUNNING)
    (hoff : ∀ c, cur ∉ l4 c) :
    SchedInv { k := k', cpuproc := Function.update cp me none } := by
  refine ⟨l4, hq', fun q => ?_, fun c q hc => ?_⟩
  · by_cases hqc : q = cur
    · subst hqc
      constructor
      · rintro ⟨c, hc⟩; exact absurd hc (hoff c)
      · rintro (e | e)
        · exact absurd e hst.1
        · exact absurd e hst.2
    · rcases hrel q hqc with ⟨a1, a2⟩ | ⟨_, a2, a3⟩
      · simp only
        rw [a1, ← h4 q]
        constructor
        · rintro ⟨c, hc⟩; exact ⟨c, (a2 c).mp hc⟩
        · rintro ⟨c, hc⟩; exact ⟨c, (a2 c).mpr hc⟩
      · exact ⟨fun _ => Or.inl a2, fun _ => a3⟩
  · simp only at hc
    by_cases hcm : c = me
    · subst hcm
      rw [Function.update_same] at hc
      cases hc
    · rw [Function.update_noteq hcm] at hc
      obtain ⟨b1, b2⟩ := h5 c q hc
      have hqc : q ≠ cur := by
        intro e
        rw [e] at b2
        exact hq.2.2 c me hcm cur b2 (h5 me cur hcur).2
      rcases hrel q hqc with ⟨a1, a2⟩ | ⟨a1, _, _⟩
      · exact ⟨a1.trans b1, (a2 c).mpr b2⟩
      · rw [b1] at a1; cases a1

/-- A completed `sleep` by the running process of CPU `me` keeps the
scheduler invariant. -/
theorem SchedInv_sleep (sys : Sys) (fuel me : Nat) (cur : Ptr) (chan : Chan) (lk : Nat)
    (k' : Kernel) (hinv : SchedInv sys) (hcur : sys.cpuproc me = some cur)
    (h : sleep fuel me cur sys.k chan lk = some k') :
    SchedInv { k := k', cpuproc := Function.update sys.cpuproc me none } := by
  obtain ⟨l, hq, h4, h5⟩ := hinv
  unfold sleep at h
  by_cases hlk : lk = 0
  · simp [hlk] at h
  · simp only [if_neg hlk] at h
    have hq1 : QInv (sys.k.set cur { sys.k.get cur with chan := chan }) l :=
      QInv_set sys.k l cur _ rfl hq
    have hq2 := QInv_set _ l cur
      { (sys.k.set cur { sys.k.get cur with chan := chan }).get cur with state := SLEEPING }
      rfl hq1
    obtain ⟨hq3, e3, _, _⟩ := QInv_delrun1 _ k' l me cur fuel hq2 h
    have hstate : ∀ q, (k'.get q).state =
        (((sys.k.set cur { sys.k.get cur with chan := chan }).set cur
          { (sys.k.set cur { sys.k.get cur with chan := chan }).get cur with
            state := SLEEPING }).get q).state := by
      intro q
      have := congrArg proc.state (e3 q)
      simpa using this
    refine SchedInv_after_leave sys.k k' sys.cpuproc l _ me cur hq h4 h5 hcur hq3 ?_ ?_
      (not_mem_update_erase l me cur hq.2.1 hq.2.2 (h5 me cur hcur).2)
    · intro q hqc
      left
      refine ⟨?_, mem_update_erase l me cur q hqc⟩
      rw [hstate q, get_set_ne _ _ _ _ hqc, get_set_ne _ _ _ _ hqc]
    · rw [hstate cur, get_set_same]
      exact ⟨by simp, by simp⟩

/-- A scan of `wait` that returns has reaped a ZOMBIE slot. -/
theorem wait_inner_zombie (c : Nat) (cur : Ptr) (s : Kernel) :
    ∀ (n i : Nat) (hk hk' : Bool) (r : Int × Kernel),
      wait_inner n i c cur s hk = (some r, hk') →
      ∃ q, (s.get q).state = ZOMBIE ∧ r.2 = wait_reap s q := by
  intro n
  induction n with
  | zero => intro i hk hk' r h; simp [wait_inner] at h
  | succ n ih =>
    intro i hk hk' r h
    by_cases hp : (s.get (c, i)).parent = some cur
    · by_cases hz : (s.get (c, i)).state = ZOMBIE
      · simp only [wait_inner, hp, ne_eq, not_true_eq_false, if_false, hz, if_true,
          Prod.mk.injEq, Option.some.injEq] at h
        exact ⟨(c, i), hz, by rw [← h.1]⟩
      · simp only [wait_inner, hp, ne_eq, not_true_eq_false, if_false, hz] at h
        exact ih _ _ _ _ h
    · simp only [wait_inner, ne_eq, hp, not_false_eq_true, if_true] at h
      exact ih _ _ _ _ h

theorem wait_outer_zombie (NPROC : Nat) (cur : Ptr) (s : Kernel) :
    ∀ (n c : Nat) (hk hk' : Bool) (r : Int × Kernel),
      wait_outer NPROC n c cur s hk = (some r, hk') →
      ∃ q, (s.get q).state = ZOMBIE ∧ r.2 = wait_reap s q := by
  intro n
  induction n with
  | zero => intro c hk hk' r h; simp [wait_outer] at h
  | succ n ih =>
    intro c hk hk' r h
    simp only [wait_outer] at h
    cases h1 : wait_inner NPROC 0 c cur s hk with
    | mk o hk1 =>
      rw [h1] at h
      cases o with
      | none => exact ih _ _ _ _ h
      | some r1 =>
        simp only [Prod.mk.injEq, Option.some.injEq] at h
        obtain ⟨q, hz, hq⟩ := wait_inner_zombie c cur s NPROC 0 hk hk1 r1 h1
        exact ⟨q, hz, by rw [← h.1]; exact hq⟩

/-- The outcomes of one round of `wait`: it returns with the state
unchanged or with one ZOMBIE slot reaped, or the caller has gone through
`sleep` on itself. -/
theorem wait_cases (fuel NCPU NPROC me : Nat) (cur : Ptr) (s : Kernel)
    (r : Option Int × Kernel) (h : wait fuel NCPU NPROC me cur s = some r) :
    (r.1 ≠ none ∧ (r.2 = s ∨ ∃ q, (s.get q).state = ZOMBIE ∧ r.2 = wait_reap s q)) ∨
    (r.1 = none ∧ sleep fuel me cur s (Chan.procp cur) 1 = some r.2) := by
  unfold wait at h
  cases h1 : wait_outer NPROC NCPU 0 cur s false with
  | mk o hk =>
    rw [h1] at h
    cases o with
    | some r1 =>
      obtain ⟨pid, s1⟩ := r1
      simp only [Option.some.injEq] at h
      obtain ⟨q, hz, hq⟩ := wait_outer_zombie NPROC cur s NCPU 0 false hk (pid, s1) h1
      rw [← h]
      exact Or.inl ⟨by simp, Or.inr ⟨q, hz, hq⟩⟩
    | none =>
      simp only at h
      by_cases hc : hk = false ∨ (s.get cur).killed ≠ 0
      · rw [if_pos hc] at h
        simp only [Option.some.injEq] at h
        rw [← h]
        exact Or.inl ⟨by simp, Or.inl rfl⟩
      · rw [if_neg hc] at h
        cases h2 : sleep fuel me cur s (Chan.procp cur) 1 with
        | none => rw [h2] at h; simp at h
        | some s1 =>
          rw [h2] at h
          simp only [Option.some.injEq] at h
          rw [← h]
          exact Or.inr ⟨rfl, rfl⟩

/-- Reaping a ZOMBIE slot keeps the scheduler invariant. -/
theorem SchedInv_reap (sys : Sys) (q : Ptr) (hinv : SchedInv sys)
    (hz : (sys.k.get q).state = ZOMBIE) :
    SchedInv { k := wait_reap sys.k q, cpuproc := sys.cpuproc } := by
  obtain ⟨l, hq, h4, h5⟩ := hinv
  have hst : ∀ p, p ≠ q → ((wait_reap sys.k q).get p).state = (sys.k.get p).state := by
    intro p hp
    rw [wait_reap, get_set_ne _ _ _ _ hp]
  have hoff : ¬ ∃ c, q ∈ l c := by
    intro hc
    rcases (h4 q).mp hc with e | e
    · rw [hz] at e; cases e
    · rw [hz] at e; cases e
  refine ⟨l, QInv_set sys.k l q _ rfl hq, fun p => ?_, fun c p hc => ?_⟩
  · by_cases hp : p = q
    · subst hp
      simp only [wait_reap, get_set_same]
      exact ⟨fun h => absurd h hoff, fun h => by simp at h⟩
    · simp only
      rw [hst p hp]
      exact h4 p
  · obtain ⟨b1, b2⟩ := h5 c p hc
    have hp : p ≠ q := by
      intro e; rw [e, hz] at b1; cases b1
    exact ⟨by simp only; rw [hst p hp]; exact b1, b2⟩

theorem SchedInv_wait_return (NCPU NPROC : Nat) (sys : Sys) (fuel me : Nat) (cur : Ptr)
    (v : Int) (k' : Kernel) (hinv : SchedInv sys)
    (h : wait fuel NCPU NPROC me cur sys.k = some (some v, k')) :
    SchedInv { k := k', cpuproc := sys.cpuproc } := by
  rcases wait_cases fuel NCPU NPROC me cur sys.k _ h with ⟨_, e | ⟨q, hz, e⟩⟩ | ⟨e, _⟩
  · simp only at e
    rw [e]
    exact hinv
  · simp only at e
    rw [e]
    exact SchedInv_reap sys q hinv hz
  · simp at e

theorem SchedInv_wait_sleep (NCPU NPROC : Nat) (sys : Sys) (fuel me : Nat) (cur : Ptr)
    (k' : Kernel) (hinv : SchedInv sys) (hcur : sys.cpuproc me = some cur)
    (h : wait fuel NCPU NPROC me cur sys.k = some (none, k')) :
    SchedInv { k := k', cpuproc := Function.update sys.cpuproc me none } := by
  rcases wait_cases fuel NCPU NPROC me cur sys.k _ h with ⟨e, _⟩ | ⟨_, e⟩
  · simp at e
  · exact SchedInv_sleep sys fuel me cur _ 1 k' hinv hcur e

/-- A completed `exit` by the running process of CPU `me` keeps the
scheduler invariant. -/
theorem SchedInv_exit (NCPU NPROC : Nat) (sys : Sys) (fuel me : Nat) (cur : Ptr)
    (k' : Kernel) (hinv : SchedInv sys) (hcur : sys.cpuproc me = some cur)
    (h : exit fuel NCPU NPROC me cur sys.k = some k') :
    SchedInv { k := k', cpuproc := Function.update sys.cpuproc me none } := by
  obtain ⟨l, hq, h4, h5⟩ := hinv
  obtain ⟨c1, c2⟩ := h5 me cur hcur
  unfold exit at h
  by_cases hi : sys.k.initproc = some cur
  · simp [hi] at h
  · simp only [if_neg hi] at h
    have hq1 : QInv (sys.k.set cur
        { sys.k.get cur with ofile := (sys.k.get cur).ofile.map (fun _ => 0), cwd := 0 }) l :=
      QInv_set sys.k l cur _ rfl hq
    have hst1 : ∀ q, ((sys.k.set cur
        { sys.k.get cur with ofile := (sys.k.get cur).ofile.map (fun _ => 0), cwd := 0 }).get
          q).state = (sys.k.get q).state := by
      intro q
      by_cases hqc : q = cur
      · subst hqc; simp
      · rw [get_set_ne _ _ _ _ hqc]
    cases h1 : delrun1 fuel (sys.k.set cur
        { sys.k.get cur with ofile := (sys.k.get cur).ofile.map (fun _ => 0), cwd := 0 })
        me cur with
    | none => rw [h1] at h; simp at h
    | some k2 =>
      rw [h1] at h
      simp only at h
      obtain ⟨hq2, e3, _, _⟩ := QInv_delrun1 _ k2 l me cur fuel hq1 h1
      have hst2 : ∀ q, (k2.get q).state = (sys.k.get q).state := by
        intro q
        have := congrArg proc.state (e3 q)
        rw [← hst1 q]
        simpa using this
      have hj2 : JInv k2 (Function.update l me ((l me).erase cur)) := by
        refine ⟨hq2, fun q hs c hmem => ?_⟩
        rw [hst2 q] at hs
        have hml : q ∈ l c := by
          by_cases hc : c = me
          · subst hc
            rw [Function.update_same] at hmem
            exact List.mem_of_mem_erase hmem
          · rw [Function.update_noteq hc] at hmem
            exact hmem
        rcases (h4 q).mp ⟨c, hml⟩ with e | e
        · rw [hs] at e; cases e
        · rw [hs] at e; cases e
      cases h2 : wakeup fuel NCPU NPROC me k2 (chanOf (k2.get cur).parent) with
      | none => rw [h2] at h; simp at h
      | some k3 =>
        rw [h2] at h
        simp only at h
        obtain ⟨l3, j3, w3⟩ := wake_wakeup_loop fuel NPROC me _ NCPU k2 k3 _ hj2 h2
        cases h3 : exit_reparent fuel NCPU NPROC me cur k3 with
        | none => rw [h3] at h; simp at h
        | some k4 =>
          rw [h3] at h
          simp only [Option.some.injEq] at h
          obtain ⟨l4, j4, w4⟩ := wake_exit_reparent_outer fuel NCPU NPROC me cur NCPU 0 k3 k4 l3 j3 h3
          have w := w3.trans_wake w4
          rw [← h]
          have hst4 : ∀ q, q ≠ cur →
              ((k4.set cur { k4.get cur with state := ZOMBIE }).get q).state
                = (k4.get q).state := by
            intro q hqc
            rw [get_set_ne _ _ _ _ hqc]
          refine SchedInv_after_leave sys.k _ sys.cpuproc l l4 me cur hq h4 h5 hcur
            (QInv_set k4 l4 cur _ rfl j4.1) ?_ ?_ ?_
          · intro q hqc
            rcases w q with ⟨a1, a2⟩ | ⟨a1, a2, a3⟩
            · left
              refine ⟨?_, fun c => (a2 c).trans (mem_update_erase l me cur q hqc c)⟩
              rw [hst4 q hqc, a1, hst2 q]
            · right
              exact ⟨by rw [← hst2 q]; exact a1, by rw [hst4 q hqc]; exact a2, a3⟩
          · rw [get_set_same]
            exact ⟨by simp, by simp⟩
          · intro c
            rcases w cur with ⟨_, a2⟩ | ⟨a1, _, _⟩
            · rw [a2 c]
              exact not_mem_update_erase l me cur hq.2.1 hq.2.2 c2 c
            · rw [hst2 cur, c1] at a1
              cases a1

/-- Pushing `p` on queue `pt` does not move any other slot. -/
theorem mem_update_cons (l : Nat → List Ptr) (pt : Nat) (p q : Ptr) (hq : q ≠ p) (c : Nat) :
    q ∈ Function.update l pt (p :: l pt) c ↔ q ∈ l c := by
  by_cases hc : c = pt
  · subst hc
    rw [Function.update_same, List.mem_cons]
    exact ⟨fun e => e.resolve_left hq, fun e => Or.inr e⟩
  · rw [Function.update_noteq hc]

/-- The outcomes of a completed `steal` loop on finite queues: nothing
changed, or a RUNNABLE entry of another table's queue went through
`delrun1` and `addrun`. -/
theorem steal_loop_cases (fuel me : Nat) (s s' : Kernel) (l : Nat → List Ptr)
    (hq : ∀ c, Path s (s.runq c) (l c)) :
    ∀ (n c : Nat), steal_loop fuel me n c s = some s' →
      s' = s ∨ ∃ c p s1, c ≠ me ∧ p ∈ l c ∧ (s.get p).state = RUNNABLE ∧
        delrun1 fuel s c p = some s1 ∧ addrun fuel me s1 p = some s' := by
  intro n
  induction n with
  | zero =>
    intro c h
    simp only [steal_loop, Option.some.injEq] at h
    exact Or.inl h.symm
  | succ n ih =>
    intro c h
    by_cases hcm : c = me
    · simp only [steal_loop, if_pos hcm] at h
      exact ih _ h
    · simp only [steal_loop, if_neg hcm] at h
      cases h1 : steal_scan fuel s (s.runq c) with
      | none => rw [h1] at h; simp at h
      | some r =>
        rw [h1] at h
        have hr := steal_scan_det s (l c) _ r (hq c) fuel h1
        cases r with
        | none => exact ih _ h
        | some p =>
          simp only at h
          have hp : p ∈ l c := List.mem_of_find?_eq_some hr.symm
          have hrun : (s.get p).state = RUNNABLE := by
            have := List.find?_some hr.symm
            simpa using this
          cases h2 : delrun1 fuel s c p with
          | none => rw [h2] at h; simp at h
          | some s1 =>
            rw [h2] at h
            exact Or.inr ⟨c, p, s1, hcm, hp, hrun, h2, h⟩

/-- A completed `steal` keeps the scheduler invariant. -/
theorem SchedInv_steal (NCPU : Nat) (sys : Sys) (fuel me : Nat) (k' : Kernel)
    (hinv : SchedInv sys) (h : steal fuel NCPU me sys.k = some k') :
    SchedInv { k := k', cpuproc := sys.cpuproc } := by
  obtain ⟨l, hq, h4, h5⟩ := hinv
  rcases steal_loop_cases fuel me sys.k k' l hq.1 NCPU 0 h with e |
    ⟨c, p, s1, hcm, hp, hrun, hd, ha⟩
  · rw [e]
    exact ⟨l, hq, h4, h5⟩
  · obtain ⟨hq1, e3, _, _⟩ := QInv_delrun1 sys.k s1 l c p fuel hq hd
    have hoff := not_mem_update_erase l c p hq.2.1 hq.2.2 hp
    have hs' := addrun1_fresh_det me p s1 k' _ (hq1.1 me) (hoff me) fuel ha
    have hq2 := QInv_push s1 _ me p hq1 hoff
    rw [← hs'] at hq2
    have hst : ∀ q, (k'.get q).state = (sys.k.get q).state := by
      intro q
      rw [hs']
      by_cases hqp : q = p
      · subst hqp
        rw [get_setRunq, get_set_same, hrun]
      · rw [get_setRunq, get_set_ne _ _ _ _ hqp]
        have := congrArg proc.state (e3 q)
        simpa using this
    have hmem : ∀ q, q ≠ p → ∀ c',
        (q ∈ Function.update (Function.update l c ((l c).erase p)) me
          (p :: Function.update l c ((l c).erase p) me) c' ↔ q ∈ l c') := by
      intro q hqp c'
      exact (mem_update_cons _ me p q hqp c').trans (mem_update_erase l c p q hqp c')
    refine ⟨_, hq2, fun q => ?_, fun c0 q hc0 => ?_⟩
    · simp only
      rw [hst q, ← h4 q]
      by_cases hqp : q = p
      · subst hqp
        refine ⟨fun _ => ⟨c, hp⟩, fun _ => ⟨me, ?_⟩⟩
        rw [Function.update_same]
        exact List.mem_cons_self q _
      · constructor
        · rintro ⟨c', hc'⟩; exact ⟨c', (hmem q hqp c').mp hc'⟩
        · rintro ⟨c', hc'⟩; exact ⟨c', (hmem q hqp c').mpr hc'⟩
    · obtain ⟨b1, b2⟩ := h5 c0 q hc0
      have hqp : q ≠ p := by
        intro e; rw [e, hrun] at b1; cases b1
      exact ⟨by simp only; rw [hst q]; exact b1, (hmem q hqp c0).mpr b2⟩

/-- The queues only depend on the queue heads and the `next` links. -/
theorem QInv_congr (s s' : Kernel) (l : Nat → List Ptr)
    (hr : ∀ c, s'.runq c = s.runq c) (hn : ∀ q, (s'.get q).next = (s.get q).next)
    (h : QInv s l) : QInv s' l := by
  refine ⟨fun c => ?_, h.2.1, h.2.2⟩
  rw [hr c]
  exact Path_congr s s' (l c) _ (fun y _ => hn y) (h.1 c)

/-- A state with the queue heads, `next` links and states of `sys.k` keeps
the scheduler invariant. -/
theorem SchedInv_same (sys : Sys) (k' : Kernel) (hinv : SchedInv sys)
    (hr : ∀ c, k'.runq c = sys.k.runq c) (hn : ∀ q, (k'.get q).next = (sys.k.get q).next)
    (hs : ∀ q, (k'.get q).state = (sys.k.get q).state) :
    SchedInv { k := k', cpuproc := sys.cpuproc } := by
  obtain ⟨l, hq, h4, h5⟩ := hinv
  refine ⟨l, QInv_congr sys.k k' l hr hn hq, fun p => ?_, fun c p hc => ?_⟩
  · simp only
    rw [hs p]
    exact h4 p
  · obtain ⟨b1, b2⟩ := h5 c p hc
    exact ⟨by simp only; rw [hs p]; exact b1, b2⟩

/-- A new process: the UNUSED slot `p` is filled in (state `s8`), pushed on
queue `me` by `addrun1`, and then written once more without touching its
state or link.  The scheduler invariant is kept. -/
theorem SchedInv_spawn (sys : Sys) (s8 s9 : Kernel) (fuel me : Nat) (p : Ptr) (v : proc)
    (hinv : SchedInv sys) (hfree : (sys.k.get p).state = UNUSED)
    (hr : ∀ c, s8.runq c = sys.k.runq c) (hn : ∀ q, (s8.get q).next = (sys.k.get q).next)
    (hs : ∀ q, q ≠ p → (s8.get q).state = (sys.k.get q).state)
    (ha : addrun1 fuel s8 me p = some s9)
    (hvn : v.next = (s9.get p).next) (hvs : v.state = (s9.get p).state) :
    SchedInv { k := s9.set p v, cpuproc := sys.cpuproc } := by
  obtain ⟨l, hq, h4, h5⟩ := hinv
  have hoff : ∀ c, p ∉ l c := by
    intro c hc
    rcases (h4 p).mp ⟨c, hc⟩ with e | e
    · rw [hfree] at e; cases e
    · rw [hfree] at e; cases e
  have hq8 := QInv_congr sys.k s8 l hr hn hq
  have hs9 := addrun1_fresh_det me p s8 s9 (l me) (hq8.1 me) (hoff me) fuel ha
  have hq9 := QInv_push s8 l me p hq8 hoff
  rw [← hs9] at hq9
  have hst : ∀ q, q ≠ p → ((s9.set p v).get q).state = (sys.k.get q).state := by
    intro q hqp
    rw [get_set_ne _ _ _ _ hqp, hs9, get_setRunq, get_set_ne _ _ _ _ hqp, hs q hqp]
  have hstp : ((s9.set p v).get p).state = RUNNABLE := by
    rw [get_set_same, hvs, hs9, get_setRunq, get_set_same]
  refine ⟨_, QInv_set s9 _ p v hvn hq9, fun q => ?_, fun c q hc => ?_⟩
  · by_cases hqp : q = p
    · subst hqp
      simp only
      rw [hstp]
      refine ⟨fun _ => Or.inl rfl, fun _ => ⟨me, ?_⟩⟩
      rw [Function.update_same]
      exact List.mem_cons_self q _
    · simp only
      rw [hst q hqp, ← h4 q]
      constructor
      · rintro ⟨c', hc'⟩; exact ⟨c', (mem_update_cons l me p q hqp c').mp hc'⟩
      · rintro ⟨c', hc'⟩; exact ⟨c', (mem_update_cons l me p q hqp c').mpr hc'⟩
  · obtain ⟨b1, b2⟩ := h5 c q hc
    have hqp : q ≠ p := by
      intro e; rw [e, hfree] at b1; cases b1
    exact ⟨by simp only; rw [hst q hqp]; exact b1, (mem_update_cons l me p q hqp c).mpr b2⟩

/-- Whatever its outcome, a completed `fork` keeps the scheduler
invariant. -/
theorem SchedInv_fork (NPROC : Nat) (sys : Sys) (fuel me : Nat) (cur : Ptr) (ext : Extern)
    (r : Int × Kernel) (hinv : SchedInv sys) (h : fork fuel NPROC me cur sys.k ext = some r) :
    SchedInv { k := r.2, cpuproc := sys.cpuproc } := by
  unfold fork allocproc at h
  cases hs : allocproc_scan NPROC 0 me sys.k with
  | none =>
    rw [hs] at h
    simp only [Option.some.injEq] at h
    rw [← h]
    exact hinv
  | some i =>
    have hfree := allocproc_scan_free me sys.k NPROC 0 i hs
    rw [hs] at h
    simp only [allocproc_found_eq] at h
    by_cases hk : ext.kalloc = 0
    · rw [if_pos hk] at h
      simp only [Option.some.injEq] at h
      rw [← h]
      refine SchedInv_same sys _ hinv (fun c => by simp) (fun q => ?_) (fun q => ?_)
      · by_cases hq : q = (me, i)
        · subst hq; simp
        · simp [get_set_ne _ _ _ _ hq]
      · by_cases hq : q = (me, i)
        · subst hq; simp [hfree]
        · simp [get_set_ne _ _ _ _ hq]
    · rw [if_neg hk] at h
      simp only [fork_child_eq] at h
      by_cases hc : ext.copyuvm = 0
      · rw [if_pos hc] at h
        simp only [Option.some.injEq] at h
        rw [← h]
        refine SchedInv_same sys _ hinv (fun c => by simp) (fun q => ?_) (fun q => ?_)
        · by_cases hq : q = (me, i)
          · subst hq; simp
          · simp [get_set_ne _ _ _ _ hq]
        · by_cases hq : q = (me, i)
          · subst hq; simp [hfree]
          · simp [get_set_ne _ _ _ _ hq]
      · rw [if_neg hc] at h
        change (match addrun1 fuel (fork_filled cur (me, i) (allocated sys.k (me, i) ext) ext) me
          (me, i) with
          | none => none
          | some s9 => some (((allocated sys.k (me, i) ext).get (me, i)).pid,
              s9.set (me, i) { s9.get (me, i) with name := ext.name })) = some r at h
        cases h1 : addrun1 fuel (fork_filled cur (me, i) (allocated sys.k (me, i) ext) ext) me
            (me, i) with
        | none => rw [h1] at h; simp at h
        | some s9 =>
          rw [h1] at h
          simp only [Option.some.injEq] at h
          rw [← h]
          refine SchedInv_spawn sys _ s9 fuel me (me, i) _ hinv hfree (fun c => ?_)
            (fun q => ?_) (fun q hq => ?_) h1 rfl rfl
          · simp [fork_filled, allocated]
          · rw [fork_filled_next, (allocated_sz_tf sys.k (me, i) q ext).2.2]
          · simp [fork_filled, allocated, get_set_ne _ _ _ _ hq]

/-- A completed `userinit` keeps the scheduler invariant. -/
theorem SchedInv_userinit (NPROC : Nat) (sys : Sys) (fuel me : Nat) (ext : Extern)
    (img : InitImage) (k' : Kernel) (hinv : SchedInv sys)
    (h : userinit fuel NPROC me sys.k ext img = some k') :
    SchedInv { k := k', cpuproc := sys.cpuproc } := by
  rw [userinit_eq] at h
  cases hs : allocproc_scan NPROC 0 me sys.k with
  | none => rw [hs] at h; simp at h
  | some i =>
    have hfree := allocproc_scan_free me sys.k NPROC 0 i hs
    rw [hs] at h
    simp only at h
    by_cases hk : ext.kalloc = 0
    · rw [if_pos hk] at h; simp at h
    · rw [if_neg hk] at h
      by_cases hc : ext.copyuvm = 0
      · rw [if_pos hc] at h; simp at h
      · rw [if_neg hc] at h
        have hfin : k' = k'.set (me, i) (k'.get (me, i)) := (set_get_self k' (me, i) _ rfl).symm
        rw [hfin]
        refine SchedInv_spawn sys _ k' fuel me (me, i) _ hinv hfree (fun c => ?_)
          (fun q => ?_) (fun q hq => ?_) h rfl rfl
        · simp [userinit_filled, allocated]
        · by_cases hq : q = (me, i)
          · subst hq; simp [userinit_filled, allocated]
          · simp [userinit_filled, allocated, get_set_ne _ _ _ _ hq]
        · simp [userinit_filled, allocated, get_set_ne _ _ _ _ hq]

theorem SchedInv_boot : SchedInv Sys.boot := by
  refine ⟨fun _ => [], ⟨fun c => rfl, fun c => List.nodup_nil, fun c d _ q hq => by simp at hq⟩,
    fun p => ?_, fun me p hp => ?_⟩
  · constructor
    · rintro ⟨c, hc⟩; simp at hc
    · have hu : (Sys.boot.k.get p).state = UNUSED := rfl
      rintro (e | e)
      · rw [hu] at e; cases e
      · rw [hu] at e; cases e
  · simp [Sys.boot] at hp

/-- Every reachable state satisfies the scheduler invariant. -/
theorem Reach_SchedInv (NCPU NPROC : Nat) (sys : Sys) (h : Reach NCPU NPROC sys) :
    SchedInv sys := by
  induction h with
  | boot => exact SchedInv_boot
  | step sys sys' _ hstep ih =>
    cases hstep with
    | userinit fuel me ext img k' _ hu => exact SchedInv_userinit NPROC sys fuel me ext img k' ih hu
    | fork fuel me cur ext r _ _ hf => exact SchedInv_fork NPROC sys fuel me cur ext r ih hf
    | scheduler me p _ _ hon hr => exact SchedInv_scheduler sys me p ih hon hr
    | yield me cur _ hc => exact SchedInv_yield sys me cur ih hc
    | sleep fuel me cur chan lk k' _ hc hs =>
      exact SchedInv_sleep sys fuel me cur chan lk k' ih hc hs
    | sleep_resume me cur _ _ => exact SchedInv_sleep_resume sys cur ih
    | wakeup fuel me chan k' _ hw => exact SchedInv_wakeup NCPU NPROC sys fuel me chan k' ih hw
    | kill fuel me pid r _ hk => exact SchedInv_kill NCPU NPROC sys fuel me pid r ih hk
    | exit fuel me cur k' _ hc he => exact SchedInv_exit NCPU NPROC sys fuel me cur k' ih hc he
    | wait_return fuel me cur v k' _ _ hw =>
      exact SchedInv_wait_return NCPU NPROC sys fuel me cur v k' ih hw
    | wait_sleep fuel me cur k' _ hc hw =>
      exact SchedInv_wait_sleep NCPU NPROC sys fuel me cur k' ih hc hw
    | steal fuel me k' _ _ hs => exact SchedInv_steal NCPU sys fuel me k' ih hs

/-- The state `afterFirstSchedule` is reachable: `userinit` on CPU 0, then
the scheduler of CPU 0 chooses init. -/
theorem Reach_afterFirstSchedule : Reach 2 2 afterFirstSchedule :=
  Reach.step _ _
    (Reach.step _ _ Reach.boot
      (Step.userinit Sys.boot 8 0 allFine sampleImage afterUserinit (by decide) userinit_boot))
    (Step.scheduler { k := afterUserinit, cpuproc := Sys.boot.cpuproc } 0 (0, 0) (by decide) rfl
      ⟨[(0, 0)], by decide, by simp⟩ (by decide))

/-- The function `sleep` is its two assignments under the caller's table
lock, followed by `delrun1`. -/
theorem sleep_eq_mark (fuel me : Nat) (cur : Ptr) (s : Kernel) (chan : Chan) (lk : Nat) :
    sleep fuel me cur s chan lk =
      if lk = 0 then none else delrun1 fuel (sleep_mark cur s chan) me cur := rfl

/-- The function `exit` is `exit_unlink`, followed by `wakeup(proc->parent)`,
the reparenting pass and the assignment of ZOMBIE. -/
theorem exit_eq_unlink (fuel NCPU NPROC me : Nat) (cur : Ptr) (s : Kernel) :
    exit fuel NCPU NPROC me cur s =
      (exit_unlink fuel me cur s).bind (fun s2 =>
        (wakeup fuel NCPU NPROC me s2 (chanOf (s2.get cur).parent)).bind (fun s3 =>
          (exit_reparent fuel NCPU NPROC me cur s3).map (fun s4 =>
            s4.set cur { s4.get cur with state := ZOMBIE }))) := by
  unfold exit exit_unlink
  by_cases hi : s.initproc = some cur
  · simp only [if_pos hi, Option.bind]
  · simp only [if_neg hi]
    cases h1 : delrun1 fuel (s.set cur
        { s.get cur with ofile := (s.get cur).ofile.map (fun _ => 0), cwd := 0 }) me cur with
    | none => rfl
    | some s2 =>
      simp only [Option.bind]
      cases h2 : wakeup fuel NCPU NPROC me s2 (chanOf (s2.get cur).parent) with
      | none => rfl
      | some s3 =>
        simp only
        cases h3 : exit_reparent fuel NCPU NPROC me cur s3 with
        | none => rfl
        | some s4 => rfl

/-- The state `cpu1Userinit` is what `userinit` on CPU 1 makes of `boot`. -/
theorem userinit_cpu1 : userinit 8 2 1 boot allFine sampleImage = some cpu1Userinit := rfl

/-- The state `cpu1Forked` is what a `fork` by init, running on CPU 1, makes
of the state in which the scheduler of CPU 1 has chosen init. -/
theorem fork_cpu1 :
    fork 8 2 1 (1, 0) (scheduler_run cpu1Userinit (1, 0)) allFine = some (2, cpu1Forked) := rfl

/-- The state `cpu0Stole` is what `steal` on CPU 0 makes of `cpu1Forked`. -/
theorem steal_cpu0 : steal 8 2 0 cpu1Forked = some cpu0Stole := rfl

/-- The state `stolenChildRunning` is reachable: `userinit` on CPU 1, the
scheduler of CPU 1 chooses init, init forks, CPU 0 steals the child, and the
scheduler of CPU 0 chooses it. -/
theorem Reach_stolenChildRunning : Reach 2 2 stolenChildRunning :=
  Reach.step _ _
    (Reach.step _ _
      (Reach.step _ _
        (Reach.step _ _
          (Reach.step _ _ Reach.boot
            (Step.userinit Sys.boot 8 1 allFine sampleImage cpu1Userinit (by decide)
              userinit_cpu1))
          (Step.scheduler { k := cpu1Userinit, cpuproc := Sys.boot.cpuproc } 1 (1, 0)
            (by decide) rfl ⟨[(1, 0)], by decide, by simp⟩ (by decide)))
        (Step.fork
          { k := scheduler_run cpu1Userinit (1, 0),
            cpuproc := Function.update Sys.boot.cpuproc 1 (some (1, 0)) }
          8 1 (1, 0) allFine (2, cpu1Forked) (by decide) rfl fork_cpu1))
      (Step.steal
        { k := cpu1Forked, cpuproc := Function.update Sys.boot.cpuproc 1 (some (1, 0)) }
        8 0 cpu0Stole (by decide) rfl steal_cpu0))
    (Step.scheduler
      { k := cpu0Stole, cpuproc := Function.update Sys.boot.cpuproc 1 (some (1, 0)) }
      0 (1, 1) (by decide) rfl ⟨[(1, 1)], by decide, by simp⟩ (by decide))

/-- C11, counterexample, in three parts.
First, the state `afterFirstSchedule` is reachable (`userinit`, then the
scheduler loop of CPU 0 chooses init), and in it init (slot (0,0)) is the one
entry of CPU 0's run queue and is on no other queue, yet its state is
RUNNING, not RUNNABLE.
Second, operations of two CPUs that overlap: in the reachable state
`stolenChildRunning` slot (1,1) runs on CPU 0 and is linked in queue 0, and
init (slot (1,0)) runs on CPU 1 and is linked in queue 1.  Init calls
`wakeup(7)`, whose first pass (under the lock of table 0) changes nothing;
slot (1,1) then calls `sleep(7, lk)` and, holding the lock of table 0, marks
itself SLEEPING on channel 7; the second pass of `wakeup`, under the lock of
table 1, now runs `wakeup1` on table 1 and returns.  In the state it leaves,
with `sleep` not yet at its `delrun1`, slot (1,1) is RUNNABLE and both it and
init are linked in queue 0 and in queue 1.
Third, an operation that is not run to its end: when slot (1,1) calls
`exit` in `stolenChildRunning`, the state at the first
`release(&ptable->lock)` has it RUNNING and on no queue. -/
theorem running_process_stays_queued :
    (∃ sys, Reach 2 2 sys ∧
      Path sys.k (sys.k.runq 0) [(0, 0)] ∧ (∀ c < 2, c ≠ 0 → sys.k.runq c = none) ∧
      (sys.k.get (0, 0)).state = RUNNING ∧ (sys.k.get (0, 0)).state ≠ RUNNABLE) ∧
    (Reach 2 2 stolenChildRunning ∧
      stolenChildRunning.cpuproc 0 = some (1, 1) ∧
      stolenChildRunning.cpuproc 1 = some (1, 0) ∧
      Path stolenChildRunning.k (stolenChildRunning.k.runq 0) [(1, 1)] ∧
      Path stolenChildRunning.k (stolenChildRunning.k.runq 1) [(1, 0)] ∧
      wakeup1 8 2 stolenChildRunning.k 1 (Chan.other 7) = some stolenChildRunning.k ∧
      ∃ k, wakeup1 8 2 (sleep_mark (1, 1) stolenChildRunning.k (Chan.other 7)) 1 (Chan.other 7)
          = some k ∧
        (k.get (1, 1)).state = RUNNABLE ∧
        Path k (k.runq 0) [(1, 1), (1, 0)] ∧ Path k (k.runq 1) [(1, 1), (1, 0)]) ∧
    (∃ k, exit_unlink 8 0 (1, 1) stolenChildRunning.k = some k ∧
      (k.get (1, 1)).state = RUNNING ∧ k.runq 0 = none ∧ Path k (k.runq 1) [(1, 0)]) :=
  ⟨⟨afterFirstSchedule, Reach_afterFirstSchedule, by decide, by decide, by decide, by decide⟩,
   ⟨Reach_stolenChildRunning, rfl, rfl, by decide, by decide, rfl,
    ⟨_, rfl, by decide, by decide, by decide⟩⟩,
   ⟨_, rfl, by decide, by decide, by decide⟩⟩

/-- C11, amended: in every state reached from the initial state when the
scheduler's operations (`userinit`, `fork`, the scheduler loop choosing a
process and marking it RUNNING, `yield`, `sleep`, `wakeup`, `kill`, `exit`,
`wait`, `steal`) are executed one at a time, each run to completion (up to
its `sched()`), the run queues are finite duplicate-free lists, and for
every slot `p`: `p` is on exactly one run queue if and only if its state is
RUNNABLE or RUNNING; no slot is on two queues. -/
theorem queued_iff_runnable_or_running (NCPU NPROC : Nat) (sys : Sys)
    (h : Reach NCPU NPROC sys) :
    ∃ l : Nat → List Ptr,
      (∀ c, Path sys.k (sys.k.runq c) (l c)) ∧ (∀ c, (l c).Nodup) ∧
      (∀ p c d, p ∈ l c → p ∈ l d → c = d) ∧
      (∀ p, (∃ c, p ∈ l c ∧ ∀ d, p ∈ l d → d = c) ↔
        ((sys.k.get p).state = RUNNABLE ∨ (sys.k.get p).state = RUNNING)) := by
  obtain ⟨l, hq, h4, _⟩ := Reach_SchedInv NCPU NPROC sys h
  have huniq : ∀ p c d, p ∈ l c → p ∈ l d → c = d := by
    intro p c d hc hd
    by_contra hne
    exact hq.2.2 c d hne p hc hd
  refine ⟨l, hq.1, hq.2.1, huniq, fun p => ?_⟩
  rw [← h4 p]
  constructor
  · rintro ⟨c, hc, _⟩; exact ⟨c, hc⟩
  · rintro ⟨c, hc⟩; exact ⟨c, hc, fun d hd => huniq p d c hd hc⟩

/-- Witness for `queued_iff_runnable_or_running`: the reachable state
`afterFirstSchedule`. -/
theorem queued_iff_runnable_or_running_witness :
    ∃ l : Nat → List Ptr,
      (∀ c, Path afterFirstSchedule.k (afterFirstSchedule.k.runq c) (l c)) ∧
      (∀ c, (l c).Nodup) ∧
      (∀ p c d, p ∈ l c → p ∈ l d → c = d) ∧
      (∀ p, (∃ c, p ∈ l c ∧ ∀ d, p ∈ l d → d = c) ↔
        ((afterFirstSchedule.k.get p).state = RUNNABLE ∨
          (afterFirstSchedule.k.get p).state = RUNNING)) :=
  queued_iff_runnable_or_running 2 2 afterFirstSchedule Reach_afterFirstSchedule

end Xv6
